import Mathlib

/-!
# sit: index, object store and reconciliation engine

A shallow embedding of `src/Index.cc`, `src/Objects.cc` and `src/Core.cc`.

* A `std::string` is the list of its characters (`Str`).
* A `boost::filesystem::path` is represented by its generic string.
* A `std::map` is the list of its entries in ascending key order.
* Sections marked "Modelled from the spec" stand for collaborators whose code
  is not part of the three files (file system, hashing, refs, status).
-/

namespace Sit

/-! ## Strings -/

/-- A `std::string`: its characters in order. -/
abbrev Str := List Char

/-- Lexicographic comparison driven by `<` only, as `std::lexicographical_compare`. -/
def lexLt {α : Type} (lt : α → α → Bool) : List α → List α → Bool
  | [], [] => false
  | [], _ :: _ => true
  | _ :: _, [] => false
  | a :: as, b :: bs =>
    if lt a b then true else if lt b a then false else lexLt lt as bs

/-- Comparison of two characters by code. -/
def charLt (a b : Char) : Bool := decide (a.toNat < b.toNat)

/-- The order of `std::string` (`operator<`). -/
def strLt : Str → Str → Bool := lexLt charLt

/-- Split at every occurrence of `c`, keeping empty tokens
(`boost::split` with `is_any_of`, token compression off). -/
def splitOn (c : Char) : Str → List Str
  | [] => [[]]
  | x :: xs =>
    if x = c then [] :: splitOn c xs
    else
      match splitOn c xs with
      | [] => [[x]]
      | h :: t => (x :: h) :: t

/-- Join tokens with the separator `c`. -/
def joinSep (c : Char) : List Str → Str
  | [] => []
  | [s] => s
  | s :: t :: rest => s ++ c :: joinSep c (t :: rest)

/-- The test `s.find(t) == 0` on `std::string`: `t` is a leading substring of `s`. -/
def startsWith (s t : Str) : Bool := t.isPrefixOf s

/-- Member `substr(pos, n)` of `std::string`; `none` stands for the `out_of_range`
exception thrown when `pos` is past the end. -/
def substr (s : Str) (pos n : Nat) : Option Str :=
  if pos ≤ s.length then some ((s.drop pos).take n) else none

/-- Member `substr(pos)`: the rest of the string from `pos`. -/
def substrFrom (s : Str) (pos : Nat) : Option Str :=
  if pos ≤ s.length then some (s.drop pos) else none

/-! ## Paths (`boost::filesystem::path`) -/

/-- The elements a path is compared by: its names between separators. On a clean path
(`cleanPath`: no name is empty) these are the elements `boost::filesystem::path`
iterates over; a path with a root, a doubled or a trailing separator has other
elements there (the root apart, no empty name, `.` after a trailing separator). -/
def pathElems (p : Str) : List Str := splitOn '/' p

/-- The order of `boost::filesystem::path` (`operator<`): element by element,
each element as a string. It is the key order of the index map, exact on clean paths:
there two paths are the same key only when they are the same string. -/
def pathLt (a b : Str) : Bool := lexLt strLt (pathElems a) (pathElems b)

/-- A clean path: every name between separators is non-empty. Such a path has no root
and no doubled or trailing separator, and is not the empty path. -/
def cleanPath (p : Str) : Prop := ∀ c ∈ splitOn '/' p, c ≠ []

instance (p : Str) : Decidable (cleanPath p) := by
  unfold cleanPath; infer_instance

/-- A plain path: a clean path none of whose names is `.` or `..`. Two plain paths name
the same file below a directory only when they are the same string. -/
def plainPath (p : Str) : Prop :=
  ∀ c ∈ splitOn '/' p, c ≠ [] ∧ c ≠ ['.'] ∧ c ≠ ['.', '.']

instance (p : Str) : Decidable (plainPath p) := by
  unfold plainPath; infer_instance

/-- The member `relative_path()` of `boost::filesystem::path`: the path without its
root name (`//net`) and root directory (the leading separators). -/
def relative_path : Str → Str
  | [] => []
  | c :: cs =>
    if c = '/' then
      match cs with
      | [] => []
      | d :: ds =>
        if d = '/' then
          if ds.head? = some '/' then ds.dropWhile (fun x => x == '/')
          else (ds.dropWhile (fun x => x != '/')).dropWhile (fun x => x == '/')
        else d :: ds
    else c :: cs

/-- A path without root name and root directory. -/
def isRelative (p : Str) : Prop := p.head? ≠ some '/'

instance (p : Str) : Decidable (isRelative p) := by
  unfold isRelative; infer_instance

/-- The path operator `a / b` of `boost::filesystem::path`: an empty `b` leaves `a`;
a separator is put between the two unless `a` is empty, `a` ends with one or `b`
starts with one. -/
def pathJoin (a b : Str) : Str :=
  if b = [] then a
  else if b.head? = some '/' then a ++ b
  else if a = [] ∨ a.getLast? = some '/' then a ++ b
  else a ++ '/' :: b

/-- Member `filename()` of `boost::filesystem::path`, for a path without root: the last
element, which is `.` when the path ends with a separator. On a clean path it is the
last name; for a path that is only a root name (`//net`) the library gives the whole
path, which this definition does not follow. -/
def pathFilename (p : Str) : Str :=
  let last := (pathElems p).getLast?.getD []
  if last = [] ∧ p ≠ [] then ['.'] else last

/-- The file a path names for the process: a path without root is taken from the
current directory. The result is compared as a string: it tells two files apart
exactly when the paths are plain, so that no `.`, `..` or doubled separator lets two
strings name one file. -/
def absolute (cwd p : Str) : Str := if isRelative p then pathJoin cwd p else p

/-! ## Ordered maps (`std::map`) -/

/-- A `std::map<K, V>`: the entries in iteration order. -/
abbrev OMap (K V : Type) := List (K × V)

/-- Keys `a` and `b` are equivalent for the map: neither is below the other. -/
def keyEquiv {K : Type} (lt : K → K → Bool) (a b : K) : Bool := !lt a b && !lt b a

/-- Member `find`: the value of the entry whose key is equivalent to `k`. -/
def omFind {K V : Type} (lt : K → K → Bool) (k : K) : OMap K V → Option V
  | [] => none
  | (k', v) :: rest => if keyEquiv lt k k' then some v else omFind lt k rest

/-- The walk that `insert` and `operator[]` share: the entry of key `k` gets the value
`f old`, where `old` is its value so far (`none` when the key is new, and the entry is
then put at its place in the order). -/
def omAlter {K V : Type} (lt : K → K → Bool) (k : K) (f : Option V → V) : OMap K V → OMap K V
  | [] => [(k, f none)]
  | (k', v') :: rest =>
    if lt k k' then (k, f none) :: (k', v') :: rest
    else if lt k' k then (k', v') :: omAlter lt k f rest
    else (k', f (some v')) :: rest

/-- Member `insert`: adds the entry at its place; an existing entry is left alone. -/
def omInsert {K V : Type} (lt : K → K → Bool) (k : K) (v : V) : OMap K V → OMap K V :=
  omAlter lt k (fun old => old.getD v)

/-- The assignment `m[k] = v`: inserts, or overwrites the value of the existing entry. -/
def omAssign {K V : Type} (lt : K → K → Bool) (k : K) (v : V) : OMap K V → OMap K V :=
  omAlter lt k (fun _ => v)

/-- Member `erase(key)`: drops the entry whose key is equivalent to `k`. -/
def omErase {K V : Type} (lt : K → K → Bool) (k : K) (m : OMap K V) : OMap K V :=
  m.filter (fun e => !keyEquiv lt k e.1)

/-- The entries are in strictly ascending key order. -/
def omSorted {K V : Type} (lt : K → K → Bool) (m : OMap K V) : Prop :=
  m.Pairwise (fun a b => lt a.1 b.1 = true)

instance {K V : Type} (lt : K → K → Bool) (m : OMap K V) : Decidable (omSorted lt m) := by
  unfold omSorted; infer_instance

/-- A strict total order given as a boolean comparison. -/
structure StrictTotal {α : Type} (lt : α → α → Bool) : Prop where
  irrefl : ∀ a, lt a a = false
  trans : ∀ a b c, lt a b = true → lt b c = true → lt a c = true
  total : ∀ a b, lt a b = false → lt b a = false → a = b

/-! ## Loops that may throw -/

/-- Fold a step that may throw over a list: the first `none` ends the loop. -/
def foldOpt {σ α : Type} (f : σ → α → Option σ) : σ → List α → Option σ
  | s, [] => some s
  | s, a :: as =>
    match f s a with
    | none => none
    | some s' => foldOpt f s' as

/-- Run `f` on every element and join the lists; `none` as soon as one run fails. -/
def bindAll {α β : Type} (f : α → Option (List β)) : List α → Option (List β)
  | [] => some []
  | a :: as =>
    match f a, bindAll f as with
    | some l, some ls => some (l ++ ls)
    | _, _ => none

/-! ## The index (`src/Index.cc`) -/

/-- The staging map `_index`: `std::map<boost::filesystem::path, std::string>`. -/
abbrev Index := OMap Str Str

/-- Machine width of `unsigned`. -/
def UINT_SIZE : Nat := 2 ^ 32

/-- `Insert(file, content)`: `_index[file] = content`. -/
def Insert (file content : Str) (idx : Index) : Index := omAssign pathLt file content idx

/-- The loop of `Remove` that collects `wouldRm`: the keys that start with `newPath`. -/
def wouldRm (newPath : Str) (idx : Index) : List Str :=
  (idx.filter (fun e => startsWith e.1 newPath)).map Prod.fst

/-- `Remove(path)`: erases every entry whose key starts with `path.relative_path()`
and returns the number of matches, counted in an `unsigned`. -/
def Remove (path : Str) (idx : Index) : Nat × Index :=
  let newPath := relative_path path
  let rm := wouldRm newPath idx
  (rm.length % UINT_SIZE, rm.foldl (fun m k => omErase pathLt k m) idx)

/-- `InIndex(path)`: the same loop as `Remove`, with the `erase` inside the loop over
`_index`; returns `rmCount > 0` together with the index it leaves. Erasing the element
a range-for stands on is not defined by the language; the embedding takes the reading
in which the loop still visits every entry, so every match is erased. -/
def InIndex (path : Str) (idx : Index) : Bool × Index :=
  let newPath := relative_path path
  let rm := wouldRm newPath idx
  (decide (0 < rm.length % UINT_SIZE), rm.foldl (fun m k => omErase pathLt k m) idx)

/-- The path is a key of the map. -/
def hasKey (k : Str) (m : Index) : Prop := ∃ e ∈ m, e.1 = k

instance (k : Str) (m : Index) : Decidable (hasKey k m) := by
  unfold hasKey; infer_instance

/-! ## The index file: stream input and output -/

/-- An input stream (`std::istream`): the unread characters and the state bits
`eofbit` and `failbit`. -/
structure IStream where
  rest : Str
  eof : Bool
  fail : Bool
deriving DecidableEq

/-- Member `good()`: no state bit is set. -/
def IStream.good (s : IStream) : Bool := !s.eof && !s.fail

/-- White space of the classic locale (`std::isspace`). -/
def isSpace (c : Char) : Bool :=
  c == ' ' || c == '\t' || c == '\n' || c == '\r' || c.toNat == 11 || c.toNat == 12

/-- A decimal digit. -/
def isDigit (c : Char) : Bool := decide (48 ≤ c.toNat ∧ c.toNat ≤ 57)

/-- The number a run of decimal digits denotes, continuing from `acc`. -/
def decValue (ds : Str) (acc : Nat) : Nat :=
  ds.foldl (fun a c => a * 10 + (c.toNat - 48)) acc

/-- The digits of `is >> n` after white space and sign: without a digit the value is 0
and `failbit` is set; a value above the largest `unsigned` is stored as that largest
value with `failbit` set; after a `-` the value is negated modulo 2^32. Reaching the end
of the input sets `eofbit`. -/
def extractDigits (neg : Bool) (body : Str) : Nat × IStream :=
  let ds := body.takeWhile isDigit
  let rest := body.dropWhile isDigit
  let atEnd := decide (rest = [])
  if ds = [] then (0, { rest := rest, eof := atEnd, fail := true })
  else if UINT_SIZE ≤ decValue ds 0 then
    (UINT_SIZE - 1, { rest := rest, eof := atEnd, fail := true })
  else
    ((if neg then (UINT_SIZE - decValue ds 0) % UINT_SIZE else decValue ds 0),
     { rest := rest, eof := atEnd, fail := false })

/-- The extraction `is >> n` for an `unsigned n` that holds 0 before the call: skips
white space, reads an optional sign and the decimal digits. On a stream that is not
good nothing is read and `n` stays 0. -/
def extractUnsigned (s : IStream) : Nat × IStream :=
  if s.good then
    match s.rest.dropWhile isSpace with
    | [] => (0, { rest := [], eof := true, fail := true })
    | c :: cs =>
      if c = '-' then extractDigits true cs
      else if c = '+' then extractDigits false cs
      else extractDigits false (c :: cs)
  else (0, { s with fail := true })

/-- Member `get()`: takes one character; at the end of input sets `eofbit` and
`failbit`. -/
def IStream.get (s : IStream) : IStream :=
  if s.good then
    match s.rest with
    | [] => { s with eof := true, fail := true }
    | _ :: cs => { s with rest := cs }
  else { s with fail := true }

/-- The call `std::getline(is, str, '\n')` on a fresh empty `str`: the characters up to
the next newline, which is taken and dropped. On a stream that is not good the string
stays empty; at the end of input `eofbit` is set, and `failbit` too when nothing was
read. -/
def getline (s : IStream) : Str × IStream :=
  if s.good then
    let line := s.rest.takeWhile (fun c => c != '\n')
    match s.rest.dropWhile (fun c => c != '\n') with
    | [] => (line, { rest := [], eof := true, fail := decide (line = []) })
    | _ :: cs => (line, { rest := cs, eof := false, fail := false })
  else ([], { s with fail := true })

/-- The loop of `Load`: `fileCount` times two `getline` calls and one `insert`. -/
def loadLoop : Nat → IStream → Index → Index
  | 0, _, idx => idx
  | n + 1, s, idx =>
    let fileName := getline s
    let sha1Value := getline fileName.2
    loadLoop n sha1Value.2 (omInsert pathLt fileName.1 sha1Value.1 idx)

/-- `Load()`: empties `_index`, then reads the index file when it exists (`none`: the
file does not exist). The result does not depend on the index held before. -/
def Load (indexFile : Option Str) : Index :=
  match indexFile with
  | none => []
  | some content =>
    let count := extractUnsigned { rest := content, eof := false, fail := false }
    loadLoop count.1 count.2.get []

/-- The decimal digit character of `d < 10`. -/
def digitChar (d : Nat) : Char := Char.ofNat (48 + d)

/-- Decimal digits of `n`, most significant first, in front of `acc`. -/
def natToDecAux : Nat → Nat → Str → Str
  | 0, _, acc => acc
  | fuel + 1, n, acc =>
    if n < 10 then digitChar n :: acc
    else natToDecAux fuel (n / 10) (digitChar (n % 10) :: acc)

/-- The text `os << n` writes for an unsigned integer. -/
def natToDec (n : Nat) : Str := natToDecAux (n + 1) n []

/-- The two lines `Save` writes for one entry. -/
def entryLines (e : Str × Str) : Str := e.1 ++ '\n' :: (e.2 ++ ['\n'])

/-- `Save()`: the text written to the index file. -/
def Save (idx : Index) : Str :=
  natToDec idx.length ++ '\n' :: (idx.map entryLines).flatten

/-! ## Index files by their content -/

/-- The content holds no count: after leading white space it ends, or goes on with a
character that is neither a sign nor a decimal digit. -/
def noCount (content : Str) : Bool :=
  match content.dropWhile isSpace with
  | [] => true
  | c :: _ => !isDigit c && c != '-' && c != '+'

/-- The value `Load` reads into `fileCount`. -/
def fileCount (content : Str) : Nat :=
  (extractUnsigned { rest := content, eof := false, fail := false }).1

/-- An index of 2^32 entries with the paths "", "a", "aa", ... and empty blob ids. -/
def bigIndex : Index := (List.range UINT_SIZE).map (fun n => (List.replicate n 'a', []))

/-! ## Collaborators of the object store -/

/-- Modelled from the spec: `Util::SHA1sum`, the hash function over raw bytes, whose
results are ids of 40 characters (section 3, object id). -/
structure Hash where
  sum : Str → Str
  len40 : ∀ s, (sum s).length = 40
  oneLine : ∀ s, '\n' ∉ sum s

/-- Modelled from the spec: the constant `FileSystem::OBJECTS_DIR`, the directory
`.sit/objects` under the repository root (section 6). -/
def OBJECTS_DIR : Str := ".sit/objects".toList

/-- Modelled from the spec: the files of the object store, by path. Each holds the
body that `FileSystem::CompressWrite` stored, as `FileSystem::DecompressRead` gives it
back (the codec is used symmetrically, section 6). -/
abbrev Store := Str → Option Str

/-- Modelled from the spec: `FileSystem::CompressWrite(path, body)`. -/
def CompressWrite (path body : Str) (st : Store) : Store :=
  fun p => if p = path then some body else st p

/-- Octal digits of `n`, most significant first, in front of `acc`. -/
def octDigitsAux : Nat → Nat → Str → Str
  | 0, _, acc => acc
  | fuel + 1, n, acc =>
    if n < 8 then digitChar n :: acc
    else octDigitsAux fuel (n / 8) (digitChar (n % 8) :: acc)

/-- Modelled from the spec: `Util::FileModeToString`, the format `%06o` (section 6):
the octal digits of the mode, filled with zeros on the left up to six characters. -/
def FileModeToString (mode : Nat) : Str :=
  let ds := octDigitsAux (mode + 1) mode []
  List.replicate (6 - ds.length) '0' ++ ds

/-- Modelled from the spec: `Util::FileModeToInt`, the number an octal string denotes. -/
def FileModeToInt (s : Str) : Nat := s.foldl (fun a c => a * 8 + (c.toNat - 48)) 0

/-! ## Objects (`src/Objects.cc`) -/

/-- `EMPTY_OBJECT` (`Objects.cc:16`). -/
def EMPTY_OBJECT : Str := "00000000000000000000000000000000000000".toList

/-- The kind of a tree entry. -/
inductive ObjectType where
  | BLOB
  | TREE
deriving DecidableEq

/-- An entry of a tree object. -/
structure TreeItem where
  mode : Nat
  type : ObjectType
  id : Str
  filename : Str
deriving DecidableEq

/-- A tree object: its entries in order. -/
abbrev Tree := List TreeItem

/-- `GetPath(id)`: `REPO_ROOT / OBJECTS_DIR / id.substr(0, 2) / id.substr(2)`. -/
def GetPath (root id : Str) : Option Str :=
  match substr id 0 2, substrFrom id 2 with
  | some a, some b => some (pathJoin (pathJoin (pathJoin root OBJECTS_DIR) a) b)
  | _, _ => none

/-- The text `WriteTree` puts on the stream for one entry. -/
def treeLine (item : TreeItem) : Str :=
  FileModeToString item.mode ++ ' ' ::
    ((if item.type = ObjectType.TREE then "tree ".toList else "blob ".toList) ++
      (item.id ++ ' ' :: (item.filename ++ ['\n'])))

/-- `WriteTree(tree)`: serialises the entries, hashes the text and stores it under the
hash. Gives the hash and the store afterwards. -/
def WriteTree (h : Hash) (root : Str) (tree : Tree) (st : Store) : Option (Str × Store) :=
  let str := (tree.map treeLine).flatten
  let sha1 := h.sum str
  match GetPath root sha1 with
  | some p => some (sha1, CompressWrite p str st)
  | none => none

/-- The loop `while (getline(ss, line))`: the lines read until `getline` fails. -/
def readLines : Nat → IStream → List Str
  | 0, _ => []
  | fuel + 1, s =>
    let r := getline s
    if r.2.fail then [] else r.1 :: readLines fuel r.2

/-- The body of the loop of `GetTree`: one line into one entry. -/
def parseTreeLine (line : Str) : Option TreeItem :=
  match substr line 0 6, substr line 7 4, substr line 12 40, substrFrom line 53 with
  | some m, some t, some i, some f =>
    some { mode := FileModeToInt m,
           type := if t = "tree".toList then ObjectType.TREE else ObjectType.BLOB,
           id := i, filename := f }
  | _, _, _, _ => none

/-- The entries of all lines, as `GetTree` pushes them back; `none` as soon as one
line throws. -/
def parseTreeLines : List Str → Option Tree
  | [] => some []
  | line :: rest =>
    match parseTreeLine line, parseTreeLines rest with
    | some item, some items => some (item :: items)
    | _, _ => none

/-- `GetTree(id)`: reads the object and parses it line by line; `none` when the object
cannot be read or a `substr` throws. -/
def GetTree (root : Str) (st : Store) (id : Str) : Option Tree :=
  match GetPath root id with
  | none => none
  | some p =>
    match st p with
    | none => none
    | some body =>
      parseTreeLines (readLines (body.length + 1) { rest := body, eof := false, fail := false })

/-! ## The forest of `WriteIndex` (`src/Objects.cc`) -/

/-- An `IndexTree`, the `std::map<std::string, IndexTreeItem>`: its entries in key
order. `leaf` is an item whose `tree` pointer is null, `dir` an item that points to a
nested `IndexTree`; each carries the map key and the fields `filename` and `blobid`. -/
inductive IndexTree where
  | nil : IndexTree
  | leaf (key filename blobid : Str) (rest : IndexTree) : IndexTree
  | dir (key filename blobid : Str) (tree : IndexTree) (rest : IndexTree) : IndexTree
deriving DecidableEq

/-- Member `find(key)`, followed by reading `iter->second.tree`: `none` is `end()`,
`some none` an item with a null `tree`, `some (some t)` an item that points to `t`. -/
def IndexTree.find (k : Str) : IndexTree → Option (Option IndexTree)
  | .nil => none
  | .leaf k' _ _ rest => if keyEquiv strLt k k' then some none else IndexTree.find k rest
  | .dir k' _ _ t rest => if keyEquiv strLt k k' then some (some t) else IndexTree.find k rest

/-- Member `insert` for the key `k`: the new entry (`entry rest` puts it in front of
`rest`) goes to its place in key order; an existing entry with that key is left
alone. -/
def IndexTree.insert (entry : IndexTree → IndexTree) (k : Str) : IndexTree → IndexTree
  | .nil => entry .nil
  | .leaf k' f b rest =>
    if strLt k k' then entry (.leaf k' f b rest)
    else if strLt k' k then .leaf k' f b (IndexTree.insert entry k rest)
    else .leaf k' f b rest
  | .dir k' f b t rest =>
    if strLt k k' then entry (.dir k' f b t rest)
    else if strLt k' k then .dir k' f b t (IndexTree.insert entry k rest)
    else .dir k' f b t rest

/-- The effect of the writes through `parent = iter->second.tree` on the map that holds
the item of key `k`: that item now points to `t`. -/
def IndexTree.setTree (k : Str) (t : IndexTree) : IndexTree → IndexTree
  | .nil => .nil
  | .leaf k' f b rest =>
    if keyEquiv strLt k k' then .leaf k' f b rest
    else .leaf k' f b (IndexTree.setTree k t rest)
  | .dir k' f b t' rest =>
    if keyEquiv strLt k k' then .dir k' f b t rest
    else .dir k' f b t' (IndexTree.setTree k t rest)

/-- The inner loop of `makeIndexTree` over `dirs` and the final `insert` of the file,
starting at the map `parent`; `none` when a null `tree` pointer is followed. -/
def descend : List Str → Str → Str → IndexTree → Option IndexTree
  | [], filename, blobid, parent =>
    some (IndexTree.insert (IndexTree.leaf filename filename blobid) filename parent)
  | d :: ds, filename, blobid, parent =>
    match IndexTree.find d parent with
    | some (some t) =>
      (descend ds filename blobid t).map (fun t' => IndexTree.setTree d t' parent)
    | some none => none
    | none =>
      (descend ds filename blobid .nil).map
        (fun t' => IndexTree.insert (IndexTree.dir d d [] t') d parent)

/-- `makeIndexTree(index)`: the forest of the index, entry by entry. -/
def makeIndexTree (idx : Index) : Option IndexTree :=
  foldOpt (fun tree (i : Str × Str) =>
    descend (splitOn '/' i.1).dropLast (pathFilename i.1) i.2 tree) .nil idx

/-- The loop of `writeIndexTree` over one map: the entries of the tree object, with
every nested map written first (`writeIndexTree` on it is this loop followed by
`WriteTree`). -/
def buildTree (h : Hash) (root : Str) : IndexTree → Store → Option (Tree × Store)
  | .nil, st => some ([], st)
  | .leaf _ f b rest, st =>
    match buildTree h root rest st with
    | none => none
    | some (items, st1) =>
      some ({ mode := 0o100644, type := ObjectType.BLOB, id := b, filename := f } :: items, st1)
  | .dir _ f _ t rest, st =>
    match buildTree h root t st with
    | none => none
    | some (sub, st1) =>
      match WriteTree h root sub st1 with
      | none => none
      | some (id, st2) =>
        match buildTree h root rest st2 with
        | none => none
        | some (items, st3) =>
          some ({ mode := 0o40000, type := ObjectType.TREE, id := id, filename := f } :: items,
                st3)

/-- `writeIndexTree(idt)`: the id of the tree object written for the map. -/
def writeIndexTree (h : Hash) (root : Str) (idt : IndexTree) (st : Store) :
    Option (Str × Store) :=
  match buildTree h root idt st with
  | none => none
  | some (tree, st1) => WriteTree h root tree st1

/-- `WriteIndex()`: builds the forest of the live index and writes it; `none` when
building it follows a null pointer. -/
def WriteIndex (h : Hash) (root : Str) (idx : Index) (st : Store) : Option (Str × Store) :=
  match makeIndexTree idx with
  | none => none
  | some tree => writeIndexTree h root tree st

/-! ## Reading a tree graph -/

/-- The walk over the tree graph rooted at the object `id`: every entry met, with its
names joined by `/` from the root (`pre` is the directory part so far). The object of
a tree entry is read with `GetTree` and walked in turn; `fuel` bounds the depth. -/
def walkTree (root : Str) (st : Store) : Nat → Str → Str → Option (List (Str × TreeItem))
  | 0, _, _ => none
  | fuel + 1, pre, id =>
    match GetTree root st id with
    | none => none
    | some items =>
      bindAll (fun item =>
        if item.type = ObjectType.TREE then
          (walkTree root st fuel (pre ++ item.filename ++ ['/']) item.id).map
            (fun l => (pre ++ item.filename, item) :: l)
        else some [(pre ++ item.filename, item)]) items

/-- The flat path to blob-id list of a walk: the blob entries with their joined names. -/
def blobsOf (l : List (Str × TreeItem)) : List (Str × Str) :=
  (l.filter (fun e => decide (e.2.type = ObjectType.BLOB))).map (fun e => (e.1, e.2.id))

/-- The conditions on one tree entry: a mode of at most six octal digits, an id of
exactly 40 characters, and no newline in id and name. -/
def GoodItem (item : TreeItem) : Prop :=
  item.mode < 8 ^ 6 ∧ item.id.length = 40 ∧ '\n' ∉ item.id ∧ '\n' ∉ item.filename

instance (item : TreeItem) : Decidable (GoodItem item) := by
  unfold GoodItem; infer_instance

/-- The conditions of the tree format on a staged entry: a blob id of exactly 40
characters, no newline in id and path, and a path that names a file (does not end
with a separator). -/
def goodEntry (e : Str × Str) : Prop :=
  e.2.length = 40 ∧ '\n' ∉ e.2 ∧ '\n' ∉ e.1 ∧ e.1.getLast? ≠ some '/'

instance (e : Str × Str) : Decidable (goodEntry e) := by
  unfold goodEntry; infer_instance

/-- No staged path is a directory prefix of another: no path followed by a separator
starts another path. -/
def prefixFree (idx : Index) : Prop :=
  ∀ e1 ∈ idx, ∀ e2 ∈ idx, startsWith e2.1 (e1.1 ++ ['/']) = false

instance (idx : Index) : Decidable (prefixFree idx) := by
  unfold prefixFree; infer_instance

/-- The paths of the entries can all be regular files of one working copy, each its own:
they are plain, none lies in the directory `.sit` of the repository, and none is a
directory prefix of another. -/
def plainFiles (l : Index) : Prop :=
  (∀ e ∈ l, plainPath e.1 ∧ (splitOn '/' e.1).head? ≠ some ".sit".toList) ∧ prefixFree l

instance (l : Index) : Decidable (plainFiles l) := by
  unfold plainFiles; infer_instance

/-- The conditions of the tree format on a staged entry of a clean index: a blob id of
exactly 40 characters, no newline in id and path, and a clean path. -/
def cleanEntry (e : Str × Str) : Prop :=
  e.2.length = 40 ∧ '\n' ∉ e.2 ∧ '\n' ∉ e.1 ∧ cleanPath e.1

instance (e : Str × Str) : Decidable (cleanEntry e) := by
  unfold cleanEntry; infer_instance

/-! ## The forest read as data -/

/-- The text of a tree object: the lines of its entries. -/
def treeBody (tree : Tree) : Str := (tree.map treeLine).flatten

/-- The entries `writeIndexTree` computes for a map: a blob entry per leaf, a tree
entry per nested map, whose id is the hash of the text of that map's own entries. -/
def treeOf (h : Hash) : IndexTree → Tree
  | .nil => []
  | .leaf _ f b rest =>
    { mode := 0o100644, type := ObjectType.BLOB, id := b, filename := f } :: treeOf h rest
  | .dir _ f _ t rest =>
    { mode := 0o40000, type := ObjectType.TREE, id := h.sum (treeBody (treeOf h t)),
      filename := f } :: treeOf h rest

/-- The texts of the tree objects written for the maps nested in a map, in the order
they are written. -/
def bodiesOf (h : Hash) : IndexTree → List Str
  | .nil => []
  | .leaf _ _ _ rest => bodiesOf h rest
  | .dir _ _ _ t rest => bodiesOf h t ++ [treeBody (treeOf h t)] ++ bodiesOf h rest

/-- The object file of a text: `GetPath` of its hash. -/
def objPath (h : Hash) (root body : Str) : Str := (GetPath root (h.sum body)).getD []

/-- The store after the texts are written, one after the other. -/
def writeAll (h : Hash) (root : Str) (bodies : List Str) (st : Store) : Store :=
  bodies.foldl (fun s b => CompressWrite (objPath h root b) b s) st

/-- No two different texts among `bodies` share an object file (the hash does not
collide on them). -/
def noCollision (h : Hash) (root : Str) (bodies : List Str) : Prop :=
  ∀ b1 ∈ bodies, ∀ b2 ∈ bodies, objPath h root b1 = objPath h root b2 → b1 = b2

instance (h : Hash) (root : Str) (bodies : List Str) : Decidable (noCollision h root bodies) := by
  unfold noCollision; infer_instance

/-- All tree objects `WriteIndex` writes for a forest: those of the nested maps and the
one of the top map. -/
def allBodies (h : Hash) (t : IndexTree) : List Str := bodiesOf h t ++ [treeBody (treeOf h t)]

/-- The texts of all tree objects `WriteIndex` writes for an index. -/
def indexBodies (h : Hash) (idx : Index) : List Str :=
  match makeIndexTree idx with
  | some t => allBodies h t
  | none => []

/-- The walk a forest stands for: every entry with its joined name, a nested map right
after its own entry. -/
def walkOf (h : Hash) : IndexTree → Str → List (Str × TreeItem)
  | .nil, _ => []
  | .leaf _ f b rest, pre =>
    (pre ++ f, { mode := 0o100644, type := ObjectType.BLOB, id := b, filename := f }) ::
      walkOf h rest pre
  | .dir _ f _ t rest, pre =>
    (pre ++ f, { mode := 0o40000, type := ObjectType.TREE, id := h.sum (treeBody (treeOf h t)),
                  filename := f }) ::
      (walkOf h t (pre ++ f ++ ['/']) ++ walkOf h rest pre)

/-- The files of a forest: the names from the top map down to a leaf, with the blob id
of the leaf. -/
def filesOf : IndexTree → List (List Str × Str)
  | .nil => []
  | .leaf _ f b rest => ([f], b) :: filesOf rest
  | .dir _ f _ t rest => (filesOf t).map (fun e => (f :: e.1, e.2)) ++ filesOf rest

/-- The nesting depth of a forest. -/
def depthOf : IndexTree → Nat
  | .nil => 0
  | .leaf _ _ _ rest => depthOf rest
  | .dir _ _ _ t rest => max (depthOf t + 1) (depthOf rest)

/-- Every name of the forest is free of newlines and every blob id is 40 characters
without a newline. -/
def goodForest : IndexTree → Prop
  | .nil => True
  | .leaf _ f b rest => '\n' ∉ f ∧ b.length = 40 ∧ '\n' ∉ b ∧ goodForest rest
  | .dir _ f _ t rest => '\n' ∉ f ∧ goodForest t ∧ goodForest rest

/-- In every item the map key is the file name, and every nested map holds a file. -/
def tidyForest : IndexTree → Prop
  | .nil => True
  | .leaf k f _ rest => k = f ∧ tidyForest rest
  | .dir k f _ t rest => k = f ∧ filesOf t ≠ [] ∧ tidyForest t ∧ tidyForest rest

/-! ## What `WriteIndex` writes, tree by tree -/

/-- The object of the id is in the store: its object file exists. -/
def stored (root : Str) (st : Store) (id : Str) : Bool :=
  match GetPath root id with
  | some p => (st p).isSome
  | none => false

/-- The entry lists of the tree objects written for the maps nested in a map, in the
order they are written. -/
def treesOf (h : Hash) : IndexTree → List Tree
  | .nil => []
  | .leaf _ _ _ rest => treesOf h rest
  | .dir _ _ _ t rest => treesOf h t ++ [treeOf h t] ++ treesOf h rest

/-- The entry lists of all tree objects `WriteIndex` writes for a forest, in the order
they are written: those of the nested maps, then the one of the top map. -/
def allTrees (h : Hash) (t : IndexTree) : List Tree := treesOf h t ++ [treeOf h t]

/-- The keys of one map of the forest, in iteration order. -/
def keysOf : IndexTree → List Str
  | .nil => []
  | .leaf k _ _ rest => k :: keysOf rest
  | .dir k _ _ _ rest => k :: keysOf rest

/-- In every map of the forest the keys ascend strictly in the order of `std::string`,
and the `filename` of every item is its key. -/
def orderedForest : IndexTree → Prop
  | .nil => True
  | .leaf k f _ rest => k = f ∧ (∀ k' ∈ keysOf rest, strLt k k' = true) ∧ orderedForest rest
  | .dir k f _ t rest =>
    k = f ∧ (∀ k' ∈ keysOf rest, strLt k k' = true) ∧ orderedForest t ∧ orderedForest rest

/-- The entries of a tree object are in strictly ascending order of entry name. -/
def namesAscending (tree : Tree) : Prop :=
  tree.Pairwise (fun a b => strLt a.filename b.filename = true)

instance (tree : Tree) : Decidable (namesAscending tree) := by
  unfold namesAscending; infer_instance

/-- An operation on the index: `Insert(file, content)` or `Remove(path)`. -/
inductive IndexOp where
  | insert (file content : Str) : IndexOp
  | remove (path : Str) : IndexOp

/-- The index after one operation. -/
def IndexOp.run (idx : Index) : IndexOp → Index
  | .insert file content => Insert file content idx
  | .remove path => (Remove path idx).2

/-- The index after a sequence of operations. -/
def runOps (ops : List IndexOp) (idx : Index) : Index := ops.foldl IndexOp.run idx

/-! ## The repository session -/

/-- The state the operations of `Core.cc` act on: the live index `Index::index`, the
persisted index file, the working copy and the object store (two disjoint parts of the
file system, each by path), the refs, the current branch, the current directory of
the process, `FileSystem::REPO_ROOT`, and what was written to `std::cerr`. The working
copy holds regular files by path string, without links and without directories of its
own: it stands for a file system that tells names apart by their characters, on a set
of plain paths outside `.sit` of which none is a directory prefix of another
(`plainFiles`). -/
structure Repo where
  index : Index
  indexFile : Option Str
  work : Str → Option Str
  objects : Store
  refs : Str → Option Str
  whichBranch : Str
  cwd : Str
  root : Str
  cerr : List Str

/-- Modelled from the spec: the collaborators `Core.cc` calls but the three files do
not define: commit lookup (`Commit::CommitIDComplete`, `Commit::IsExist`), the
materialized snapshot of a commit (`Index::CommitIndex`), path relativization
(`FileSystem::GetRelativePath`), ref resolution (`Refs::GetRealID`, `Refs::Get`), the
status check (`Status::IsClean`) and the listing of the files under a path
(`IndexBase::ListFile`). Each is a function that returns. -/
structure Env where
  CommitIDComplete : Str → Str
  CommitIsExist : Str → Bool
  CommitIndex : Str → Index
  GetRelativePath : Str → Str
  GetRealID : Str → Str
  RefsGet : Repo → Str → Str
  IsClean : Repo → Bool
  ListFile : Index → Str → Index

/-- Modelled from the spec: `FileSystem::Remove(path)`, delete the file from disk. -/
def FileSystem.Remove (path : Str) (r : Repo) : Repo :=
  { r with work := fun p => if p = absolute r.cwd path then none else r.work p }

/-- Modelled from the spec: `FileSystem::DecompressCopy(src, dst)`, copy an object out
of the store: the file `dst` gets the decompressed body of the object file `src`;
`none` (an exception) when there is no such object file. The destination is taken to
be writable: the copy fails for no other reason. -/
def FileSystem.DecompressCopy (src dst : Str) (r : Repo) : Option Repo :=
  match r.objects src with
  | some body =>
    some { r with work := fun p => if p = absolute r.cwd dst then some body else r.work p }
  | none => none

/-- Modelled from the spec: `Refs::Set(name, id)`, point the ref at the commit. -/
def Refs.Set (name id : Str) (r : Repo) : Repo :=
  { r with refs := fun n => if n = name then some id else r.refs n }

/-- Modelled from the spec: `Refs::NewBranch(name, id)`, create a branch ref at the
commit. -/
def Refs.NewBranch (name id : Str) (r : Repo) : Repo :=
  { r with refs := fun n => if n = name then some id else r.refs n }

/-- Modelled from the spec: `IndexBase::GetID(path)`, the blob id the snapshot holds
for the path (empty when it holds none). -/
def GetID (idx : Index) (path : Str) : Str := (omFind pathLt path idx).getD []

/-- The working-copy file of a tracked path: the file `REPO_ROOT / path`. -/
def workFile (r : Repo) (path : Str) : Option Str :=
  r.work (absolute r.cwd (pathJoin r.root path))

/-- The file the operating system is asked for when `Core.cc` names `REPO_ROOT / path`. -/
def fileKey (r : Repo) (path : Str) : Str := absolute r.cwd (pathJoin r.root path)

/-- The body of a blob in the object store, when the object file exists. -/
def blobBody (r : Repo) (id : Str) : Option Str :=
  match GetPath r.root id with
  | some p => r.objects p
  | none => none

/-- The session `r` with one more working-copy file. -/
def withFile (path body : Str) (r : Repo) : Repo :=
  { r with work := fun p => if p = path then some body else r.work p }

/-! ## Core (`src/Core.cc`) -/

/-- `CheckoutObjects(id, filename)`: `DecompressCopy(GetPath(id), REPO_ROOT / filename)`. -/
def CheckoutObjects (id filename : Str) (r : Repo) : Option Repo :=
  match GetPath r.root id with
  | none => none
  | some src => FileSystem.DecompressCopy src (pathJoin r.root filename) r

/-- The message `resetSingleFile` writes to `std::cerr` for an untracked path. -/
def notTracked (filename : Str) : Str := "Error: ".toList ++ filename ++ " is not tracked".toList

/-- `resetSingleFile(filename, objectID, inCommit, inIndex, isHard)`; the progress
lines on `std::cout` are left out. -/
def resetSingleFile (filename objectID : Str) (inCommit inIndex isHard : Bool) (r : Repo) :
    Option Repo :=
  if inCommit && !inIndex then
    let r1 := { r with index := Insert filename objectID r.index }
    if isHard then CheckoutObjects objectID filename r1 else some r1
  else if !inCommit && inIndex then
    let r1 := { r with index := (Remove filename r.index).2 }
    if isHard then some (FileSystem.Remove filename r1) else some r1
  else if inCommit && inIndex then
    let r1 := { r with index := Insert filename objectID (Remove filename r.index).2 }
    if isHard then CheckoutObjects objectID filename r1 else some r1
  else some { r with cerr := r.cerr ++ [notTracked filename] }

/-- The statement `--allSet[key]` on a `std::map<std::string, int>`: a missing key
starts at 0. -/
def omDecr (k : Str) : OMap Str Int → OMap Str Int :=
  omAlter strLt k (fun old => old.getD 0 - 1)

/-- The map `allSet` of the whole-repository `Reset`: 1 for every path of the commit,
then one less for every path of the index. -/
def allSetOf (commitSet indexSet : Index) : OMap Str Int :=
  indexSet.foldl (fun m e => omDecr e.1 m)
    (commitSet.foldl (fun m e => omInsert strLt e.1 1 m) [])

/-- The body of the last loop of the whole-repository `Reset`, for one entry of
`allSet`. -/
def resetEntry (commitIndex : Index) (isHard : Bool) (r : Repo) (anyfile : Str × Int) :
    Option Repo :=
  let inCommit := decide (anyfile.2 = 0) || decide (anyfile.2 = 1)
  let inIndex := decide (anyfile.2 = 0) || decide (anyfile.2 = -1)
  if inCommit then
    resetSingleFile anyfile.1 (GetID commitIndex anyfile.1) inCommit inIndex isHard r
  else resetSingleFile anyfile.1 EMPTY_OBJECT inCommit inIndex isHard r

/-- `Reset(id, isHard)`, the whole-repository reset; `none` when an exception leaves
the function. -/
def Reset (env : Env) (id : Str) (isHard : Bool) (r : Repo) : Option Repo :=
  let id1 := env.GetRealID id
  let id2 := if id1 = [] then env.RefsGet r "HEAD".toList else id1
  let commitIndex := env.CommitIndex id2
  match foldOpt (resetEntry commitIndex isHard) r (allSetOf commitIndex r.index) with
  | none => none
  | some r1 =>
    let r2 := { r1 with indexFile := some (Save r1.index) }
    if r2.whichBranch ≠ [] then some (Refs.Set r2.whichBranch id2 r2)
    else some (Refs.Set "HEAD".toList id2 r2)

/-- The commit id the whole-repository `Reset` works on: `Refs::GetRealID(id)`, or the
commit of `HEAD` when that is empty. -/
def resetTarget (env : Env) (id : Str) (r : Repo) : Str :=
  if env.GetRealID id = [] then env.RefsGet r "HEAD".toList else env.GetRealID id

/-- The index one round of the loop of `Reset` leaves, by the count of the path in
`allSet`: 1 inserts the commit's blob id, -1 removes, 0 removes and inserts. -/
def resetIndexStep (commitIndex : Index) (idx : Index) (anyfile : Str × Int) : Index :=
  if anyfile.2 = 1 then Insert anyfile.1 (GetID commitIndex anyfile.1) idx
  else if anyfile.2 = -1 then (Remove anyfile.1 idx).2
  else if anyfile.2 = 0 then
    Insert anyfile.1 (GetID commitIndex anyfile.1) (Remove anyfile.1 idx).2
  else idx

/-- The set `allSet` of the path-scoped `Reset` (`std::set<std::string>`): the paths of
both file sets in string order. -/
def unionSet (commitSet indexSet : Index) : OMap Str Unit :=
  indexSet.foldl (fun m e => omInsert strLt e.1 () m)
    (commitSet.foldl (fun m e => omInsert strLt e.1 () m) [])

/-- `Reset(id, filename)`, the path-scoped reset, always soft; an empty `filename`
throws. -/
def ResetPath (env : Env) (id filename : Str) (r : Repo) : Option Repo :=
  let id1 := env.GetRealID id
  let id2 := if id1 = [] then env.RefsGet r "HEAD".toList else id1
  if filename = [] then none
  else
    let filename1 := env.GetRelativePath filename
    let commitIndex := env.CommitIndex id2
    let commitSet := env.ListFile commitIndex filename1
    let indexSet := env.ListFile r.index filename1
    match foldOpt (fun r (a : Str × Unit) =>
        resetSingleFile a.1 (GetID commitIndex a.1) ((omFind pathLt a.1 commitSet).isSome)
          ((omFind pathLt a.1 indexSet).isSome) false r) r (unionSet commitSet indexSet) with
    | none => none
    | some r1 => some { r1 with indexFile := some (Save r1.index) }

/-- One round of the second loop of the whole-repository `Checkout`: copy the blob out
to `REPO_ROOT / path` and insert the entry into the live index. -/
def checkoutItem (r : Repo) (item : Str × Str) : Option Repo :=
  match GetPath r.root item.2 with
  | none => none
  | some src =>
    match FileSystem.DecompressCopy src (pathJoin r.root item.1) r with
    | none => none
    | some r1 => some { r1 with index := Insert item.1 item.2 r1.index }

/-- The message of `Checkout` for a commit that does not exist. -/
def noCommit (commitID : Str) : Str :=
  "Error: Commit ".toList ++ commitID ++ " doesn't exist.".toList

/-- The message of `Checkout` when the staging area is not clean. -/
def somethingStaged : Str :=
  "Error: You have something staged. Commit or reset before checkout.".toList

/-- The message of `Checkout` for a path that is in no file list. -/
def notInList (filename : Str) : Str :=
  "Error: ".toList ++ filename ++ " doesn't exist in file list".toList

/-- `Checkout(commitID, filename, branchName)`; `none` when an exception leaves the
function or an end iterator is dereferenced. -/
def Checkout (env : Env) (commitID filename branchName : Str) (r : Repo) : Option Repo :=
  let c1 := env.CommitIDComplete commitID
  if c1 ≠ "index".toList ∧ c1 ≠ [] ∧ env.CommitIsExist c1 = false then
    some { r with cerr := r.cerr ++ [noCommit c1] }
  else
    let c2 := if c1 = "index".toList then [] else c1
    let filename1 := if filename ≠ [] then env.GetRelativePath filename else filename
    let index := if c2 = [] then r.index else env.CommitIndex c2
    if filename1 = [] then
      if env.IsClean r = false then some { r with cerr := r.cerr ++ [somethingStaged] }
      else
        let r1 := r.index.foldl (fun s item => FileSystem.Remove (pathJoin s.root item.1) s) r
        let r2 := { r1 with index := [] }
        match foldOpt checkoutItem r2 index with
        | none => none
        | some r3 =>
          let r4 := { r3 with indexFile := some (Save r3.index) }
          let r5 := if branchName ≠ [] then Refs.NewBranch branchName c2 r4 else r4
          some (if c2 ≠ [] then Refs.Set "HEAD".toList c2 r5 else r5)
    else
      let found := InIndex filename1 index
      if filename1.getLast? ≠ some '/' ∧ found.1 = true then
        match omFind pathLt filename1 found.2 with
        | none => none
        | some objpath =>
          match GetPath r.root objpath with
          | none => none
          | some src => FileSystem.DecompressCopy src (pathJoin r.root filename1) r
      else
        let copy := if filename1.getLast? ≠ some '/' then found.2 else index
        let fileSet := env.ListFile copy filename1
        if fileSet ≠ [] then
          foldOpt (fun s (singleFile : Str × Str) =>
            match GetPath s.root singleFile.2 with
            | none => none
            | some src => FileSystem.DecompressCopy src (pathJoin s.root singleFile.1) s)
            r fileSet
        else some { r with cerr := r.cerr ++ [notInList filename1] }

/-! ## The commit graph: records and collaborators -/

/-- Modelled from the spec: the record type `Commit::Commit`, declared outside the three
files, with the fields of section 3 (`Core.cc` reads and writes each of them). -/
structure CommitRec where
  selfID : Str
  tree : Str
  author : Str
  committer : Str
  message : Str
  pred : List Str
  succ : List Str
deriving DecidableEq

/-- A default-constructed `Commit::Commit`: every string and every list is empty. -/
def CommitRec.blank : CommitRec :=
  { selfID := [], tree := [], author := [], committer := [], message := [],
    pred := [], succ := [] }

/-- Modelled from the spec: the commit-records area (section 6,
`<root>/.sit/commits/<commitId>`): the records persisted, one per id, the one written
last in front. -/
abbrev CommitStore := List CommitRec

/-- Modelled from the spec: `Commit::ReadCommit(id)`, the record persisted under the
id; `none` (an exception) when there is none. -/
def ReadCommit (id : Str) (cs : CommitStore) : Option CommitRec :=
  cs.find? (fun c => decide (c.selfID = id))

/-- Modelled from the spec: `Commit::WriteCommit(commit)`, persist the record under its
`selfID`; a record already persisted under that id is replaced. -/
def WriteCommit (c : CommitRec) (cs : CommitStore) : CommitStore :=
  c :: cs.filter (fun d => decide (d.selfID ≠ c.selfID))

/-- The ids of the records persisted. -/
def commitIDs (cs : CommitStore) : List Str := cs.map (fun c => c.selfID)

/-- Modelled from the spec: the collaborators of `Commit` that the three files do not
define. `Commit::NewCommitID` allocates an id that is unique for the repository's
lifetime (section 4.4): no record is persisted under it. `Config::Get` gives the
sentinel `Config::NOT_FOUND` for a missing key. `Util::AuthorString` builds the author
line from name, email and time, and `localTime` is the text of
`second_clock::local_time()`. -/
structure CommitEnv where
  NewCommitID : CommitStore → Str
  fresh : ∀ cs, ReadCommit (NewCommitID cs) cs = none
  ConfigGet : Str → Str
  NOT_FOUND : Str
  AuthorString : Str → Str → Str → Str
  localTime : Str

/-- The session of `Commit`: the repository state, the commit-records area and the
file `.sit/COMMIT_MSG` (`none` when it is not a file). -/
structure Session where
  repo : Repo
  commits : CommitStore
  commitMsg : Option Str

/-! ## Core: the commit message (`src/Core.cc`) -/

/-- The call `boost::trim(line)`: white space is dropped at both ends. -/
def trim (s : Str) : Str :=
  ((s.dropWhile isSpace).reverse.dropWhile isSpace).reverse

/-- The loop of `getCommitMessage` over the lines read, with the flag `empty`: what
goes to `out`. -/
def commitMsgLoop : List Str → Bool → Str
  | [], _ => []
  | line :: rest, empty =>
    let l := trim line
    if l = [] then
      if !empty then '\n' :: commitMsgLoop rest empty else commitMsgLoop rest empty
    else if l.head? ≠ some '#' then l ++ '\n' :: commitMsgLoop rest false
    else commitMsgLoop rest empty

/-- `getCommitMessage()` on the content `buf` of `.sit/COMMIT_MSG`. -/
def getCommitMessage (buf : Str) : Str :=
  commitMsgLoop (readLines (buf.length + 1) { rest := buf, eof := false, fail := false }) true

/-- The lines of a text, as a `getline` loop reads them. -/
def linesOf (text : Str) : List Str :=
  readLines (text.length + 1) { rest := text, eof := false, fail := false }

/-- The message lines of a buffer, in the words of the specification as amended: its
lines, trimmed, in their order, without the lines that start with `#` and without the
blank lines in front of the first line that is left. -/
def messageLines (buf : Str) : List Str :=
  (((linesOf buf).map trim).filter (fun l => decide (l.head? ≠ some '#'))).dropWhile
    (fun l => decide (l = []))

/-! ## Core: `Commit` (`src/Core.cc`) -/

/-- `Commit(msg, isAmend)`; `none` when an exception leaves the function. -/
def Commit (env : Env) (cenv : CommitEnv) (h : Hash) (msg : Str) (isAmend : Bool)
    (s : Session) : Option Session :=
  if s.repo.whichBranch = [] ∧ isAmend = false then none
  else
    match s.commitMsg with
    | none => none
    | some buf =>
      match ReadCommit (env.RefsGet s.repo "HEAD".toList) s.commits with
      | none => none
      | some head =>
        let commit : CommitRec :=
          if isAmend then head
          else { CommitRec.blank with
                 selfID := cenv.NewCommitID s.commits, pred := [head.selfID] }
        let parentCommit : CommitRec := if isAmend then CommitRec.blank else head
        let message := if msg = [] then getCommitMessage buf else msg
        if message = [] then none
        else
          let user_name := cenv.ConfigGet "user.name".toList
          if user_name = cenv.NOT_FOUND then none
          else
            let user_email := cenv.ConfigGet "user.email".toList
            if user_email = cenv.NOT_FOUND then none
            else
              let author := cenv.AuthorString user_name user_email cenv.localTime
              match WriteIndex h s.repo.root s.repo.index s.repo.objects with
              | none => none
              | some (tree, objects) =>
                let commit1 : CommitRec :=
                  { commit with message := message, author := author, committer := author,
                                tree := tree }
                let cs1 := WriteCommit commit1 s.commits
                let parent1 : CommitRec :=
                  { parentCommit with succ := parentCommit.succ ++ [commit1.selfID] }
                let cs2 := WriteCommit parent1 cs1
                let repo1 : Repo := { s.repo with objects := objects }
                let repo2 : Repo :=
                  if isAmend then repo1 else Refs.Set repo1.whichBranch commit1.selfID repo1
                some { s with repo := repo2, commits := cs2 }

/-! ## Core: `Add` and `Rm` (`src/Core.cc`) -/

/-- Modelled from the spec: the file-system queries `Add` asks for and the three files
do not define: `FileSystem::IsExist`, `FileSystem::IsDirectory`, the recursive listing
`FileSystem::ListRecursive` and `boost::filesystem::file_size` (`none`: it throws a
`filesystem_error`). -/
structure FsEnv where
  IsExist : Str → Bool
  IsDirectory : Str → Bool
  ListRecursive : Str → List Str
  file_size : Str → Option Nat

/-- Modelled from the spec: `FileSystem::FileSHA1(file)`, the hash over the whole file;
`none` (an exception) when the file cannot be read. -/
def FileSystem.FileSHA1 (h : Hash) (file : Str) (r : Repo) : Option Str :=
  (r.work (absolute r.cwd file)).map h.sum

/-- Modelled from the spec: `FileSystem::CompressCopy(src, dst)`, copy a file into the
store: the object file `dst` gets the content of the file `src`; `none` (an exception)
when the file cannot be read. -/
def FileSystem.CompressCopy (src dst : Str) (r : Repo) : Option Repo :=
  match r.work (absolute r.cwd src) with
  | some body => some { r with objects := CompressWrite dst body r.objects }
  | none => none

/-- `addFile(file)`: the id under which the file was stored, or the empty string for a
directory and after an exception was caught (a file of more than 200 MiB, a file that
cannot be read). The lines on `std::cerr` are left out. -/
def addFile (fs : FsEnv) (h : Hash) (file : Str) (r : Repo) : Str × Repo :=
  if fs.IsDirectory file then ([], r)
  else
    match fs.file_size file with
    | none => ([], r)
    | some fileSize =>
      if 200 <<< 20 < fileSize then ([], r)
      else
        match FileSystem.FileSHA1 h file r with
        | none => ([], r)
        | some sha1Value =>
          match substr sha1Value 0 2, substrFrom sha1Value 2 with
          | some a, some b =>
            match FileSystem.CompressCopy file
                (pathJoin (pathJoin (pathJoin r.root OBJECTS_DIR) a) b) r with
            | some r1 => (sha1Value, r1)
            | none => ([], r)
          | _, _ => ([], r)

/-- The body of the loop of `Add` for one listed file. -/
def addEntry (env : Env) (fs : FsEnv) (h : Hash) (r : Repo) (file : Str) : Repo :=
  if fs.IsDirectory file then r
  else
    let relativePath := env.GetRelativePath file
    let added := addFile fs h file r
    { added.2 with index := Insert relativePath added.1 added.2.index }

/-- `Add(path)`; `none` when the exception `No such a record` leaves the function. -/
def Add (env : Env) (fs : FsEnv) (h : Hash) (path : Str) (r : Repo) : Option Repo :=
  let rm := Remove (env.GetRelativePath path) r.index
  let r1 := { r with index := rm.2 }
  if fs.IsExist path = false ∧ 0 < rm.1 then some r1
  else if fs.IsExist path = false ∧ rm.1 = 0 then none
  else
    let r2 := (fs.ListRecursive path).foldl (addEntry env fs h) r1
    some { r2 with indexFile := some (Save r2.index) }

/-- `Rm(path)`: `Remove` followed by `Save`. -/
def Rm (env : Env) (path : Str) (r : Repo) : Repo :=
  let r1 := { r with index := (Remove (env.GetRelativePath path) r.index).2 }
  { r1 with indexFile := some (Save r1.index) }

/-! ## Sample data for concrete evaluations -/

/-- A stand-in hash for concrete evaluations: the first 40 characters of the text
followed by zeros, a newline among them written as a zero. -/
def toyHash : Hash where
  sum s := ((s ++ List.replicate 40 '0').take 40).map (fun c => if c = '\n' then '0' else c)
  len40 s := by simp [List.length_take]
  oneLine s := by
    intro h
    obtain ⟨c, _, hc⟩ := List.mem_map.mp h
    by_cases hn : c = '\n'
    · rw [if_pos hn] at hc; revert hc; decide
    · rw [if_neg hn] at hc; exact hn hc

/-- The id made of 40 times the letter `a`. -/
def idA : Str := List.replicate 40 'a'

/-- The id made of 40 times the letter `b`. -/
def idB : Str := List.replicate 40 'b'

/-- An object store under `/r` with two blobs: `idA` holds "one", `idB` holds "two". -/
def sampleObjects : Store := fun p =>
  if p = "/r/.sit/objects/aa/".toList ++ List.replicate 38 'a' then some "one".toList
  else if p = "/r/.sit/objects/bb/".toList ++ List.replicate 38 'b' then some "two".toList
  else none

/-- A session in the repository `/r` with the given live index, an empty working copy,
the branch `master`, and the process running in directory `cwd`. -/
def sampleRepo (cwd : Str) (idx : Index) : Repo :=
  { index := idx, indexFile := none, work := fun _ => none, objects := sampleObjects,
    refs := fun _ => none, whichBranch := "master".toList, cwd := cwd, root := "/r".toList,
    cerr := [] }

/-- Collaborators for concrete evaluations: every commit exists and has the snapshot
`snapshot`; ids and paths are taken as given; the status is `clean`. -/
def sampleEnv (snapshot : Index) (clean : Bool) : Env :=
  { CommitIDComplete := fun c => c, CommitIsExist := fun _ => true,
    CommitIndex := fun _ => snapshot, GetRelativePath := fun p => p, GetRealID := fun c => c,
    RefsGet := fun _ _ => [], IsClean := fun _ => clean, ListFile := fun idx _ => idx }

/-- The all-zero id of 40 characters (`EMPTY_COMMIT` in section 3). -/
def idZero : Str := List.replicate 40 '0'

/-- Collaborators of `Commit` for concrete evaluations: the new id is longer than every
id persisted; `user.name` and `user.email` are configured, every other key is not. -/
def sampleCommitEnv : CommitEnv where
  NewCommitID cs := List.replicate ((cs.map (fun c => c.selfID.length)).sum + 1) 'c'
  fresh cs := by
    have hle : ∀ l : List CommitRec, ∀ c ∈ l,
        c.selfID.length ≤ (l.map (fun c => c.selfID.length)).sum := by
      intro l
      induction l with
      | nil => intro c hc; simp at hc
      | cons d ds ih =>
        intro c hc
        rcases List.mem_cons.mp hc with rfl | hc
        · simp
        · have := ih c hc
          simp only [List.map_cons, List.sum_cons]
          omega
    simp only [ReadCommit, List.find?_eq_none, decide_eq_true_eq]
    intro c hc hEq
    have h1 := hle cs c hc
    rw [hEq] at h1
    simp at h1
  ConfigGet k :=
    if k = "user.name".toList then "ann".toList
    else if k = "user.email".toList then "ann@example.org".toList
    else "?".toList
  NOT_FOUND := "?".toList
  AuthorString n e t := n ++ " <".toList ++ e ++ "> ".toList ++ t
  localTime := "2015-Jan-01 12:00:00".toList

/-- Collaborators for concrete evaluations in which `HEAD` resolves to `idZero`. -/
def sampleHeadEnv : Env :=
  { sampleEnv [] true with RefsGet := fun _ _ => idZero }

/-- The record `Init` writes: the id `idZero` and the tree `EMPTY_OBJECT`. -/
def sampleHead : CommitRec := { CommitRec.blank with selfID := idZero, tree := EMPTY_OBJECT }

/-- A session right after `Init`: the only record is `sampleHead` and the buffer
`.sit/COMMIT_MSG` is empty; the live index is `idx`. -/
def sampleSession (idx : Index) : Session :=
  { repo := sampleRepo "/r".toList idx, commits := [sampleHead], commitMsg := some [] }

/-- File-system answers for concrete evaluations: the directories `d` and `foo` exist;
`d` lists `d/big.bin` (one byte more than 200 MiB), `d/gone.txt` (its size cannot be
read) and `d/ok.txt`; `foo` lists `foo/a.txt`. -/
def sampleFs : FsEnv :=
  { IsExist := fun p => decide (p = "d".toList ∨ p = "foo".toList),
    IsDirectory := fun p => decide (p = "d".toList ∨ p = "foo".toList),
    ListRecursive := fun p =>
      if p = "d".toList then ["d/big.bin".toList, "d/gone.txt".toList, "d/ok.txt".toList]
      else if p = "foo".toList then ["foo/a.txt".toList]
      else [],
    file_size := fun p =>
      if p = "d/big.bin".toList then some (200 <<< 20 + 1)
      else if p = "d/ok.txt".toList ∨ p = "foo/a.txt".toList then some 3
      else none }

/-- The session `sampleRepo` in `/r` with the working files `d/ok.txt` and `foo/a.txt`,
both with the content "two". -/
def sampleWork (idx : Index) : Repo :=
  withFile "/r/d/ok.txt".toList "two".toList
    (withFile "/r/foo/a.txt".toList "two".toList (sampleRepo "/r".toList idx))

/-- The forest of the index with `dir/a.txt` (blob `idA`) and `dir/b.txt` (blob `idB`). -/
def sampleForest : IndexTree :=
  .dir "dir".toList "dir".toList []
    (.leaf "a.txt".toList "a.txt".toList idA (.leaf "b.txt".toList "b.txt".toList idB .nil))
    .nil

/-! # Theorems -/

/-! ## Orders -/

theorem charLt_strictTotal : StrictTotal charLt where
  irrefl a := by simp [charLt]
  trans a b c h1 h2 := by
    simp only [charLt, decide_eq_true_eq] at *
    exact Nat.lt_trans h1 h2
  total a b h1 h2 := by
    simp only [charLt, decide_eq_false_iff_not, not_lt] at *
    have h : a.toNat = b.toNat := Nat.le_antisymm h2 h1
    apply Char.ext
    apply UInt32.ext
    exact h

theorem lexLt_cons_cons {α : Type} {lt : α → α → Bool} (st : StrictTotal lt)
    (a b : α) (as bs : List α) :
    lexLt lt (a :: as) (b :: bs) = true ↔
      lt a b = true ∨ (a = b ∧ lexLt lt as bs = true) := by
  simp only [lexLt]
  by_cases h1 : lt a b = true
  · simp [h1]
  · by_cases h2 : lt b a = true
    · have hne : a ≠ b := by
        intro h; subst h; simp [st.irrefl] at h2
      simp [h1, h2, hne]
    · have he : a = b := st.total a b (by simpa using h1) (by simpa using h2)
      subst he
      simp [st.irrefl]

theorem lexLt_strictTotal {α : Type} {lt : α → α → Bool} (st : StrictTotal lt) :
    StrictTotal (lexLt lt) where
  irrefl a := by
    induction a with
    | nil => rfl
    | cons x xs ih => simp [lexLt, st.irrefl, ih]
  trans a := by
    induction a with
    | nil =>
      intro b c h1 h2
      cases b with
      | nil => simp [lexLt] at h1
      | cons y ys =>
        cases c with
        | nil => simp [lexLt] at h2
        | cons z zs => rfl
    | cons x xs ih =>
      intro b c h1 h2
      cases b with
      | nil => simp [lexLt] at h1
      | cons y ys =>
        cases c with
        | nil => simp [lexLt] at h2
        | cons z zs =>
          rw [lexLt_cons_cons st] at h1 h2 ⊢
          rcases h1 with h1 | ⟨rfl, h1⟩
          · rcases h2 with h2 | ⟨rfl, h2⟩
            · exact Or.inl (st.trans _ _ _ h1 h2)
            · exact Or.inl h1
          · rcases h2 with h2 | ⟨rfl, h2⟩
            · exact Or.inl h2
            · exact Or.inr ⟨rfl, ih _ _ h1 h2⟩
  total a := by
    induction a with
    | nil =>
      intro b h1 _
      cases b with
      | nil => rfl
      | cons y ys => simp [lexLt] at h1
    | cons x xs ih =>
      intro b h1 h2
      cases b with
      | nil => simp [lexLt] at h2
      | cons y ys =>
        have n1 : ¬ (lt x y = true ∨ (x = y ∧ lexLt lt xs ys = true)) := by
          rw [← lexLt_cons_cons st]; simp [h1]
        have n2 : ¬ (lt y x = true ∨ (y = x ∧ lexLt lt ys xs = true)) := by
          rw [← lexLt_cons_cons st]; simp [h2]
        push_neg at n1 n2
        have hxy : x = y := st.total x y (by simpa using n1.1) (by simpa using n2.1)
        subst hxy
        have h3 := ih ys (by simpa using n1.2 rfl) (by simpa using n2.2 rfl)
        rw [h3]

theorem strLt_strictTotal : StrictTotal strLt := lexLt_strictTotal charLt_strictTotal

theorem splitOn_ne_nil (c : Char) (s : Str) : splitOn c s ≠ [] := by
  induction s with
  | nil => simp [splitOn]
  | cons x xs ih =>
    simp only [splitOn]
    split
    · simp
    · split <;> simp

theorem joinSep_splitOn (c : Char) (s : Str) : joinSep c (splitOn c s) = s := by
  induction s with
  | nil => simp [splitOn, joinSep]
  | cons x xs ih =>
    simp only [splitOn]
    split
    · rename_i h
      subst h
      cases hs : splitOn x xs with
      | nil => exact absurd hs (splitOn_ne_nil _ _)
      | cons t ts =>
        rw [hs] at ih
        simp [joinSep, ih]
    · cases hs : splitOn c xs with
      | nil => exact absurd hs (splitOn_ne_nil _ _)
      | cons t ts =>
        rw [hs] at ih
        cases ts with
        | nil => simp [joinSep] at ih ⊢; exact ih
        | cons u us => simp [joinSep] at ih ⊢; exact ih

theorem pathLt_strictTotal : StrictTotal pathLt where
  irrefl a := (lexLt_strictTotal strLt_strictTotal).irrefl _
  trans a b c := (lexLt_strictTotal strLt_strictTotal).trans _ _ _
  total a b h1 h2 := by
    have h := (lexLt_strictTotal strLt_strictTotal).total _ _ h1 h2
    have := congrArg (joinSep '/') h
    simpa [pathElems, joinSep_splitOn] using this

theorem keyEquiv_iff {α : Type} {lt : α → α → Bool} (st : StrictTotal lt) (a b : α) :
    keyEquiv lt a b = true ↔ a = b := by
  constructor
  · intro h
    simp only [keyEquiv, Bool.and_eq_true, Bool.not_eq_true'] at h
    exact st.total a b h.1 h.2
  · rintro rfl
    simp [keyEquiv, st.irrefl]


/-! ## Paths: clean and plain -/

theorem splitOn_append_sep (c : Char) (a r : Str) :
    splitOn c (a ++ c :: r) = splitOn c a ++ splitOn c r := by
  induction a with
  | nil => simp [splitOn]
  | cons x xs ih =>
    show splitOn c (x :: (xs ++ c :: r)) = splitOn c (x :: xs) ++ splitOn c r
    rw [splitOn, splitOn, ih]
    by_cases hx : x = c
    · simp [hx]
    · simp only [hx, if_false]
      cases hs : splitOn c xs with
      | nil => exact absurd hs (splitOn_ne_nil _ _)
      | cons t ts => rfl

theorem cleanPath_isRelative (p : Str) (h : cleanPath p) : isRelative p := by
  intro hh
  cases p with
  | nil => simp at hh
  | cons c cs =>
    simp only [List.head?_cons, Option.some.injEq] at hh
    subst hh
    exact h [] (by simp [splitOn]) rfl

theorem cleanPath_getLast (p : Str) (h : cleanPath p) : p.getLast? ≠ some '/' := by
  intro hh
  obtain ⟨q, hq⟩ : ∃ q, p = q ++ ['/'] := by
    cases hp : p with
    | nil => rw [hp] at hh; simp at hh
    | cons c cs =>
      have hne : p ≠ [] := by rw [hp]; simp
      refine ⟨p.dropLast, ?_⟩
      have hl := List.dropLast_append_getLast hne
      have hlast : p.getLast hne = '/' := by
        have := List.getLast?_eq_getLast p hne
        rw [hh] at this
        exact (Option.some.inj this).symm
      rw [hlast] at hl
      rw [← hp]
      exact hl.symm
  apply h [] _ rfl
  rw [hq, splitOn_append_sep]
  simp [splitOn]

theorem plainPath_clean (p : Str) (h : plainPath p) : cleanPath p :=
  fun c hc => (h c hc).1

/-! ## Index: `Remove` and `InIndex` -/

theorem foldl_omErase (ks : List Str) (idx : Index) :
    ks.foldl (fun m k => omErase pathLt k m) idx = idx.filter (fun e => decide (e.1 ∉ ks)) := by
  induction ks generalizing idx with
  | nil => simp
  | cons k ks ih =>
    rw [List.foldl_cons, ih]
    simp only [omErase, List.filter_filter]
    apply List.filter_congr
    intro e _
    have hk := keyEquiv_iff pathLt_strictTotal k e.1
    by_cases h : k = e.1
    · have hkk := hk.mpr h
      rw [hkk]
      simp [h]
    · have : keyEquiv pathLt k e.1 = false := by
        cases hh : keyEquiv pathLt k e.1
        · rfl
        · exact absurd (hk.mp hh) h
      simp [this, Ne.symm h]

theorem erase_wouldRm (np : Str) (idx : Index) :
    (wouldRm np idx).foldl (fun m k => omErase pathLt k m) idx =
      idx.filter (fun e => !startsWith e.1 np) := by
  rw [foldl_omErase]
  apply List.filter_congr
  intro e he
  by_cases h : startsWith e.1 np = true
  · have : e.1 ∈ wouldRm np idx := by
      simp only [wouldRm, List.mem_map, List.mem_filter]
      exact ⟨e, ⟨he, h⟩, rfl⟩
    simp [h, this]
  · have : e.1 ∉ wouldRm np idx := by
      simp only [wouldRm, List.mem_map, List.mem_filter]
      rintro ⟨e', ⟨_, h'⟩, heq⟩
      rw [heq] at h'
      exact h h'
    simp [h, this]

theorem Remove_eq (path : Str) (idx : Index) :
    Remove path idx =
      ((idx.filter (fun e => startsWith e.1 (relative_path path))).length % UINT_SIZE,
       idx.filter (fun e => !startsWith e.1 (relative_path path))) := by
  simp only [Remove]
  rw [erase_wouldRm]
  simp [wouldRm]

theorem InIndex_eq (path : Str) (idx : Index) :
    InIndex path idx =
      (decide (0 < (Remove path idx).1), (Remove path idx).2) := by
  simp [InIndex, Remove]

theorem length_filter_add_not {α : Type} (p : α → Bool) (l : List α) :
    (l.filter p).length + (l.filter (fun a => !p a)).length = l.length := by
  induction l with
  | nil => rfl
  | cons a l ih =>
    by_cases h : p a = true
    · simp [List.filter_cons, h]; omega
    · simp [List.filter_cons, h]; omega

/-- C7 (the code departs from the claim): `InIndex` is not a pure check. On the index
that holds the single entry `a.txt`, the call `InIndex("a.txt")` answers `true` and
leaves the index empty. -/
theorem C7_InIndex_erases_match :
    InIndex "a.txt".toList [("a.txt".toList, "h".toList)] = (true, []) ∧
    (InIndex "a.txt".toList [("a.txt".toList, "h".toList)]).2
      ≠ [("a.txt".toList, "h".toList)] := by
  decide

/-- C8 as stated fails for a rooted argument: `Remove("/foo")` on the index that holds
`foo.txt` removes that entry and returns 1, although `foo.txt` does not start with
`/foo`. -/
theorem C8_counterexample :
    let idx : Index := [("foo.txt".toList, "h".toList)]
    startsWith "foo.txt".toList "/foo".toList = false ∧
    ("foo.txt".toList, "h".toList) ∈ idx ∧
    ("foo.txt".toList, "h".toList) ∉ (Remove "/foo".toList idx).2 ∧
    (Remove "/foo".toList idx).1 = 1 := by
  decide

/-- C8 (amended): `Remove(path)` matches against `path.relative_path()`. Afterwards no
remaining entry starts with that relative path, every entry that does not start with
it is still present with its blob id, nothing else is present, and the returned count
is the number of removed entries as an `unsigned` (modulo 2^32). The relative path of
a path without root is the path itself, and matching is by raw string: `Remove("foo")`
also removes `foobar.txt`. -/
theorem C8_Remove_by_relative_path (path : Str) (idx : Index) :
    (∀ e ∈ (Remove path idx).2, startsWith e.1 (relative_path path) = false) ∧
    (∀ e ∈ idx, startsWith e.1 (relative_path path) = false → e ∈ (Remove path idx).2) ∧
    (∀ e ∈ (Remove path idx).2, e ∈ idx) ∧
    (Remove path idx).1 = (idx.length - (Remove path idx).2.length) % UINT_SIZE ∧
    (isRelative path → relative_path path = path) ∧
    Remove "foo".toList [("foo/a".toList, "1".toList), ("foobar.txt".toList, "2".toList),
      ("g".toList, "3".toList)] = (2, [("g".toList, "3".toList)]) := by
  rw [Remove_eq]
  refine ⟨?_, ?_, ?_, ?_, ?_, by decide⟩
  · intro e he
    simpa using (List.mem_filter.mp he).2
  · intro e he h
    exact List.mem_filter.mpr ⟨he, by simp [h]⟩
  · intro e he
    exact (List.mem_filter.mp he).1
  · have := length_filter_add_not (fun e : Str × Str => startsWith e.1 (relative_path path)) idx
    simp only
    congr 1
    omega
  · intro h
    cases path with
    | nil => rfl
    | cons c cs =>
      have hc : c ≠ '/' := by
        intro hc; subst hc; simp [isRelative] at h
      simp [relative_path, hc]

/-- C8 witness: a relative argument on a concrete index. -/
theorem C8_Remove_witness :
    isRelative "foo".toList ∧ relative_path "foo".toList = "foo".toList ∧
    ∀ e ∈ (Remove "foo".toList [("foo/a".toList, "1".toList), ("g".toList, "3".toList)]).2,
      startsWith e.1 (relative_path "foo".toList) = false :=
  ⟨by decide,
   (C8_Remove_by_relative_path "foo".toList
      [("foo/a".toList, "1".toList), ("g".toList, "3".toList)]).2.2.2.2.1 (by decide),
   (C8_Remove_by_relative_path "foo".toList
      [("foo/a".toList, "1".toList), ("g".toList, "3".toList)]).1⟩

/-! ## Index file: `Save` and `Load` -/

theorem takeWhile_append_stop {α : Type} (p : α → Bool) (xs : List α) (y : α) (ys : List α)
    (h : ∀ x ∈ xs, p x = true) (hy : p y = false) :
    (xs ++ y :: ys).takeWhile p = xs := by
  induction xs with
  | nil => simp [List.takeWhile, hy]
  | cons x xs ih =>
    have hx : p x = true := h x (List.mem_cons_self _ _)
    simp [List.takeWhile, hx, ih (fun z hz => h z (List.mem_cons_of_mem _ hz))]

theorem dropWhile_append_stop {α : Type} (p : α → Bool) (xs : List α) (y : α) (ys : List α)
    (h : ∀ x ∈ xs, p x = true) (hy : p y = false) :
    (xs ++ y :: ys).dropWhile p = y :: ys := by
  induction xs with
  | nil => simp [List.dropWhile, hy]
  | cons x xs ih =>
    have hx : p x = true := h x (List.mem_cons_self _ _)
    simp [List.dropWhile, hx, ih (fun z hz => h z (List.mem_cons_of_mem _ hz))]

theorem digitChar_toNat (d : Nat) (h : d < 10) : (digitChar d).toNat = 48 + d := by
  interval_cases d <;> rfl

theorem isDigit_digitChar (d : Nat) (h : d < 10) : isDigit (digitChar d) = true := by
  simp [isDigit, digitChar_toNat d h]; omega

theorem decValue_append (xs ys : Str) (a : Nat) :
    decValue (xs ++ ys) a = decValue ys (decValue xs a) := by
  simp [decValue]

theorem natToDecAux_spec (fuel : Nat) : ∀ (n : Nat) (acc : Str), n < fuel →
    ∃ ds : Str, natToDecAux fuel n acc = ds ++ acc ∧ ds ≠ [] ∧
      (∀ c ∈ ds, isDigit c = true) ∧ decValue ds 0 = n := by
  induction fuel with
  | zero => intro n acc h; omega
  | succ fuel ih =>
    intro n acc h
    by_cases hn : n < 10
    · refine ⟨[digitChar n], by simp [natToDecAux, hn], by simp, ?_, ?_⟩
      · intro c hc
        simp only [List.mem_singleton] at hc
        subst hc
        exact isDigit_digitChar n hn
      · simp [decValue, digitChar_toNat n hn]
    · have hlt : n / 10 < fuel := by omega
      obtain ⟨ds, h1, h2, h3, h4⟩ := ih (n / 10) (digitChar (n % 10) :: acc) hlt
      have hm : n % 10 < 10 := Nat.mod_lt _ (by decide)
      refine ⟨ds ++ [digitChar (n % 10)], ?_, by simp, ?_, ?_⟩
      · simp [natToDecAux, hn, h1]
      · intro c hc
        rcases List.mem_append.mp hc with hc | hc
        · exact h3 c hc
        · simp only [List.mem_singleton] at hc
          subst hc
          exact isDigit_digitChar _ hm
      · rw [decValue_append, h4]
        simp [decValue, digitChar_toNat _ hm]
        omega

theorem natToDec_spec (n : Nat) :
    natToDec n ≠ [] ∧ (∀ c ∈ natToDec n, isDigit c = true) ∧ decValue (natToDec n) 0 = n := by
  obtain ⟨ds, h1, h2, h3, h4⟩ := natToDecAux_spec (n + 1) n [] (Nat.lt_succ_self n)
  have : natToDec n = ds := by simp [natToDec, h1]
  rw [this]
  exact ⟨h2, h3, h4⟩

theorem isDigit_not_space (c : Char) (h : isDigit c = true) :
    isSpace c = false ∧ c ≠ '-' ∧ c ≠ '+' ∧ c ≠ '\n' := by
  simp only [isDigit, decide_eq_true_eq] at h
  refine ⟨?_, ?_, ?_, ?_⟩
  · simp only [isSpace, Bool.or_eq_false_iff, beq_eq_false_iff_ne, ne_eq]
    refine ⟨⟨⟨⟨⟨?_, ?_⟩, ?_⟩, ?_⟩, ?_⟩, ?_⟩
    · rintro rfl; revert h; decide
    · rintro rfl; revert h; decide
    · rintro rfl; revert h; decide
    · rintro rfl; revert h; decide
    · omega
    · omega
  · rintro rfl; revert h; decide
  · rintro rfl; revert h; decide
  · rintro rfl; revert h; decide

theorem extractDigits_decimal (n : Nat) (body : Str) :
    extractDigits false (natToDec n ++ '\n' :: body) =
      if UINT_SIZE ≤ n then
        (UINT_SIZE - 1, { rest := '\n' :: body, eof := false, fail := true })
      else (n, { rest := '\n' :: body, eof := false, fail := false }) := by
  obtain ⟨h1, h2, h3⟩ := natToDec_spec n
  have hnl : isDigit '\n' = false := by decide
  simp only [extractDigits, takeWhile_append_stop isDigit _ '\n' body h2 hnl,
    dropWhile_append_stop isDigit _ '\n' body h2 hnl, h3]
  simp [h1]

theorem extractUnsigned_decimal (n : Nat) (body : Str) :
    extractUnsigned { rest := natToDec n ++ '\n' :: body, eof := false, fail := false } =
      if UINT_SIZE ≤ n then
        (UINT_SIZE - 1, { rest := '\n' :: body, eof := false, fail := true })
      else (n, { rest := '\n' :: body, eof := false, fail := false }) := by
  obtain ⟨h1, h2, _⟩ := natToDec_spec n
  have key := extractDigits_decimal n body
  cases hds : natToDec n with
  | nil => exact absurd hds h1
  | cons c cs =>
    have hc : isDigit c = true := h2 c (by rw [hds]; exact List.mem_cons_self _ _)
    obtain ⟨hs, hm, hp, _⟩ := isDigit_not_space c hc
    rw [hds] at key
    simp only [extractUnsigned, IStream.good, List.cons_append, List.dropWhile, hs, hm, hp,
      Bool.not_false, Bool.and_self, if_true, if_false]
    exact key

theorem extractUnsigned_count (n : Nat) (hn : n < UINT_SIZE) (body : Str) :
    extractUnsigned { rest := natToDec n ++ '\n' :: body, eof := false, fail := false } =
      (n, { rest := '\n' :: body, eof := false, fail := false }) := by
  rw [extractUnsigned_decimal, if_neg hn.not_le]

theorem getline_line (p rest : Str) (h : '\n' ∉ p) :
    getline { rest := p ++ '\n' :: rest, eof := false, fail := false } =
      (p, { rest := rest, eof := false, fail := false }) := by
  have hp : ∀ x ∈ p, (fun c : Char => c != '\n') x = true := by
    intro x hx
    simp only [bne_iff_ne, ne_eq]
    rintro rfl
    exact h hx
  have hy : (fun c : Char => c != '\n') '\n' = false := by decide
  simp only [getline, IStream.good, Bool.not_false, Bool.and_self, if_true]
  rw [takeWhile_append_stop _ p '\n' rest hp hy, dropWhile_append_stop _ p '\n' rest hp hy]

theorem loadLoop_entries (l : List (Str × Str)) (tail : Str)
    (h : ∀ e ∈ l, '\n' ∉ e.1 ∧ '\n' ∉ e.2) (acc : Index) :
    loadLoop l.length { rest := (l.map entryLines).flatten ++ tail, eof := false, fail := false }
        acc =
      l.foldl (fun m e => omInsert pathLt e.1 e.2 m) acc := by
  induction l generalizing acc with
  | nil => simp [loadLoop]
  | cons e l ih =>
    obtain ⟨h1, h2⟩ := h e (List.mem_cons_self _ _)
    have hrest : ((e :: l).map entryLines).flatten ++ tail =
        e.1 ++ '\n' :: (e.2 ++ '\n' :: ((l.map entryLines).flatten ++ tail)) := by
      simp [entryLines]
    simp only [List.length_cons, loadLoop, hrest, getline_line _ _ h1, getline_line _ _ h2,
      List.foldl_cons]
    exact ih (fun e' he' => h e' (List.mem_cons_of_mem _ he')) _

theorem omAlter_last {K V : Type} {lt : K → K → Bool} (st : StrictTotal lt)
    (k : K) (f : Option V → V) (m : OMap K V) (h : ∀ e ∈ m, lt e.1 k = true) :
    omAlter lt k f m = m ++ [(k, f none)] := by
  induction m with
  | nil => rfl
  | cons e m ih =>
    have he : lt e.1 k = true := h e (List.mem_cons_self _ _)
    have hne : lt k e.1 = false := by
      cases hh : lt k e.1
      · rfl
      · have := st.trans _ _ _ hh he
        rw [st.irrefl] at this
        exact absurd this (by simp)
    simp [omAlter, he, hne, ih (fun e' he' => h e' (List.mem_cons_of_mem _ he'))]

theorem omInsert_last {K V : Type} {lt : K → K → Bool} (st : StrictTotal lt)
    (k : K) (v : V) (m : OMap K V) (h : ∀ e ∈ m, lt e.1 k = true) :
    omInsert lt k v m = m ++ [(k, v)] := by
  simp [omInsert, omAlter_last st k _ m h]

theorem foldl_omInsert_sorted {K V : Type} {lt : K → K → Bool} (st : StrictTotal lt)
    (l acc : OMap K V) (h : omSorted lt (acc ++ l)) :
    l.foldl (fun m e => omInsert lt e.1 e.2 m) acc = acc ++ l := by
  induction l generalizing acc with
  | nil => simp
  | cons e l ih =>
    have hs : ∀ a ∈ acc, lt a.1 e.1 = true := by
      intro a ha
      have := List.pairwise_append.mp h
      exact this.2.2 a ha e (List.mem_cons_self _ _)
    rw [List.foldl_cons, omInsert_last st e.1 e.2 acc hs]
    have h' : omSorted lt ((acc ++ [(e.1, e.2)]) ++ l) := by
      simpa [omSorted] using h
    rw [ih _ h']
    simp

theorem Load_Save (idx : Index) (hs : omSorted pathLt idx) (hn : idx.length < UINT_SIZE)
    (h : ∀ e ∈ idx, '\n' ∉ e.1 ∧ '\n' ∉ e.2) : Load (some (Save idx)) = idx := by
  simp only [Load, Save, extractUnsigned_count _ hn, IStream.get, IStream.good,
    Bool.not_false, Bool.and_self, if_true]
  have := loadLoop_entries idx [] h []
  simp only [List.append_nil] at this
  rw [this, foldl_omInsert_sorted pathLt_strictTotal idx [] (by simpa using hs)]
  simp

theorem splitOn_line (c : Char) (p rest : Str) (h : c ∉ p) :
    splitOn c (p ++ c :: rest) = p :: splitOn c rest := by
  induction p with
  | nil => simp [splitOn]
  | cons x xs ih =>
    have hx : x ≠ c := by
      rintro rfl; exact h (List.mem_cons_self _ _)
    have hxs : c ∉ xs := fun hc => h (List.mem_cons_of_mem _ hc)
    simp [splitOn, hx, ih hxs]

theorem splitOn_entries (l : List (Str × Str)) (h : ∀ e ∈ l, '\n' ∉ e.1 ∧ '\n' ∉ e.2) :
    splitOn '\n' (l.map entryLines).flatten = (l.map (fun e => [e.1, e.2])).flatten ++ [[]] := by
  induction l with
  | nil => simp [splitOn]
  | cons e l ih =>
    obtain ⟨h1, h2⟩ := h e (List.mem_cons_self _ _)
    have hrest : ((e :: l).map entryLines).flatten =
        e.1 ++ '\n' :: (e.2 ++ '\n' :: (l.map entryLines).flatten) := by
      simp [entryLines]
    rw [hrest, splitOn_line _ _ _ h1, splitOn_line _ _ _ h2,
      ih (fun e' he' => h e' (List.mem_cons_of_mem _ he'))]
    simp

theorem natToDec_no_newline (n : Nat) : '\n' ∉ natToDec n := by
  intro h
  exact (isDigit_not_space _ ((natToDec_spec n).2.1 _ h)).2.2.2 rfl

theorem getline_failed (s : IStream) (h : s.fail = true) :
    getline s = ([], { s with fail := true }) := by
  simp [getline, IStream.good, h]

theorem loadLoop_failed (n : Nat) (s : IStream) (h : s.fail = true) :
    loadLoop (n + 1) s [] = [([], [])] ∧ loadLoop n s [([], [])] = [([], [])] := by
  have hi : omInsert pathLt ([] : Str) ([] : Str) [([], [])] = [([], [])] := by decide
  have h0 : ∀ m : Nat, loadLoop m s [([], [])] = [([], [])] := by
    intro m
    induction m with
    | zero => rfl
    | succ m ih =>
      have hs : ({ s with fail := true } : IStream) = s := by
        cases s; simp_all
      simp only [loadLoop, getline_failed s h, hs, hi]
      exact ih
  refine ⟨?_, h0 n⟩
  have hs : ({ s with fail := true } : IStream) = s := by
    cases s; simp_all
  simp only [loadLoop, getline_failed s h, hs]
  exact h0 n

theorem omInsert_ne_nil {K V : Type} (lt : K → K → Bool) (k : K) (v : V) (m : OMap K V) :
    omInsert lt k v m ≠ [] := by
  cases m with
  | nil => simp [omInsert, omAlter]
  | cons e m =>
    simp only [omInsert, omAlter]
    split
    · simp
    · split <;> simp

theorem loadLoop_ne_nil (n : Nat) (s : IStream) (idx : Index) (h : idx ≠ []) :
    loadLoop n s idx ≠ [] := by
  induction n generalizing s idx with
  | zero => simpa [loadLoop] using h
  | succ n ih =>
    simp only [loadLoop]
    exact ih _ _ (omInsert_ne_nil _ _ _ _)

theorem Load_nil_iff (content : Str) : Load (some content) = [] ↔ fileCount content = 0 := by
  simp only [Load, fileCount]
  cases hn : (extractUnsigned { rest := content, eof := false, fail := false }).1 with
  | zero => simp [loadLoop]
  | succ n =>
    simp only [loadLoop]
    constructor
    · intro h
      exact absurd h (loadLoop_ne_nil _ _ _ (omInsert_ne_nil _ _ _ _))
    · intro h; omega

theorem fileCount_noCount (content : Str) (h : noCount content = true) :
    fileCount content = 0 := by
  simp only [fileCount, extractUnsigned, IStream.good, Bool.not_false, Bool.and_self, if_true]
  simp only [noCount] at h
  cases hd : content.dropWhile isSpace with
  | nil => rfl
  | cons c cs =>
    rw [hd] at h
    simp only [Bool.and_eq_true, Bool.not_eq_true', bne_iff_ne, ne_eq] at h
    obtain ⟨⟨h1, h2⟩, h3⟩ := h
    simp [h2, h3, extractDigits, List.takeWhile, h1]

theorem Load_Save_overflow (idx : Index) (hn : UINT_SIZE ≤ idx.length) :
    Load (some (Save idx)) = [([], [])] := by
  have h2 : UINT_SIZE - 1 = (UINT_SIZE - 2) + 1 := by decide
  simp only [Load, Save, extractUnsigned_decimal, if_pos hn, IStream.get, IStream.good,
    Bool.not_true, Bool.and_false, if_false]
  rw [h2]
  exact (loadLoop_failed _ _ rfl).1

theorem splitOn_no_sep (c : Char) (s : Str) (h : c ∉ s) : splitOn c s = [s] := by
  induction s with
  | nil => rfl
  | cons x xs ih =>
    have hx : x ≠ c := by
      rintro rfl; exact h (List.mem_cons_self _ _)
    simp [splitOn, hx, ih (fun hc => h (List.mem_cons_of_mem _ hc))]

theorem strLt_replicate (m n : Nat) (h : m < n) :
    strLt (List.replicate m 'a') (List.replicate n 'a') = true := by
  induction m generalizing n with
  | zero =>
    cases n with
    | zero => omega
    | succ n => simp [strLt, lexLt, List.replicate]
  | succ m ih =>
    cases n with
    | zero => omega
    | succ n =>
      have := ih n (by omega)
      have hc : charLt 'a' 'a' = false := by decide
      simpa [strLt, lexLt, List.replicate, hc] using this

theorem pathLt_replicate (m n : Nat) (h : m < n) :
    pathLt (List.replicate m 'a') (List.replicate n 'a') = true := by
  have hm : '/' ∉ List.replicate m 'a' := by
    intro hc; have := List.eq_of_mem_replicate hc; revert this; decide
  have hn : '/' ∉ List.replicate n 'a' := by
    intro hc; have := List.eq_of_mem_replicate hc; revert this; decide
  simp [pathLt, pathElems, splitOn_no_sep _ _ hm, splitOn_no_sep _ _ hn, lexLt,
    strLt_replicate m n h]

theorem bigIndex_sorted : omSorted pathLt bigIndex := by
  simp only [omSorted, bigIndex, List.pairwise_map]
  exact List.Pairwise.imp (fun {m n} h => pathLt_replicate m n h) (List.pairwise_lt_range _)

theorem bigIndex_length : bigIndex.length = UINT_SIZE := by
  simp [bigIndex]

/-- C9 as stated fails on an index of 2^32 entries: `Save` writes the count 4294967296,
which `Load` cannot hold in its `unsigned fileCount`; the extraction fails and `Load`
ends with the single entry of empty path and empty id. -/
theorem C9_counterexample :
    omSorted pathLt bigIndex ∧ (∀ e ∈ bigIndex, '\n' ∉ e.1 ∧ '\n' ∉ e.2) ∧
    Load (some (Save bigIndex)) = [([], [])] ∧ Load (some (Save bigIndex)) ≠ bigIndex := by
  have hl := Load_Save_overflow bigIndex (by rw [bigIndex_length])
  refine ⟨bigIndex_sorted, ?_, hl, ?_⟩
  · intro e he
    simp only [bigIndex, List.mem_map, List.mem_range] at he
    obtain ⟨n, _, rfl⟩ := he
    refine ⟨?_, by simp⟩
    intro hc
    have := List.eq_of_mem_replicate hc
    revert this; decide
  · rw [hl]
    intro h
    have := congrArg List.length h
    rw [bigIndex_length] at this
    revert this; decide

/-- C9 (amended): for every index (an ordered map) of fewer than 2^32 entries whose
paths and blob ids contain no newline, the lines of the text `Save` writes are the
decimal entry count, then per entry, in the ascending key order of the map, the path
and the blob id (and the empty rest after the last newline); and `Load` applied to that
text yields exactly the same index. -/
theorem C9_Save_Load_roundtrip (idx : Index) (hs : omSorted pathLt idx)
    (hn : idx.length < UINT_SIZE) (h : ∀ e ∈ idx, '\n' ∉ e.1 ∧ '\n' ∉ e.2) :
    splitOn '\n' (Save idx) =
      natToDec idx.length :: ((idx.map (fun e => [e.1, e.2])).flatten ++ [[]]) ∧
    decValue (natToDec idx.length) 0 = idx.length ∧
    Load (some (Save idx)) = idx := by
  refine ⟨?_, (natToDec_spec _).2.2, Load_Save idx hs hn h⟩
  rw [Save, splitOn_line _ _ _ (natToDec_no_newline _), splitOn_entries idx h]

/-- C9 witness: a two-entry index, saved and loaded back. -/
theorem C9_Save_Load_witness :
    Save [("a.txt".toList, "h1".toList), ("b/c".toList, "h2".toList)]
      = "2\na.txt\nh1\nb/c\nh2\n".toList ∧
    Load (some (Save [("a.txt".toList, "h1".toList), ("b/c".toList, "h2".toList)]))
      = [("a.txt".toList, "h1".toList), ("b/c".toList, "h2".toList)] :=
  ⟨by decide,
   (C9_Save_Load_roundtrip [("a.txt".toList, "h1".toList), ("b/c".toList, "h2".toList)]
      (by decide) (by decide) (by decide)).2.2⟩

/-- C10 as stated fails: the content "1" plus newline has a decimal count on its first
line and no (path, id) pair after it, yet `Load` ends with one entry (empty path, empty
id); after the count 2 and the single pair (a, b) the index holds that pair and the
empty entry; and a content whose first line is empty, not a count, gives an entry when
a count follows on the second line. -/
theorem C10_counterexample :
    Load (some "1\n".toList) = [([], [])] ∧ Load (some "1\n".toList) ≠ [] ∧
    Load (some "2\na\nb\n".toList) = [([], []), ("a".toList, "b".toList)] ∧
    Load (some "\n1\na\nb\n".toList) = [("a".toList, "b".toList)] := by
  decide

/-- C10 (amended): `Load` yields the empty index when the file does not exist, when
its content holds no count (after leading white space it ends or goes on with a
character that is neither a sign nor a digit), and when the count read is 0. -/
theorem C10_Load_empty_without_count :
    Load none = [] ∧
    (∀ content : Str, noCount content = true → Load (some content) = []) ∧
    (∀ content : Str, fileCount content = 0 → Load (some content) = []) := by
  refine ⟨rfl, ?_, fun content h => (Load_nil_iff content).mpr h⟩
  intro content h
  exact (Load_nil_iff content).mpr (fileCount_noCount content h)

/-- C10 witness: a file whose first line is not a count. -/
theorem C10_Load_witness :
    noCount "index v1\n".toList = true ∧ Load (some "index v1\n".toList) = [] :=
  ⟨by decide, C10_Load_empty_without_count.2.1 "index v1\n".toList (by decide)⟩

/-! ## Tree objects: `WriteTree` and `GetTree` -/

theorem octDigitsAux_spec (fuel : Nat) : ∀ (n : Nat) (acc : Str), n < fuel →
    ∃ ds : Str, octDigitsAux fuel n acc = ds ++ acc ∧
      (∀ c ∈ ds, isDigit c = true) ∧ FileModeToInt ds = n ∧
      (∀ k : Nat, n < 8 ^ (k + 1) → ds.length ≤ k + 1) := by
  induction fuel with
  | zero => intro n acc h; omega
  | succ fuel ih =>
    intro n acc h
    by_cases hn : n < 8
    · refine ⟨[digitChar n], by simp [octDigitsAux, hn], ?_, ?_, ?_⟩
      · intro c hc
        simp only [List.mem_singleton] at hc
        subst hc
        exact isDigit_digitChar n (by omega)
      · simp [FileModeToInt, digitChar_toNat n (by omega)]
      · intro k _; simp
    · have hlt : n / 8 < fuel := by omega
      obtain ⟨ds, h1, h2, h3, h4⟩ := ih (n / 8) (digitChar (n % 8) :: acc) hlt
      have hm : n % 8 < 10 := by omega
      refine ⟨ds ++ [digitChar (n % 8)], ?_, ?_, ?_, ?_⟩
      · simp [octDigitsAux, hn, h1]
      · intro c hc
        rcases List.mem_append.mp hc with hc | hc
        · exact h2 c hc
        · simp only [List.mem_singleton] at hc
          subst hc
          exact isDigit_digitChar _ hm
      · simp only [FileModeToInt] at h3 ⊢
        rw [List.foldl_append, h3]
        simp [digitChar_toNat _ hm]
        omega
      · intro k hk
        cases k with
        | zero => omega
        | succ k =>
          have : n / 8 < 8 ^ (k + 1) := by
            rw [Nat.div_lt_iff_lt_mul (by decide)]
            calc n < 8 ^ (k + 1 + 1) := hk
              _ = 8 ^ (k + 1) * 8 := by ring
          have := h4 k this
          simp; omega

theorem FileModeToInt_zeros (k : Nat) (ds : Str) :
    FileModeToInt (List.replicate k '0' ++ ds) = FileModeToInt ds := by
  induction k with
  | zero => simp
  | succ k ih =>
    simp only [FileModeToInt, List.replicate_succ, List.cons_append, List.foldl_cons] at ih ⊢
    simpa using ih

theorem FileModeToString_spec (mode : Nat) (h : mode < 8 ^ 6) :
    (FileModeToString mode).length = 6 ∧ (∀ c ∈ FileModeToString mode, isDigit c = true) ∧
    FileModeToInt (FileModeToString mode) = mode := by
  obtain ⟨ds, h1, h2, h3, h4⟩ := octDigitsAux_spec (mode + 1) mode [] (Nat.lt_succ_self _)
  have hl : ds.length ≤ 6 := h4 5 h
  have hd : octDigitsAux (mode + 1) mode [] = ds := by simp [h1]
  simp only [FileModeToString, hd]
  refine ⟨by simp; omega, ?_, by rw [FileModeToInt_zeros, h3]⟩
  intro c hc
  rcases List.mem_append.mp hc with hc | hc
  · have := List.eq_of_mem_replicate hc
    subst this; decide
  · exact h2 c hc


theorem length_six {α : Type} (l : List α) (h : l.length = 6) :
    ∃ a b c d e f, l = [a, b, c, d, e, f] := by
  match l, h with
  | [a, b, c, d, e, f], _ => exact ⟨a, b, c, d, e, f, rfl⟩

/-- The line of one entry without its newline. -/
theorem treeLine_parse (item : TreeItem) (h : GoodItem item) :
    ∃ line : Str, treeLine item = line ++ ['\n'] ∧ '\n' ∉ line ∧
      parseTreeLine line = some item := by
  obtain ⟨hm, hid, hidn, hfn⟩ := h
  obtain ⟨hl, hd, hv⟩ := FileModeToString_spec item.mode hm
  obtain ⟨a, b, c, d, e, f, hms⟩ := length_six _ hl
  have hnl : '\n' ∉ FileModeToString item.mode := by
    intro hc
    exact (isDigit_not_space _ (hd _ hc)).2.2.2 rfl
  have hvi : FileModeToInt [a, b, c, d, e, f] = item.mode := by rw [← hms]; exact hv
  rw [hms] at hnl
  rcases item with ⟨mode, type, id, filename⟩
  simp only at hid hidn hfn hvi hnl
  have h1 : List.take 40 (id ++ ' ' :: filename) = id := List.take_left' hid
  have h3 : List.drop 41 (id ++ ' ' :: filename) = filename := by
    have := @List.drop_left' _ (id ++ [' ']) filename 41 (by simp [hid])
    simpa using this
  have hle : 41 ≤ 40 + (filename.length + 1) := by omega
  cases type with
  | BLOB =>
    refine ⟨[a, b, c, d, e, f] ++ ' ' :: ("blob ".toList ++ (id ++ ' ' :: filename)), ?_, ?_, ?_⟩
    · simp [treeLine, hms]
    · simp only [List.mem_append, List.mem_cons, not_or]
      simp only [List.mem_cons, not_or] at hnl
      refine ⟨hnl, by decide, ?_, hidn, by decide, hfn⟩
      decide
    · simp [parseTreeLine, substr, substrFrom, hid, h1, h3, hvi, hle]
  | TREE =>
    refine ⟨[a, b, c, d, e, f] ++ ' ' :: ("tree ".toList ++ (id ++ ' ' :: filename)), ?_, ?_, ?_⟩
    · simp [treeLine, hms]
    · simp only [List.mem_append, List.mem_cons, not_or]
      simp only [List.mem_cons, not_or] at hnl
      refine ⟨hnl, by decide, ?_, hidn, by decide, hfn⟩
      decide
    · simp [parseTreeLine, substr, substrFrom, hid, h1, h3, hvi, hle]

theorem readLines_lines (ls : List Str) (h : ∀ l ∈ ls, '\n' ∉ l) :
    ∀ fuel : Nat, ((ls.map (fun l => l ++ ['\n'])).flatten).length < fuel →
      readLines fuel
        { rest := (ls.map (fun l => l ++ ['\n'])).flatten, eof := false, fail := false } = ls := by
  induction ls with
  | nil =>
    intro fuel _
    cases fuel with
    | zero => rfl
    | succ f => simp [readLines, getline, IStream.good]
  | cons l ls ih =>
    intro fuel hf
    have hl : '\n' ∉ l := h l (List.mem_cons_self _ _)
    have hrest : ((l :: ls).map (fun l => l ++ ['\n'])).flatten =
        l ++ '\n' :: (ls.map (fun l => l ++ ['\n'])).flatten := by simp
    rw [hrest] at hf ⊢
    cases fuel with
    | zero => simp at hf
    | succ f =>
      simp only [readLines, getline_line _ _ hl]
      have hf' : ((ls.map (fun l => l ++ ['\n'])).flatten).length < f := by
        simp only [List.length_append, List.length_cons] at hf
        omega
      simp [ih (fun l' hl' => h l' (List.mem_cons_of_mem _ hl')) f hf']

theorem tree_lines (tree : Tree) (h : ∀ item ∈ tree, GoodItem item) :
    ∃ ls : List Str, (tree.map treeLine).flatten = (ls.map (fun l => l ++ ['\n'])).flatten ∧
      (∀ l ∈ ls, '\n' ∉ l) ∧ parseTreeLines ls = some tree := by
  induction tree with
  | nil => exact ⟨[], rfl, by simp, rfl⟩
  | cons item tree ih =>
    obtain ⟨ls, h1, h2, h3⟩ := ih (fun i hi => h i (List.mem_cons_of_mem _ hi))
    obtain ⟨line, g1, g2, g3⟩ := treeLine_parse item (h item (List.mem_cons_self _ _))
    refine ⟨line :: ls, ?_, ?_, ?_⟩
    · simp only [List.map_cons, List.flatten_cons, h1, g1]
    · intro l hl
      rcases List.mem_cons.mp hl with rfl | hl
      · exact g2
      · exact h2 l hl
    · simp [parseTreeLines, g3, h3]

theorem GetPath_isSome (root id : Str) (h : 2 ≤ id.length) :
    ∃ p, GetPath root id = some p := by
  simp [GetPath, substr, substrFrom, h]

theorem GetTree_WriteTree (h : Hash) (root : Str) (tree : Tree) (st : Store)
    (hg : ∀ item ∈ tree, GoodItem item) :
    ∃ p : Str, GetPath root (h.sum (tree.map treeLine).flatten) = some p ∧
      WriteTree h root tree st =
        some (h.sum (tree.map treeLine).flatten,
              CompressWrite p (tree.map treeLine).flatten st) ∧
      GetTree root (CompressWrite p (tree.map treeLine).flatten st)
        (h.sum (tree.map treeLine).flatten) = some tree := by
  obtain ⟨p, hp⟩ := GetPath_isSome root (h.sum (tree.map treeLine).flatten)
    (by rw [h.len40]; decide)
  obtain ⟨ls, h1, h2, h3⟩ := tree_lines tree hg
  refine ⟨p, hp, by simp [WriteTree, hp], ?_⟩
  simp only [GetTree, hp, CompressWrite, if_true]
  rw [h1, readLines_lines ls h2 _ (Nat.lt_succ_self _), h3]

/-- C5 as stated fails for an id of 40 characters that holds a newline: the entry is
written over two lines and `GetTree` throws on the first (`substr(53)` past the end). -/
theorem C5_counterexample :
    let item : TreeItem :=
      { mode := 0o100644, type := ObjectType.BLOB,
        id := List.replicate 39 '0' ++ ['\n'], filename := "a".toList }
    item.id.length = 40 ∧ item.mode < 8 ^ 6 ∧ item.filename ≠ [] ∧ '\n' ∉ item.filename ∧
    (WriteTree toyHash "/r".toList [item] (fun _ => none)).bind
      (fun r => GetTree "/r".toList r.2 r.1) = none := by
  decide

/-- C5 (amended): for every list of tree entries in which each id is exactly 40
characters and holds no newline, each mode fits in six octal digits and each name holds
no newline, `WriteTree` returns an id, and `GetTree` applied to that id on the store
`WriteTree` leaves yields exactly the same list of (mode, kind, id, name) tuples in the
same order. -/
theorem C5_tree_roundtrip (h : Hash) (root : Str) (tree : Tree) (st : Store)
    (hg : ∀ item ∈ tree, GoodItem item) :
    ∃ (id : Str) (st' : Store),
      WriteTree h root tree st = some (id, st') ∧ GetTree root st' id = some tree := by
  obtain ⟨p, _, h2, h3⟩ := GetTree_WriteTree h root tree st hg
  exact ⟨_, _, h2, h3⟩

/-- C5 witness: a blob entry and a tree entry. -/
theorem C5_tree_roundtrip_witness :
    ∃ (id : Str) (st' : Store),
      WriteTree toyHash "/r".toList
        [{ mode := 0o100644, type := ObjectType.BLOB, id := List.replicate 40 'a',
           filename := "x.txt".toList },
         { mode := 0o40000, type := ObjectType.TREE, id := List.replicate 40 'b',
           filename := "dir".toList }] (fun _ => none) = some (id, st') ∧
      GetTree "/r".toList st' id =
        some [{ mode := 0o100644, type := ObjectType.BLOB, id := List.replicate 40 'a',
                filename := "x.txt".toList },
              { mode := 0o40000, type := ObjectType.TREE, id := List.replicate 40 'b',
                filename := "dir".toList }] :=
  C5_tree_roundtrip toyHash "/r".toList _ (fun _ => none) (by decide)

/-! ## Ordered maps: lookup, update, extensionality -/

theorem keyEquiv_eq_decide {K : Type} [DecidableEq K] {lt : K → K → Bool}
    (st : StrictTotal lt) (a b : K) : keyEquiv lt a b = decide (a = b) := by
  by_cases h : a = b
  · simp [h, (keyEquiv_iff st b b).mpr rfl]
  · have : keyEquiv lt a b ≠ true := fun hh => h ((keyEquiv_iff st a b).mp hh)
    simp [h, this]

theorem lt_asymm' {K : Type} {lt : K → K → Bool} (st : StrictTotal lt) (a b : K)
    (h : lt a b = true) : lt b a = false := by
  cases hh : lt b a
  · rfl
  · have := st.trans _ _ _ h hh
    rw [st.irrefl] at this
    exact absurd this (by simp)

theorem lt_ne' {K : Type} {lt : K → K → Bool} (st : StrictTotal lt) (a b : K)
    (h : lt a b = true) : a ≠ b := by
  rintro rfl
  rw [st.irrefl] at h
  exact absurd h (by simp)

theorem omFind_cons {K V : Type} [DecidableEq K] {lt : K → K → Bool} (st : StrictTotal lt)
    (k k' : K) (v : V) (m : OMap K V) :
    omFind lt k ((k', v) :: m) = if k = k' then some v else omFind lt k m := by
  simp [omFind, keyEquiv_eq_decide st]

theorem omFind_none_of_lt {K V : Type} [DecidableEq K] {lt : K → K → Bool}
    (st : StrictTotal lt) (k : K) (m : OMap K V) (h : ∀ e ∈ m, lt k e.1 = true) :
    omFind lt k m = none := by
  induction m with
  | nil => rfl
  | cons e m ih =>
    obtain ⟨k', v⟩ := e
    rw [omFind_cons st, if_neg (lt_ne' st _ _ (h (k', v) (List.mem_cons_self _ _)))]
    exact ih (fun e' he' => h e' (List.mem_cons_of_mem _ he'))

theorem omFind_eq_none_iff {K V : Type} [DecidableEq K] {lt : K → K → Bool}
    (st : StrictTotal lt) (k : K) (m : OMap K V) :
    omFind lt k m = none ↔ ∀ e ∈ m, e.1 ≠ k := by
  induction m with
  | nil => simp [omFind]
  | cons e m ih =>
    obtain ⟨k', v⟩ := e
    rw [omFind_cons st]
    by_cases h : k = k'
    · simp [h]
    · simp [h, ih, Ne.symm h]

theorem omFind_mem {K V : Type} [DecidableEq K] {lt : K → K → Bool}
    (st : StrictTotal lt) (k : K) (v : V) (m : OMap K V) (h : omFind lt k m = some v) :
    (k, v) ∈ m := by
  induction m with
  | nil => simp [omFind] at h
  | cons e m ih =>
    obtain ⟨k', v'⟩ := e
    rw [omFind_cons st] at h
    by_cases hk : k = k'
    · simp only [hk, if_true, Option.some.injEq] at h
      subst h; subst hk
      exact List.mem_cons_self _ _
    · rw [if_neg hk] at h
      exact List.mem_cons_of_mem _ (ih h)

theorem omFind_of_mem {K V : Type} [DecidableEq K] {lt : K → K → Bool}
    (st : StrictTotal lt) (k : K) (v : V) (m : OMap K V) (hs : omSorted lt m)
    (h : (k, v) ∈ m) : omFind lt k m = some v := by
  induction m with
  | nil => simp at h
  | cons e m ih =>
    obtain ⟨k', v'⟩ := e
    rw [omFind_cons st]
    have hs' := List.pairwise_cons.mp hs
    rcases List.mem_cons.mp h with heq | hm
    · simp only [Prod.mk.injEq] at heq
      simp [heq.1, heq.2]
    · have hlt : lt k' k = true := hs'.1 (k, v) hm
      rw [if_neg (Ne.symm (lt_ne' st _ _ hlt))]
      exact ih hs'.2 hm

theorem omSorted_filter {K V : Type} {lt : K → K → Bool} (p : K × V → Bool) (m : OMap K V)
    (hs : omSorted lt m) : omSorted lt (m.filter p) :=
  List.Pairwise.sublist (List.filter_sublist m) hs

theorem omFind_filter_key {K V : Type} [DecidableEq K] {lt : K → K → Bool}
    (st : StrictTotal lt) (q : K → Bool) (k : K) (m : OMap K V) :
    omFind lt k (m.filter (fun e => q e.1)) = if q k = true then omFind lt k m else none := by
  induction m with
  | nil => simp [omFind]
  | cons e m ih =>
    obtain ⟨k', v'⟩ := e
    by_cases hq : q k' = true
    · simp only [List.filter_cons, hq, if_true]
      rw [omFind_cons st, omFind_cons st, ih]
      by_cases hk : k = k'
      · subst hk; simp [hq]
      · simp [hk]
    · have hq' : q k' = false := by simpa using hq
      simp only [List.filter_cons, hq', Bool.false_eq_true, if_false]
      rw [omFind_cons st, ih]
      by_cases hk : k = k'
      · subst hk; simp [hq']
      · simp [hk]

theorem omSorted_omAlter {K V : Type} {lt : K → K → Bool} (st : StrictTotal lt)
    (k : K) (f : Option V → V) (m : OMap K V) (hs : omSorted lt m) :
    omSorted lt (omAlter lt k f m) ∧
      ∀ e ∈ omAlter lt k f m, e.1 = k ∨ ∃ e' ∈ m, e'.1 = e.1 := by
  induction m with
  | nil => simp [omAlter, omSorted]
  | cons e m ih =>
    obtain ⟨k', v'⟩ := e
    have hs' := List.pairwise_cons.mp hs
    obtain ⟨ih1, ih2⟩ := ih hs'.2
    simp only [omAlter]
    by_cases h1 : lt k k' = true
    · simp only [h1, if_true]
      refine ⟨?_, ?_⟩
      · refine List.pairwise_cons.mpr ⟨?_, hs⟩
        intro e he
        rcases List.mem_cons.mp he with rfl | he
        · exact h1
        · exact st.trans _ _ _ h1 (hs'.1 e he)
      · intro e he
        rcases List.mem_cons.mp he with rfl | he
        · exact Or.inl rfl
        · exact Or.inr ⟨e, he, rfl⟩
    · have h1' : lt k k' = false := by simpa using h1
      by_cases h2 : lt k' k = true
      · simp only [h1', h2, Bool.false_eq_true, if_true, if_false]
        refine ⟨?_, ?_⟩
        · refine List.pairwise_cons.mpr ⟨?_, ih1⟩
          intro e he
          rcases ih2 e he with hk | ⟨e', he', hk⟩
          · rw [hk]; exact h2
          · rw [← hk]; exact hs'.1 e' he'
        · intro e he
          rcases List.mem_cons.mp he with rfl | he
          · exact Or.inr ⟨_, List.mem_cons_self _ _, rfl⟩
          · rcases ih2 e he with hk | ⟨e', he', hk⟩
            · exact Or.inl hk
            · exact Or.inr ⟨e', List.mem_cons_of_mem _ he', hk⟩
      · have h2' : lt k' k = false := by simpa using h2
        simp only [h1', h2', Bool.false_eq_true, if_false]
        refine ⟨?_, ?_⟩
        · exact List.pairwise_cons.mpr ⟨hs'.1, hs'.2⟩
        · intro e he
          rcases List.mem_cons.mp he with rfl | he
          · exact Or.inr ⟨_, List.mem_cons_self _ _, rfl⟩
          · exact Or.inr ⟨e, List.mem_cons_of_mem _ he, rfl⟩

theorem omFind_omAlter {K V : Type} [DecidableEq K] {lt : K → K → Bool}
    (st : StrictTotal lt) (k : K) (f : Option V → V) (m : OMap K V) (hs : omSorted lt m)
    (k'' : K) :
    omFind lt k'' (omAlter lt k f m) =
      if k'' = k then some (f (omFind lt k m)) else omFind lt k'' m := by
  induction m with
  | nil =>
    simp only [omAlter]
    rw [omFind_cons st]
    simp [omFind]
  | cons e m ih =>
    obtain ⟨k', v'⟩ := e
    have hs' := List.pairwise_cons.mp hs
    simp only [omAlter]
    by_cases h1 : lt k k' = true
    · simp only [h1, if_true]
      have hnone : omFind lt k ((k', v') :: m) = none := by
        apply omFind_none_of_lt st
        intro e he
        rcases List.mem_cons.mp he with rfl | he
        · exact h1
        · exact st.trans _ _ _ h1 (hs'.1 e he)
      rw [omFind_cons st, hnone]
    · have h1' : lt k k' = false := by simpa using h1
      by_cases h2 : lt k' k = true
      · simp only [h1', h2, Bool.false_eq_true, if_true, if_false]
        have hne : k ≠ k' := Ne.symm (lt_ne' st _ _ h2)
        rw [omFind_cons st, ih hs'.2, omFind_cons st, omFind_cons st, if_neg hne]
        by_cases hk : k'' = k
        · subst hk; simp [hne]
        · simp [hk]
      · have h2' : lt k' k = false := by simpa using h2
        simp only [h1', h2', Bool.false_eq_true, if_false]
        have he : k = k' := st.total _ _ h1' h2'
        subst he
        rw [omFind_cons st, omFind_cons st, omFind_cons st]
        by_cases hk : k'' = k
        · subst hk; simp
        · simp [hk]

theorem omSorted_ext {K V : Type} [DecidableEq K] {lt : K → K → Bool} (st : StrictTotal lt)
    (m1 m2 : OMap K V) (h1 : omSorted lt m1) (h2 : omSorted lt m2)
    (h : ∀ k, omFind lt k m1 = omFind lt k m2) : m1 = m2 := by
  induction m1 generalizing m2 with
  | nil =>
    cases m2 with
    | nil => rfl
    | cons e m2 =>
      have := h e.1
      rw [omFind_cons st] at this
      simp [omFind] at this
  | cons e m1 ih =>
    obtain ⟨k1, v1⟩ := e
    have hs1 := List.pairwise_cons.mp h1
    cases m2 with
    | nil =>
      have := h k1
      rw [omFind_cons st] at this
      simp [omFind] at this
    | cons e2 m2 =>
      obtain ⟨k2, v2⟩ := e2
      have hs2 := List.pairwise_cons.mp h2
      have hk : k1 = k2 := by
        by_contra hne
        have a1 := h k1
        have a2 := h k2
        rw [omFind_cons st, omFind_cons st, if_pos rfl, if_neg hne] at a1
        rw [omFind_cons st, omFind_cons st, if_pos rfl, if_neg (Ne.symm hne)] at a2
        have m1' := omFind_mem st _ _ _ a1.symm
        have m2' := omFind_mem st _ _ _ a2
        have l1 := hs2.1 _ m1'
        have l2 := hs1.1 _ m2'
        simp only at l1 l2
        rw [lt_asymm' st _ _ l1] at l2
        exact absurd l2 (by simp)
      subst hk
      have hv : v1 = v2 := by
        have := h k1
        rw [omFind_cons st, omFind_cons st] at this
        simpa using this
      subst hv
      congr 1
      apply ih m2 hs1.2 hs2.2
      intro k
      have := h k
      rw [omFind_cons st, omFind_cons st] at this
      by_cases hk : k = k1
      · subst hk
        rw [omFind_none_of_lt st _ _ hs1.1, omFind_none_of_lt st _ _ hs2.1]
      · simpa [hk] using this

/-! ## Core: `Checkout` on a staging area that is not clean -/

/-- C3: whole-repository `Checkout` (empty filename) on a state the status check
reports as not clean returns, and the live index, every working-copy file and every
ref are as before (also the index file and the object store). -/
theorem C3_Checkout_keeps_staged (env : Env) (commitID branchName : Str) (r : Repo)
    (h : env.IsClean r = false) :
    ∃ r', Checkout env commitID [] branchName r = some r' ∧
      r'.index = r.index ∧ r'.work = r.work ∧ r'.refs = r.refs ∧
      r'.indexFile = r.indexFile ∧ r'.objects = r.objects := by
  by_cases hc : env.CommitIDComplete commitID ≠ "index".toList ∧
      env.CommitIDComplete commitID ≠ [] ∧
      env.CommitIsExist (env.CommitIDComplete commitID) = false
  · exact ⟨{ r with cerr := r.cerr ++ [noCommit (env.CommitIDComplete commitID)] },
      by simp only [Checkout, if_pos hc], rfl, rfl, rfl, rfl, rfl⟩
  · refine ⟨{ r with cerr := r.cerr ++ [somethingStaged] }, ?_, rfl, rfl, rfl, rfl, rfl⟩
    simp only [Checkout, if_neg hc, h]
    simp

/-- C3 witness: a staged entry, a working file, and a status that is not clean. -/
theorem C3_Checkout_keeps_staged_witness :
    ∃ r', Checkout (sampleEnv [] false) idA [] [] (sampleRepo "/r".toList [("a".toList, idA)])
        = some r' ∧
      r'.index = [("a".toList, idA)] ∧
      r'.work = (sampleRepo "/r".toList [("a".toList, idA)]).work ∧
      r'.refs = (sampleRepo "/r".toList [("a".toList, idA)]).refs ∧
      r'.indexFile = none ∧ r'.objects = sampleObjects :=
  C3_Checkout_keeps_staged (sampleEnv [] false) idA [] (sampleRepo "/r".toList [("a".toList, idA)])
    rfl

/-! ## Core: `resetSingleFile` -/

theorem omFind_omAssign_self {K V : Type} [DecidableEq K] {lt : K → K → Bool}
    (st : StrictTotal lt) (k : K) (v : V) (m : OMap K V) :
    omFind lt k (omAssign lt k v m) = some v := by
  induction m with
  | nil => simp [omAssign, omAlter, omFind_cons st]
  | cons e m ih =>
    obtain ⟨k', v'⟩ := e
    simp only [omAssign, omAlter] at ih ⊢
    by_cases h1 : lt k k' = true
    · simp only [h1, if_true]
      rw [omFind_cons st, if_pos rfl]
    · have h1' : lt k k' = false := by simpa using h1
      by_cases h2 : lt k' k = true
      · simp only [h1', h2, Bool.false_eq_true, if_true, if_false]
        rw [omFind_cons st, if_neg (Ne.symm (lt_ne' st _ _ h2))]
        exact ih
      · have h2' : lt k' k = false := by simpa using h2
        simp only [h1', h2', Bool.false_eq_true, if_false]
        rw [omFind_cons st, if_pos (st.total _ _ h1' h2')]

theorem relative_path_of_isRelative (p : Str) (h : isRelative p) : relative_path p = p := by
  cases p with
  | nil => rfl
  | cons c cs =>
    have hc : c ≠ '/' := by
      intro hc; subst hc; simp [isRelative] at h
    simp [relative_path, hc]

theorem startsWith_self (p : Str) : startsWith p p = true := by
  induction p with
  | nil => rfl
  | cons c cs ih => simp [startsWith, List.isPrefixOf] at ih ⊢

theorem omFind_Remove (path k : Str) (idx : Index) :
    omFind pathLt k (Remove path idx).2 =
      if startsWith k (relative_path path) = true then none else omFind pathLt k idx := by
  rw [Remove_eq]
  simp only
  rw [omFind_filter_key pathLt_strictTotal (fun k => !startsWith k (relative_path path))]
  by_cases h : startsWith k (relative_path path) = true <;> simp [h]

theorem CheckoutObjects_some (c p body : Str) (r : Repo) (h : blobBody r c = some body) :
    ∃ r', CheckoutObjects c p r = some r' ∧ r'.index = r.index ∧ workFile r' p = some body ∧
      r'.objects = r.objects ∧ r'.root = r.root ∧ r'.cwd = r.cwd ∧ r'.refs = r.refs ∧
      r'.whichBranch = r.whichBranch := by
  simp only [blobBody] at h
  cases hg : GetPath r.root c with
  | none => simp [hg] at h
  | some src =>
    rw [hg] at h
    simp only at h
    refine ⟨{ r with work := fun q =>
        if q = absolute r.cwd (pathJoin r.root p) then some body else r.work q },
      by simp only [CheckoutObjects, hg, FileSystem.DecompressCopy, h],
      rfl, ?_, rfl, rfl, rfl, rfl, rfl⟩
    simp [workFile]

/-- C2 as stated fails for a rooted path: with the entry `/x` in the index and not in
the commit, the second row calls `Remove("/x")`, which matches against `x` and leaves
the entry `/x` where it is. -/
theorem C2_counterexample :
    (resetSingleFile "/x".toList EMPTY_OBJECT false true false
        (sampleRepo "/r".toList [("/x".toList, idA)])).map
      (fun r => omFind pathLt "/x".toList r.index) = some (some idA) := by
  decide

/-- C2 (amended): for a path `p` without root and a commit blob id `c`,
`resetSingleFile` implements the action table on the index: (in commit, not in index)
and (in commit, in index) leave the index mapping `p` to `c`; (not in commit, in index)
leaves no entry for `p`; (in neither) reports an error and changes neither index nor
working copy. With `isHard` the working file `REPO_ROOT / p` holds the content of blob
`c` in the first and third rows (for a blob that is in the store); without it the
working copy is unchanged in every row. -/
theorem C2_resetSingleFile_table (p c : Str) (r : Repo) (hp : isRelative p) :
    (∃ r', resetSingleFile p c true false false r = some r' ∧
        omFind pathLt p r'.index = some c ∧ r'.work = r.work) ∧
    (∀ body, blobBody r c = some body →
      ∃ r', resetSingleFile p c true false true r = some r' ∧
        omFind pathLt p r'.index = some c ∧ workFile r' p = some body) ∧
    (∀ isHard, ∃ r', resetSingleFile p c false true isHard r = some r' ∧
        omFind pathLt p r'.index = none ∧ (isHard = false → r'.work = r.work)) ∧
    (∃ r', resetSingleFile p c true true false r = some r' ∧
        omFind pathLt p r'.index = some c ∧ r'.work = r.work) ∧
    (∀ body, blobBody r c = some body →
      ∃ r', resetSingleFile p c true true true r = some r' ∧
        omFind pathLt p r'.index = some c ∧ workFile r' p = some body) ∧
    (∀ isHard, ∃ r', resetSingleFile p c false false isHard r = some r' ∧
        r'.index = r.index ∧ r'.work = r.work ∧ r'.cerr = r.cerr ++ [notTracked p]) := by
  refine ⟨?_, ?_, ?_, ?_, ?_, ?_⟩
  · exact ⟨{ r with index := Insert p c r.index }, by simp [resetSingleFile],
      omFind_omAssign_self pathLt_strictTotal _ _ _, rfl⟩
  · intro body hb
    obtain ⟨r', h1, h2, h3, _⟩ :=
      CheckoutObjects_some c p body { r with index := Insert p c r.index } hb
    refine ⟨r', by simp [resetSingleFile, h1], ?_, h3⟩
    rw [h2]
    exact omFind_omAssign_self pathLt_strictTotal _ _ _
  · intro isHard
    have hf : omFind pathLt p (Remove p r.index).2 = none := by
      rw [omFind_Remove, relative_path_of_isRelative p hp, if_pos (startsWith_self p)]
    cases isHard with
    | false =>
      exact ⟨{ r with index := (Remove p r.index).2 }, by simp [resetSingleFile], hf,
        fun _ => rfl⟩
    | true =>
      exact ⟨FileSystem.Remove p { r with index := (Remove p r.index).2 },
        by simp [resetSingleFile], by simp [FileSystem.Remove, hf],
        fun h => absurd h (by simp)⟩
  · exact ⟨{ r with index := Insert p c (Remove p r.index).2 }, by simp [resetSingleFile],
      omFind_omAssign_self pathLt_strictTotal _ _ _, rfl⟩
  · intro body hb
    obtain ⟨r', h1, h2, h3, _⟩ :=
      CheckoutObjects_some c p body
        { r with index := Insert p c (Remove p r.index).2 } hb
    refine ⟨r', by simp [resetSingleFile, h1], ?_, h3⟩
    rw [h2]
    exact omFind_omAssign_self pathLt_strictTotal _ _ _
  · intro isHard
    exact ⟨{ r with cerr := r.cerr ++ [notTracked p] }, by simp [resetSingleFile],
      rfl, rfl, rfl⟩

/-- The hard deletion of the second row names the file by `filename` alone
(`Core.cc:324`), while the first and third rows write `REPO_ROOT / filename`: run from
the repository root the file is deleted, run from a subdirectory it stays. -/
theorem resetSingleFile_hard_delete_by_cwd :
    (resetSingleFile "a.txt".toList EMPTY_OBJECT false true true
        (withFile "/r/a.txt".toList "old".toList
          (sampleRepo "/r".toList [("a.txt".toList, idA)]))).map
      (fun r => workFile r "a.txt".toList) = some none ∧
    (resetSingleFile "a.txt".toList EMPTY_OBJECT false true true
        (withFile "/r/a.txt".toList "old".toList
          (sampleRepo "/r/sub".toList [("a.txt".toList, idA)]))).map
      (fun r => workFile r "a.txt".toList) = some (some "old".toList) := by
  decide

/-- C2 witness: scenario D with `hard`: the path is in the commit and not in the index;
it is inserted and the file is written from the blob. -/
theorem C2_resetSingleFile_witness :
    isRelative "a.txt".toList ∧
    ∃ r', resetSingleFile "a.txt".toList idA true false true (sampleRepo "/r".toList []) =
        some r' ∧
      omFind pathLt "a.txt".toList r'.index = some idA ∧
      workFile r' "a.txt".toList = some "one".toList :=
  ⟨by decide,
   (C2_resetSingleFile_table "a.txt".toList idA (sampleRepo "/r".toList []) (by decide)).2.1
     "one".toList (by decide)⟩

/-! ## Core: whole-repository `Checkout` -/

theorem pathJoin_relative (a : Str) :
    ∃ s : Str, ∀ p : Str, isRelative p →
      pathJoin a p = if p = [] then a else a ++ (s ++ p) := by
  by_cases h : a = [] ∨ a.getLast? = some '/'
  · refine ⟨[], ?_⟩
    intro p hp
    by_cases hpn : p = []
    · simp [pathJoin, hpn]
    · have : p.head? ≠ some '/' := hp
      simp [pathJoin, hpn, this, h]
  · refine ⟨['/'], ?_⟩
    intro p hp
    by_cases hpn : p = []
    · simp [pathJoin, hpn]
    · have : p.head? ≠ some '/' := hp
      simp [pathJoin, hpn, this, h]

theorem pathJoin_injective (a p q : Str) (hp : isRelative p) (hq : isRelative q)
    (h : pathJoin a p = pathJoin a q) : p = q := by
  obtain ⟨s, hs⟩ := pathJoin_relative a
  rw [hs p hp, hs q hq] at h
  by_cases hpn : p = []
  · by_cases hqn : q = []
    · rw [hpn, hqn]
    · rw [if_pos hpn, if_neg hqn] at h
      have : s ++ q = [] := by
        have := congrArg List.length h
        simp only [List.length_append] at this
        apply List.eq_nil_of_length_eq_zero
        simp only [List.length_append]
        omega
      simp at this
      exact absurd this.2 hqn
  · by_cases hqn : q = []
    · rw [if_neg hpn, if_pos hqn] at h
      have : s ++ p = [] := by
        have := congrArg List.length h
        simp only [List.length_append] at this
        apply List.eq_nil_of_length_eq_zero
        simp only [List.length_append]
        omega
      simp at this
      exact absurd this.2 hpn
    · rw [if_neg hpn, if_neg hqn] at h
      exact List.append_cancel_left (List.append_cancel_left h)

theorem pathJoin_head (c : Char) (cs p : Str) : (pathJoin (c :: cs) p).head? = some c := by
  simp only [pathJoin]
  split
  · rfl
  · split
    · rfl
    · split <;> rfl

theorem fileKey_injective (r : Repo) (p q : Str) (hp : isRelative p) (hq : isRelative q)
    (h : fileKey r p = fileKey r q) : p = q := by
  simp only [fileKey, absolute] at h
  cases hr : r.root with
  | nil =>
    have e1 : ∀ x : Str, isRelative x → pathJoin [] x = x := by
      intro x hx
      have : x.head? ≠ some '/' := hx
      by_cases hxn : x = []
      · simp [pathJoin, hxn]
      · simp [pathJoin, hxn, this]
    rw [hr, e1 p hp, e1 q hq, if_pos hp, if_pos hq] at h
    exact pathJoin_injective _ _ _ hp hq h
  | cons c cs =>
    rw [hr] at h
    by_cases hc : c = '/'
    · have n1 : ¬ isRelative (pathJoin (c :: cs) p) := by
        simp [isRelative, pathJoin_head, hc]
      have n2 : ¬ isRelative (pathJoin (c :: cs) q) := by
        simp [isRelative, pathJoin_head, hc]
      rw [if_neg n1, if_neg n2] at h
      exact pathJoin_injective _ _ _ hp hq h
    · have n1 : isRelative (pathJoin (c :: cs) p) := by
        simp [isRelative, pathJoin_head, hc]
      have n2 : isRelative (pathJoin (c :: cs) q) := by
        simp [isRelative, pathJoin_head, hc]
      rw [if_pos n1, if_pos n2] at h
      exact pathJoin_injective _ _ _ hp hq (pathJoin_injective _ _ _ n1 n2 h)

theorem removeLoop_spec (l : Index) : ∀ r : Repo,
    let r1 := l.foldl (fun s item => FileSystem.Remove (pathJoin s.root item.1) s) r
    r1.index = r.index ∧ r1.indexFile = r.indexFile ∧ r1.objects = r.objects ∧
    r1.refs = r.refs ∧ r1.whichBranch = r.whichBranch ∧ r1.cwd = r.cwd ∧ r1.root = r.root ∧
    r1.cerr = r.cerr ∧
    (∀ q, r.work q = none → r1.work q = none) ∧
    (∀ e ∈ l, r1.work (fileKey r e.1) = none) := by
  induction l with
  | nil => intro r; simp
  | cons e l ih =>
    intro r
    obtain ⟨h1, h2, h3, h4, h5, h6, h7, h8, h9, h10⟩ :=
      ih (FileSystem.Remove (pathJoin r.root e.1) r)
    simp only [List.foldl_cons]
    refine ⟨h1, h2, h3, h4, h5, h6, h7, h8, ?_, ?_⟩
    · intro q hq
      apply h9
      simp [FileSystem.Remove, hq]
    · intro e' he'
      rcases List.mem_cons.mp he' with rfl | hm
      · apply h9
        simp [FileSystem.Remove, fileKey]
      · exact h10 e' hm

theorem checkoutLoop_spec (l : Index) : ∀ r : Repo,
    (∀ e ∈ l, ∃ body, blobBody r e.2 = some body) →
    l.Pairwise (fun a b => fileKey r a.1 ≠ fileKey r b.1) →
    ∃ r3, foldOpt checkoutItem r l = some r3 ∧
      r3.index = l.foldl (fun m e => Insert e.1 e.2 m) r.index ∧
      r3.indexFile = r.indexFile ∧ r3.objects = r.objects ∧ r3.refs = r.refs ∧
      r3.whichBranch = r.whichBranch ∧ r3.cwd = r.cwd ∧ r3.root = r.root ∧
      r3.cerr = r.cerr ∧
      (∀ e ∈ l, workFile r3 e.1 = blobBody r e.2) ∧
      (∀ q, (∀ e ∈ l, q ≠ fileKey r e.1) → r3.work q = r.work q) := by
  induction l with
  | nil => intro r _ _; exact ⟨r, rfl, rfl, rfl, rfl, rfl, rfl, rfl, rfl, rfl, by simp, by simp⟩
  | cons e l ih =>
    intro r hb hp
    obtain ⟨body, hbody⟩ := hb e (List.mem_cons_self _ _)
    obtain ⟨hp1, hp2⟩ := List.pairwise_cons.mp hp
    have hbody' := hbody
    simp only [blobBody] at hbody
    cases hg : GetPath r.root e.2 with
    | none => simp [hg] at hbody
    | some src =>
      rw [hg] at hbody
      simp only at hbody
      let r1 : Repo :=
        { r with
          work := fun q => if q = fileKey r e.1 then some body else r.work q,
          index := Insert e.1 e.2 r.index }
      have hstep : checkoutItem r e = some r1 := by
        simp only [checkoutItem, hg, FileSystem.DecompressCopy, hbody, fileKey, r1]
      have hblob1 : ∀ id, blobBody r1 id = blobBody r id := fun _ => rfl
      have hkey1 : ∀ p, fileKey r1 p = fileKey r p := fun _ => rfl
      obtain ⟨r3, g1, g2, g3, g4, g5, g6, g7, g8, g9, g10, g11⟩ := ih r1
        (fun e' he' => by
          obtain ⟨b, hb'⟩ := hb e' (List.mem_cons_of_mem _ he')
          exact ⟨b, by rw [hblob1]; exact hb'⟩)
        (by simpa [hkey1] using hp2)
      refine ⟨r3, by simp only [foldOpt, hstep, g1], by rw [g2]; rfl, g3, g4, g5, g6, g7, g8,
        g9, ?_, ?_⟩
      · intro e' he'
        rcases List.mem_cons.mp he' with rfl | hm
        · have : r3.work (fileKey r e'.1) = r1.work (fileKey r e'.1) :=
            g11 _ (fun e'' he'' => by rw [hkey1]; exact hp1 e'' he'')
          have hk : fileKey r3 e'.1 = fileKey r e'.1 := by
            simp only [fileKey, g7, g8]
          simp only [workFile] at *
          rw [show absolute r3.cwd (pathJoin r3.root e'.1) = fileKey r e'.1 from hk, this,
            hbody']
          simp [r1]
        · rw [g10 e' hm, hblob1]
      · intro q hq
        rw [g11 q (fun e' he' => by rw [hkey1]; exact hq e' (List.mem_cons_of_mem _ he'))]
        have := hq e (List.mem_cons_self _ _)
        simp [r1, this]

theorem foldl_Insert_sorted (l acc : Index) (h : omSorted pathLt (acc ++ l)) :
    l.foldl (fun m e => Insert e.1 e.2 m) acc = acc ++ l := by
  induction l generalizing acc with
  | nil => simp
  | cons e l ih =>
    have hs : ∀ a ∈ acc, pathLt a.1 e.1 = true := by
      intro a ha
      exact (List.pairwise_append.mp h).2.2 a ha e (List.mem_cons_self _ _)
    rw [List.foldl_cons, Insert, omAssign, omAlter_last pathLt_strictTotal e.1 _ acc hs]
    have h' : omSorted pathLt ((acc ++ [(e.1, e.2)]) ++ l) := by
      simpa [omSorted] using h
    rw [ih _ h']
    simp

/-- C4 as stated fails for a snapshot with a rooted path: the entries `/x` and `x` both
name the file `REPO_ROOT/x`, which ends with the content of the blob of `x`, not with
that of the blob of `/x`. -/
theorem C4_counterexample :
    let S : Index := [("/x".toList, idA), ("x".toList, idB)]
    omSorted pathLt S ∧
    blobBody (sampleRepo "/r".toList []) idA = some "one".toList ∧
    (Checkout (sampleEnv S true) idA [] [] (sampleRepo "/r".toList [])).bind
      (fun r' => workFile r' "/x".toList) = some "two".toList := by
  decide

/-- C4 (amended): whole-repository `Checkout` on a clean state with live index `I`, to
an existing commit with snapshot `S`, where the paths of `I` and `S` are plain (no
root, every name between separators non-empty and neither `.` nor `..`), none of them
lies in `.sit` or is a directory prefix of another, and the blobs of `S` are all in
the object store:
`Checkout` returns, the live index equals `S` exactly, every path of `S` holds in the
working copy the content of its blob, and every path of `I` that is not in `S` is
absent from the working copy. -/
theorem C4_Checkout_effect (env : Env) (commitID branchName : Str) (r : Repo)
    (hclean : env.IsClean r = true)
    (hc1 : env.CommitIDComplete commitID ≠ "index".toList)
    (hc2 : env.CommitIDComplete commitID ≠ [])
    (hc3 : env.CommitIsExist (env.CommitIDComplete commitID) = true)
    (hS : omSorted pathLt (env.CommitIndex (env.CommitIDComplete commitID)))
    (hfiles : plainFiles (r.index ++ env.CommitIndex (env.CommitIDComplete commitID)))
    (hblob : ∀ e ∈ env.CommitIndex (env.CommitIDComplete commitID),
      (blobBody r e.2).isSome = true) :
    ∃ r', Checkout env commitID [] branchName r = some r' ∧
      r'.index = env.CommitIndex (env.CommitIDComplete commitID) ∧
      (∀ e ∈ env.CommitIndex (env.CommitIDComplete commitID),
        workFile r' e.1 = blobBody r e.2) ∧
      (∀ e ∈ r.index,
        (∀ e' ∈ env.CommitIndex (env.CommitIDComplete commitID), e'.1 ≠ e.1) →
        workFile r' e.1 = none) := by
  have hrelS : ∀ e ∈ env.CommitIndex (env.CommitIDComplete commitID), isRelative e.1 :=
    fun e he => cleanPath_isRelative _
      (plainPath_clean _ (hfiles.1 e (List.mem_append_right _ he)).1)
  have hrelI : ∀ e ∈ r.index, isRelative e.1 :=
    fun e he => cleanPath_isRelative _
      (plainPath_clean _ (hfiles.1 e (List.mem_append_left _ he)).1)
  generalize hSdef : env.CommitIndex (env.CommitIDComplete commitID) = S at *
  obtain ⟨a1, a2, a3, a4, a5, a6, a7, a8, a9, a10⟩ := removeLoop_spec r.index r
  generalize hr1 :
    r.index.foldl (fun s item => FileSystem.Remove (pathJoin s.root item.1) s) r = r1 at *
  let r2 : Repo := { r1 with index := [] }
  have hblob2 : ∀ id, blobBody r2 id = blobBody r id := by
    intro id; simp only [blobBody, r2, a3, a7]
  have hkey2 : ∀ p, fileKey r2 p = fileKey r p := by
    intro p; simp only [fileKey, r2, a6, a7]
  have hpw : S.Pairwise (fun a b => fileKey r2 a.1 ≠ fileKey r2 b.1) := by
    refine List.Pairwise.imp_of_mem ?_ hS
    intro a b ha hb hlt hk
    rw [hkey2, hkey2] at hk
    have := fileKey_injective r _ _ (hrelS a ha) (hrelS b hb) hk
    exact lt_ne' pathLt_strictTotal _ _ hlt this
  obtain ⟨r3, g1, g2, g3, g4, g5, g6, g7, g8, g9, g10, g11⟩ := checkoutLoop_spec S r2
    (fun e he => by
      obtain ⟨b, hb⟩ := Option.isSome_iff_exists.mp (hblob e he)
      exact ⟨b, by rw [hblob2]; exact hb⟩) hpw
  have hidx : r3.index = S := by
    rw [g2]
    have := foldl_Insert_sorted S [] (by simpa using hS)
    simpa [r2] using this
  have hcond : ¬ (env.CommitIDComplete commitID ≠ "index".toList ∧
      env.CommitIDComplete commitID ≠ [] ∧
      env.CommitIsExist (env.CommitIDComplete commitID) = false) := by
    simp [hc3]
  let r4 : Repo := { r3 with indexFile := some (Save r3.index) }
  let r5 : Repo := if branchName ≠ [] then Refs.NewBranch branchName
    (env.CommitIDComplete commitID) r4 else r4
  have h5 : r5.index = r3.index ∧ r5.work = r3.work ∧ r5.cwd = r3.cwd ∧ r5.root = r3.root := by
    simp only [r5]
    split <;> exact ⟨rfl, rfl, rfl, rfl⟩
  refine ⟨Refs.Set "HEAD".toList (env.CommitIDComplete commitID) r5, ?_, ?_, ?_, ?_⟩
  · simp only [Checkout, if_neg hcond, if_neg hc1, hSdef, hr1, if_neg hc2, hclean]
    simp only [ne_eq, not_true_eq_false, if_false, if_true, Bool.true_eq_false, g1, hc2,
      not_false_eq_true, r5, r4]
  · simp only [Refs.Set, h5.1, hidx]
  · intro e he
    have := g10 e he
    rw [hblob2] at this
    simp only [workFile, Refs.Set, h5.2.1, h5.2.2.1, h5.2.2.2] at this ⊢
    exact this
  · intro e he hne
    have hk : ∀ e' ∈ S, fileKey r e.1 ≠ fileKey r2 e'.1 := by
      intro e' he' hk
      rw [hkey2] at hk
      exact hne e' he' (fileKey_injective r _ _ (hrelI e he) (hrelS e' he') hk).symm
    have h1 : r3.work (fileKey r e.1) = r2.work (fileKey r e.1) := g11 _ hk
    have h2 : r2.work (fileKey r e.1) = none := a10 e he
    have hk3 : absolute r3.cwd (pathJoin r3.root e.1) = fileKey r e.1 := by
      simp only [fileKey, g7, g8, r2, a6, a7]
    simp only [workFile, Refs.Set, h5.2.1, h5.2.2.1, h5.2.2.2, hk3, h1]
    exact h2

/-- C4 witness: from an index with `old.txt` to a snapshot with `a.txt` and `d/b.txt`. -/
theorem C4_Checkout_effect_witness :
    ∃ r', Checkout (sampleEnv [("a.txt".toList, idA), ("d/b.txt".toList, idB)] true) idA [] []
        (sampleRepo "/r".toList [("old.txt".toList, idB)]) = some r' ∧
      r'.index = [("a.txt".toList, idA), ("d/b.txt".toList, idB)] ∧
      (∀ e ∈ [("a.txt".toList, idA), ("d/b.txt".toList, idB)],
        workFile r' e.1 = blobBody (sampleRepo "/r".toList [("old.txt".toList, idB)]) e.2) ∧
      (∀ e ∈ [("old.txt".toList, idB)],
        (∀ e' ∈ [("a.txt".toList, idA), ("d/b.txt".toList, idB)], e'.1 ≠ e.1) →
        workFile r' e.1 = none) :=
  C4_Checkout_effect (sampleEnv [("a.txt".toList, idA), ("d/b.txt".toList, idB)] true) idA []
    (sampleRepo "/r".toList [("old.txt".toList, idB)]) rfl (by decide) (by decide) rfl
    (by decide) (by decide) (by decide)

/-! ## Core: whole-repository `Reset` -/

theorem not_strLt_of_startsWith (k' k : Str) (h : startsWith k' k = true) :
    strLt k' k = false := by
  induction k generalizing k' with
  | nil => cases k' <;> rfl
  | cons c cs ih =>
    cases k' with
    | nil => simp [startsWith, List.isPrefixOf] at h
    | cons d ds =>
      simp only [startsWith, List.isPrefixOf, Bool.and_eq_true, beq_iff_eq] at h
      obtain ⟨hcd, hrest⟩ := h
      subst hcd
      simp only [strLt, lexLt, charLt_strictTotal.irrefl, Bool.false_eq_true, if_false]
      exact ih ds hrest

theorem allSet_inserts (l : Index) : ∀ acc : OMap Str Int, omSorted strLt acc →
    (∀ k, omFind strLt k acc = none ∨ omFind strLt k acc = some 1) →
    omSorted strLt (l.foldl (fun m e => omInsert strLt e.1 1 m) acc) ∧
    ∀ k, omFind strLt k (l.foldl (fun m e => omInsert strLt e.1 1 m) acc) =
      if hasKey k l ∨ omFind strLt k acc = some 1 then some 1 else none := by
  induction l with
  | nil =>
    intro acc hs hv
    refine ⟨hs, ?_⟩
    intro k
    rcases hv k with h | h <;> simp [hasKey, h]
  | cons e l ih =>
    intro acc hs hv
    have hs1 := (omSorted_omAlter strLt_strictTotal e.1 (fun old => old.getD (1 : Int)) acc hs).1
    have hf1 : ∀ k, omFind strLt k (omInsert strLt e.1 1 acc) =
        if k = e.1 then some 1 else omFind strLt k acc := by
      intro k
      rw [omInsert, omFind_omAlter strLt_strictTotal _ _ _ hs]
      rcases hv e.1 with h | h <;> simp [h]
    have hv1 : ∀ k, omFind strLt k (omInsert strLt e.1 1 acc) = none ∨
        omFind strLt k (omInsert strLt e.1 1 acc) = some 1 := by
      intro k
      rw [hf1]
      by_cases hk : k = e.1
      · simp [hk]
      · simpa [hk] using hv k
    obtain ⟨g1, g2⟩ := ih (omInsert strLt e.1 1 acc) hs1 hv1
    refine ⟨g1, ?_⟩
    intro k
    rw [List.foldl_cons, g2, hf1]
    by_cases hk : k = e.1
    · subst hk
      have : hasKey e.1 (e :: l) := ⟨e, List.mem_cons_self _ _, rfl⟩
      simp [this]
    · have : hasKey k (e :: l) ↔ hasKey k l := by
        simp only [hasKey, List.mem_cons]
        constructor
        · rintro ⟨e', rfl | he', rfl⟩
          · exact absurd rfl hk
          · exact ⟨e', he', rfl⟩
        · rintro ⟨e', he', rfl⟩
          exact ⟨e', Or.inr he', rfl⟩
      simp [hk, this]

theorem allSet_decrements (l : Index) : ∀ acc : OMap Str Int, omSorted strLt acc →
    l.Pairwise (fun a b => a.1 ≠ b.1) →
    omSorted strLt (l.foldl (fun m e => omDecr e.1 m) acc) ∧
    ∀ k, omFind strLt k (l.foldl (fun m e => omDecr e.1 m) acc) =
      if hasKey k l then some ((omFind strLt k acc).getD 0 - 1) else omFind strLt k acc := by
  induction l with
  | nil =>
    intro acc hs _
    exact ⟨hs, fun k => by simp [hasKey]⟩
  | cons e l ih =>
    intro acc hs hp
    obtain ⟨hp1, hp2⟩ := List.pairwise_cons.mp hp
    have hs1 := (omSorted_omAlter strLt_strictTotal e.1
      (fun old : Option Int => old.getD 0 - 1) acc hs).1
    have hf1 : ∀ k, omFind strLt k (omDecr e.1 acc) =
        if k = e.1 then some ((omFind strLt e.1 acc).getD 0 - 1) else omFind strLt k acc := by
      intro k
      rw [omDecr, omFind_omAlter strLt_strictTotal _ _ _ hs]
    obtain ⟨g1, g2⟩ := ih (omDecr e.1 acc) hs1 hp2
    refine ⟨g1, ?_⟩
    intro k
    rw [List.foldl_cons, g2, hf1]
    by_cases hk : k = e.1
    · subst hk
      have h1 : hasKey e.1 (e :: l) := ⟨e, List.mem_cons_self _ _, rfl⟩
      have h2 : ¬ hasKey e.1 l := by
        rintro ⟨e', he', hk'⟩
        exact hp1 e' he' hk'.symm
      simp [h1, h2]
    · have : hasKey k (e :: l) ↔ hasKey k l := by
        simp only [hasKey, List.mem_cons]
        constructor
        · rintro ⟨e', rfl | he', rfl⟩
          · exact absurd rfl hk
          · exact ⟨e', he', rfl⟩
        · rintro ⟨e', he', rfl⟩
          exact ⟨e', Or.inr he', rfl⟩
      simp [hk, this]

theorem allSetOf_spec (S I : Index) (hI : omSorted pathLt I) :
    omSorted strLt (allSetOf S I) ∧
    ∀ k, omFind strLt k (allSetOf S I) =
      if hasKey k I then some (if hasKey k S then 0 else -1)
      else if hasKey k S then some 1 else none := by
  obtain ⟨a1, a2⟩ := allSet_inserts S [] List.Pairwise.nil (fun k => Or.inl rfl)
  have hp : I.Pairwise (fun a b => a.1 ≠ b.1) :=
    List.Pairwise.imp (fun {a b} h => lt_ne' pathLt_strictTotal _ _ h) hI
  obtain ⟨b1, b2⟩ := allSet_decrements I _ a1 hp
  refine ⟨b1, ?_⟩
  intro k
  rw [allSetOf, b2, a2]
  by_cases h1 : hasKey k I <;> by_cases h2 : hasKey k S <;> simp [h1, h2, omFind]

theorem hasKey_iff_find (k : Str) (m : Index) : hasKey k m ↔ omFind pathLt k m ≠ none := by
  rw [Ne, omFind_eq_none_iff pathLt_strictTotal]
  simp [hasKey]

theorem GetID_of_hasKey (k : Str) (S : Index) (h : hasKey k S) :
    omFind pathLt k S = some (GetID S k) := by
  have := (hasKey_iff_find k S).mp h
  cases hf : omFind pathLt k S with
  | none => exact absurd hf this
  | some v => simp [GetID, hf]

theorem omFind_Insert (k v : Str) (J : Index) (hJ : omSorted pathLt J) (k' : Str) :
    omFind pathLt k' (Insert k v J) = if k' = k then some v else omFind pathLt k' J := by
  rw [Insert, omAssign, omFind_omAlter pathLt_strictTotal _ _ _ hJ]

theorem omSorted_Insert (k v : Str) (J : Index) (hJ : omSorted pathLt J) :
    omSorted pathLt (Insert k v J) :=
  (omSorted_omAlter pathLt_strictTotal k _ J hJ).1

theorem omSorted_Remove (k : Str) (J : Index) (hJ : omSorted pathLt J) :
    omSorted pathLt (Remove k J).2 := by
  rw [Remove_eq]
  exact omSorted_filter _ _ hJ

theorem allSet_classes (S I : Index) (hI : omSorted pathLt I) :
    (∀ a ∈ allSetOf S I,
      (a.2 = 1 ∧ hasKey a.1 S ∧ ¬ hasKey a.1 I) ∨ (a.2 = 0 ∧ hasKey a.1 S ∧ hasKey a.1 I) ∨
      (a.2 = -1 ∧ ¬ hasKey a.1 S ∧ hasKey a.1 I)) ∧
    (∀ k, hasKey k S ∨ hasKey k I → ∃ a ∈ allSetOf S I, a.1 = k) := by
  obtain ⟨hs, hf⟩ := allSetOf_spec S I hI
  refine ⟨?_, ?_⟩
  · intro a ha
    have h1 := omFind_of_mem strLt_strictTotal a.1 a.2 _ hs ha
    rw [hf] at h1
    by_cases hi : hasKey a.1 I <;> by_cases hc : hasKey a.1 S <;>
      simp [hi, hc] at h1 <;> simp [hi, hc, ← h1]
  · intro k hk
    have h1 := hf k
    by_cases hi : hasKey k I
    · rw [if_pos hi] at h1
      exact ⟨_, omFind_mem strLt_strictTotal _ _ _ h1, rfl⟩
    · have hc : hasKey k S := hk.resolve_right hi
      rw [if_neg hi, if_pos hc] at h1
      exact ⟨_, omFind_mem strLt_strictTotal _ _ _ h1, rfl⟩

theorem resetLoop_index (S I : Index) (hrel : ∀ e ∈ I, isRelative e.1)
    (A : OMap Str Int) (hA : omSorted strLt A)
    (hcls : ∀ a ∈ A,
      (a.2 = 1 ∧ hasKey a.1 S ∧ ¬ hasKey a.1 I) ∨ (a.2 = 0 ∧ hasKey a.1 S ∧ hasKey a.1 I) ∨
      (a.2 = -1 ∧ ¬ hasKey a.1 S ∧ hasKey a.1 I))
    (hcov : ∀ k, hasKey k S → ∃ a ∈ A, a.1 = k) :
    ∀ (l pre : OMap Str Int) (J : Index), pre ++ l = A → omSorted pathLt J →
      (∀ a ∈ pre, omFind pathLt a.1 J = omFind pathLt a.1 S) →
      (∀ k, (∀ a ∈ A, a.1 ≠ k) → omFind pathLt k J = none) →
      omSorted pathLt (l.foldl (resetIndexStep S) J) ∧
      ∀ k, omFind pathLt k (l.foldl (resetIndexStep S) J) = omFind pathLt k S := by
  intro l
  induction l with
  | nil =>
    intro pre J hpre hJ hdone hout
    refine ⟨hJ, ?_⟩
    intro k
    simp only [List.append_nil] at hpre
    subst hpre
    simp only [List.foldl_nil]
    by_cases hk : ∃ a ∈ pre, a.1 = k
    · obtain ⟨a, ha, rfl⟩ := hk
      exact hdone a ha
    · have hk' : ∀ a ∈ pre, a.1 ≠ k := fun a ha h => hk ⟨a, ha, h⟩
      rw [hout k hk']
      symm
      rw [omFind_eq_none_iff pathLt_strictTotal]
      intro e he hek
      obtain ⟨a, ha, hak⟩ := hcov k ⟨e, he, hek⟩
      exact hk' a ha hak
  | cons a l ih =>
    intro pre J hpre hJ hdone hout
    have haA : a ∈ A := by rw [← hpre]; simp
    have hsplit : omSorted strLt (pre ++ a :: l) := by rw [hpre]; exact hA
    have hbefore : ∀ b ∈ pre, strLt b.1 a.1 = true := by
      intro b hb
      exact (List.pairwise_append.mp hsplit).2.2 b hb a (List.mem_cons_self _ _)
    -- the effect of removing by the name of `a` on the rest of the map
    have hrm : isRelative a.1 → ∀ k, omFind pathLt k (Remove a.1 J).2 =
        if startsWith k a.1 = true then none else omFind pathLt k J := by
      intro hr k
      rw [omFind_Remove, relative_path_of_isRelative _ hr]
    have hkeep : ∀ b ∈ pre, startsWith b.1 a.1 = false := by
      intro b hb
      cases hsw : startsWith b.1 a.1
      · rfl
      · have := not_strLt_of_startsWith _ _ hsw
        rw [hbefore b hb] at this
        exact absurd this (by simp)
    have hne : ∀ b ∈ pre, b.1 ≠ a.1 := fun b hb => lt_ne' strLt_strictTotal _ _ (hbefore b hb)
    have hstep : omSorted pathLt (resetIndexStep S J a) ∧
        omFind pathLt a.1 (resetIndexStep S J a) = omFind pathLt a.1 S ∧
        (∀ b ∈ pre, omFind pathLt b.1 (resetIndexStep S J a) = omFind pathLt b.1 J) ∧
        (∀ k, omFind pathLt k J = none → k ≠ a.1 →
          omFind pathLt k (resetIndexStep S J a) = none) := by
      rcases hcls a haA with ⟨hn, hc, _⟩ | ⟨hn, hc, hi⟩ | ⟨hn, hc, hi⟩
      · have hstepdef : resetIndexStep S J a = Insert a.1 (GetID S a.1) J := by
          simp [resetIndexStep, hn]
        rw [hstepdef]
        refine ⟨omSorted_Insert _ _ _ hJ, ?_, ?_, ?_⟩
        · rw [omFind_Insert _ _ _ hJ, if_pos rfl, GetID_of_hasKey _ _ hc]
        · intro b hb
          rw [omFind_Insert _ _ _ hJ, if_neg (hne b hb)]
        · intro k hk hka
          rw [omFind_Insert _ _ _ hJ, if_neg hka, hk]
      · obtain ⟨e, he, hea⟩ := hi
        have hr : isRelative a.1 := by rw [← hea]; exact hrel e he
        have hstepdef : resetIndexStep S J a =
            Insert a.1 (GetID S a.1) (Remove a.1 J).2 := by
          simp [resetIndexStep, hn]
        rw [hstepdef]
        have hJ' := omSorted_Remove a.1 J hJ
        refine ⟨omSorted_Insert _ _ _ hJ', ?_, ?_, ?_⟩
        · rw [omFind_Insert _ _ _ hJ', if_pos rfl, GetID_of_hasKey _ _ hc]
        · intro b hb
          rw [omFind_Insert _ _ _ hJ', if_neg (hne b hb), hrm hr, hkeep b hb]
          simp
        · intro k hk hka
          rw [omFind_Insert _ _ _ hJ', if_neg hka, hrm hr, hk]
          simp
      · obtain ⟨e, he, hea⟩ := hi
        have hr : isRelative a.1 := by rw [← hea]; exact hrel e he
        have hstepdef : resetIndexStep S J a = (Remove a.1 J).2 := by
          simp [resetIndexStep, hn]
        rw [hstepdef]
        refine ⟨omSorted_Remove _ _ hJ, ?_, ?_, ?_⟩
        · rw [hrm hr, if_pos (startsWith_self _)]
          symm
          rw [omFind_eq_none_iff pathLt_strictTotal]
          intro e' he' hk
          exact hc ⟨e', he', hk⟩
        · intro b hb
          rw [hrm hr, hkeep b hb]
          simp
        · intro k hk _
          rw [hrm hr, hk]
          simp
    obtain ⟨s1, s2, s3, s4⟩ := hstep
    rw [List.foldl_cons]
    apply ih (pre ++ [a]) (resetIndexStep S J a) (by simpa using hpre) s1
    · intro b hb
      rcases List.mem_append.mp hb with hb | hb
      · rw [s3 b hb]; exact hdone b hb
      · simp only [List.mem_singleton] at hb
        subst hb
        exact s2
    · intro k hk
      exact s4 k (hout k hk) (Ne.symm (hk a haA))

theorem CheckoutObjects_fields (c p : Str) (r r' : Repo) (h : CheckoutObjects c p r = some r') :
    r'.index = r.index ∧ r'.objects = r.objects ∧ r'.root = r.root ∧
      r'.whichBranch = r.whichBranch := by
  simp only [CheckoutObjects] at h
  cases hg : GetPath r.root c with
  | none => simp [hg] at h
  | some src =>
    rw [hg] at h
    simp only [FileSystem.DecompressCopy] at h
    cases ho : r.objects src with
    | none => simp [ho] at h
    | some body =>
      rw [ho] at h
      simp only [Option.some.injEq] at h
      subst h
      exact ⟨rfl, rfl, rfl, rfl⟩

theorem resetSingleFile_index (p c : Str) (inCommit inIndex isHard : Bool) (r r' : Repo)
    (h : resetSingleFile p c inCommit inIndex isHard r = some r') :
    r'.index =
      (if inCommit = true ∧ inIndex = false then Insert p c r.index
       else if inCommit = false ∧ inIndex = true then (Remove p r.index).2
       else if inCommit = true ∧ inIndex = true then Insert p c (Remove p r.index).2
       else r.index) ∧
    r'.objects = r.objects ∧ r'.root = r.root ∧ r'.whichBranch = r.whichBranch := by
  cases inCommit <;> cases inIndex <;> cases isHard <;>
    simp only [resetSingleFile, Bool.and_self, Bool.not_true, Bool.not_false, Bool.and_true,
      Bool.and_false, Bool.false_eq_true, if_false, if_true, Option.some.injEq] at h
  all_goals first
    | (subst h; simp [FileSystem.Remove])
    | (obtain ⟨h1, h2, h3, h4⟩ := CheckoutObjects_fields _ _ _ _ h
       simp [h1, h2, h3, h4])

theorem resetEntry_index (S : Index) (isHard : Bool) (r r' : Repo) (a : Str × Int)
    (h : resetEntry S isHard r a = some r') :
    r'.index = resetIndexStep S r.index a ∧ r'.objects = r.objects ∧ r'.root = r.root ∧
      r'.whichBranch = r.whichBranch := by
  simp only [resetEntry] at h
  by_cases h1 : a.2 = 1
  · simp only [h1, show ((1 : Int) = 0) = False by decide, decide_False, decide_True,
      Bool.or_true, Bool.false_or, if_true, show ((1 : Int) = -1) = False by decide] at h
    obtain ⟨g1, g2⟩ := resetSingleFile_index _ _ _ _ _ _ _ h
    refine ⟨?_, g2⟩
    rw [g1]
    simp [resetIndexStep, h1]
  · by_cases h0 : a.2 = 0
    · simp only [h0, decide_True, Bool.true_or, if_true] at h
      obtain ⟨g1, g2⟩ := resetSingleFile_index _ _ _ _ _ _ _ h
      refine ⟨?_, g2⟩
      rw [g1]
      simp [resetIndexStep, h0]
    · by_cases hm : a.2 = -1
      · simp only [hm, show ((-1 : Int) = 0) = False by decide, decide_False, decide_True,
          show ((-1 : Int) = 1) = False by decide, Bool.or_false, Bool.false_eq_true, if_false,
          Bool.or_true] at h
        obtain ⟨g1, g2⟩ := resetSingleFile_index _ _ _ _ _ _ _ h
        refine ⟨?_, g2⟩
        rw [g1]
        simp [resetIndexStep, hm]
      · simp only [h0, h1, hm, decide_False, Bool.or_false, Bool.false_eq_true, if_false] at h
        obtain ⟨g1, g2⟩ := resetSingleFile_index _ _ _ _ _ _ _ h
        refine ⟨?_, g2⟩
        rw [g1]
        simp [resetIndexStep, h0, h1, hm]

theorem resetSingleFile_soft_some (p c : Str) (inCommit inIndex : Bool) (r : Repo) :
    ∃ r', resetSingleFile p c inCommit inIndex false r = some r' := by
  cases inCommit <;> cases inIndex <;> simp [resetSingleFile]

theorem resetSingleFile_noCommit_some (p c : Str) (inIndex isHard : Bool) (r : Repo) :
    ∃ r', resetSingleFile p c false inIndex isHard r = some r' := by
  cases inIndex <;> cases isHard <;> simp [resetSingleFile]

theorem resetEntry_some (S : Index) (isHard : Bool) (r : Repo) (a : Str × Int)
    (h : isHard = true → a.2 = 0 ∨ a.2 = 1 → (blobBody r (GetID S a.1)).isSome = true) :
    ∃ r', resetEntry S isHard r a = some r' := by
  cases isHard with
  | false =>
    simp only [resetEntry]
    split <;> exact resetSingleFile_soft_some _ _ _ _ _
  | true =>
    by_cases hc : a.2 = 0 ∨ a.2 = 1
    · obtain ⟨body, hb⟩ := Option.isSome_iff_exists.mp (h rfl hc)
      have hco : ∀ idx : Index, ∃ r', CheckoutObjects (GetID S a.1) a.1
          { r with index := idx } = some r' := by
        intro idx
        obtain ⟨r', h1, _⟩ := CheckoutObjects_some (GetID S a.1) a.1 body
          { r with index := idx } hb
        exact ⟨r', h1⟩
      rcases hc with h0 | h1
      · obtain ⟨r', hr'⟩ := hco (Insert a.1 (GetID S a.1) (Remove a.1 r.index).2)
        exact ⟨r', by simp [resetEntry, resetSingleFile, h0, hr']⟩
      · obtain ⟨r', hr'⟩ := hco (Insert a.1 (GetID S a.1) r.index)
        refine ⟨r', ?_⟩
        simp only [resetEntry, resetSingleFile, h1]
        simpa using hr'
    · have h0 : a.2 ≠ 0 := fun h0 => hc (Or.inl h0)
      have h1 : a.2 ≠ 1 := fun h1 => hc (Or.inr h1)
      simp only [resetEntry, h0, h1, decide_False, Bool.or_false,
        Bool.false_or, Bool.false_eq_true, if_false]
      exact resetSingleFile_noCommit_some _ _ _ _ _

theorem resetFold_index (S : Index) (isHard : Bool) (l : OMap Str Int) :
    ∀ r r' : Repo, foldOpt (resetEntry S isHard) r l = some r' →
      r'.index = l.foldl (resetIndexStep S) r.index ∧ r'.whichBranch = r.whichBranch := by
  induction l with
  | nil =>
    intro r r' h
    simp only [foldOpt, Option.some.injEq] at h
    subst h
    exact ⟨rfl, rfl⟩
  | cons a l ih =>
    intro r r' h
    simp only [foldOpt] at h
    cases hs : resetEntry S isHard r a with
    | none => simp [hs] at h
    | some r1 =>
      rw [hs] at h
      obtain ⟨g1, _, _, g4⟩ := resetEntry_index S isHard r r1 a hs
      obtain ⟨i1, i2⟩ := ih r1 r' h
      exact ⟨by rw [i1, g1]; rfl, by rw [i2, g4]⟩

theorem resetFold_some (S : Index) (isHard : Bool) (l : OMap Str Int) :
    ∀ r : Repo,
      (isHard = true → ∀ a ∈ l, a.2 = 0 ∨ a.2 = 1 →
        (blobBody r (GetID S a.1)).isSome = true) →
      ∃ r', foldOpt (resetEntry S isHard) r l = some r' := by
  induction l with
  | nil => intro r _; exact ⟨r, rfl⟩
  | cons a l ih =>
    intro r h
    obtain ⟨r1, hr1⟩ := resetEntry_some S isHard r a
      (fun hh hc => h hh a (List.mem_cons_self _ _) hc)
    obtain ⟨_, g2, g3, _⟩ := resetEntry_index S isHard r r1 a hr1
    have hb : ∀ id, blobBody r1 id = blobBody r id := by
      intro id; simp only [blobBody, g2, g3]
    obtain ⟨r', hr'⟩ := ih r1 (fun hh b hb' hc => by
      rw [hb]; exact h hh b (List.mem_cons_of_mem _ hb') hc)
    exact ⟨r', by simp only [foldOpt, hr1, hr']⟩

theorem resetLoop_final (S I : Index) (hS : omSorted pathLt S) (hI : omSorted pathLt I)
    (hrel : ∀ e ∈ I, isRelative e.1) :
    (allSetOf S I).foldl (resetIndexStep S) I = S := by
  obtain ⟨hA, _⟩ := allSetOf_spec S I hI
  obtain ⟨hcls, hcov⟩ := allSet_classes S I hI
  obtain ⟨h1, h2⟩ := resetLoop_index S I hrel (allSetOf S I) hA hcls
    (fun k hk => hcov k (Or.inl hk)) (allSetOf S I) [] I rfl hI (by simp)
    (by
      intro k hk
      rw [omFind_eq_none_iff pathLt_strictTotal]
      intro e he hek
      obtain ⟨a, ha, hak⟩ := hcov k (Or.inr ⟨e, he, hek⟩)
      exact hk a ha hak)
  exact omSorted_ext pathLt_strictTotal _ _ h1 hS h2

/-- C1 as stated fails for a live index with a rooted path: with the entry `/x` in the
index and an empty snapshot, the round for `/x` calls `Remove("/x")`, which matches
against `x`; the entry stays, and the index after `Reset` is not the snapshot. -/
theorem C1_counterexample :
    (Reset (sampleEnv [] true) idA false (sampleRepo "/r".toList [("/x".toList, idA)])).map
      (fun r => r.index) = some [("/x".toList, idA)] ∧
    (Reset (sampleEnv [] true) idA true (sampleRepo "/r".toList [("/x".toList, idA)])).map
      (fun r => r.index) = some [("/x".toList, idA)] := by
  decide

/-- C1 (amended): whole-repository `Reset(id, isHard)` on a live index and to a commit
with snapshot `S` whose paths are all clean (no root, no empty name between
separators): whenever `Reset` returns, the live index equals `S` exactly, for `isHard`
false and true, although each round removes by raw string prefix. `Reset` returns when
`isHard` is false. -/
theorem C1_Reset_index_is_snapshot (env : Env) (id : Str) (isHard : Bool) (r : Repo)
    (hS : omSorted pathLt (env.CommitIndex (resetTarget env id r)))
    (hI : omSorted pathLt r.index)
    (hpaths : ∀ e ∈ r.index ++ env.CommitIndex (resetTarget env id r), cleanPath e.1) :
    (∀ r', Reset env id isHard r = some r' →
      r'.index = env.CommitIndex (resetTarget env id r)) ∧
    (isHard = false → ∃ r', Reset env id isHard r = some r') := by
  have hrel : ∀ e ∈ r.index, isRelative e.1 :=
    fun e he => cleanPath_isRelative _ (hpaths e (List.mem_append_left _ he))
  have hfinal := resetLoop_final _ _ hS hI hrel
  have hunf : ∀ r', Reset env id isHard r = some r' →
      ∃ r1, foldOpt (resetEntry (env.CommitIndex (resetTarget env id r)) isHard) r
          (allSetOf (env.CommitIndex (resetTarget env id r)) r.index) = some r1 ∧
        r'.index = r1.index := by
    intro r' h
    simp only [Reset] at h
    change (match foldOpt (resetEntry (env.CommitIndex (resetTarget env id r)) isHard) r
        (allSetOf (env.CommitIndex (resetTarget env id r)) r.index) with
      | none => none
      | some r1 => _) = some r' at h
    cases hf : foldOpt (resetEntry (env.CommitIndex (resetTarget env id r)) isHard) r
        (allSetOf (env.CommitIndex (resetTarget env id r)) r.index) with
    | none => rw [hf] at h; simp at h
    | some r1 =>
      rw [hf] at h
      refine ⟨r1, rfl, ?_⟩
      simp only at h
      split at h <;> (simp only [Option.some.injEq] at h; subst h; rfl)
  refine ⟨?_, ?_⟩
  · intro r' h
    obtain ⟨r1, h1, h2⟩ := hunf r' h
    rw [h2, (resetFold_index _ _ _ _ _ h1).1, hfinal]
  · intro hsoft
    obtain ⟨r1, h1⟩ := resetFold_some (env.CommitIndex (resetTarget env id r)) isHard
      (allSetOf (env.CommitIndex (resetTarget env id r)) r.index) r
      (by
        intro hh
        rw [hsoft] at hh
        exact absurd hh (by simp))
    simp only [Reset]
    change ∃ r', (match foldOpt (resetEntry (env.CommitIndex (resetTarget env id r)) isHard) r
        (allSetOf (env.CommitIndex (resetTarget env id r)) r.index) with
      | none => none
      | some r1 => _) = some r'
    rw [h1]
    simp only
    split <;> exact ⟨_, rfl⟩

/-- C1 witness: the index holds `foo` and `foobar.txt`, the snapshot `foobar.txt` and
`g`; the round for `foo` removes both index entries by prefix, the later rounds put the
snapshot in place. The soft reset returns with the snapshot as index, and so does the
hard reset on this state. -/
theorem C1_Reset_witness :
    (∃ r', Reset (sampleEnv [("foobar.txt".toList, idA), ("g".toList, idB)] true) idA false
        (sampleRepo "/r".toList [("foo".toList, idA), ("foobar.txt".toList, idB)]) = some r' ∧
      r'.index = [("foobar.txt".toList, idA), ("g".toList, idB)]) ∧
    (Reset (sampleEnv [("foobar.txt".toList, idA), ("g".toList, idB)] true) idA true
        (sampleRepo "/r".toList [("foo".toList, idA), ("foobar.txt".toList, idB)])).map
      (fun r => r.index) = some [("foobar.txt".toList, idA), ("g".toList, idB)] :=
  ⟨match (C1_Reset_index_is_snapshot
      (sampleEnv [("foobar.txt".toList, idA), ("g".toList, idB)] true) idA false
      (sampleRepo "/r".toList [("foo".toList, idA), ("foobar.txt".toList, idB)])
      (by decide) (by decide) (by decide)).2 rfl with
    | ⟨r', hr'⟩ =>
      ⟨r', hr', (C1_Reset_index_is_snapshot
        (sampleEnv [("foobar.txt".toList, idA), ("g".toList, idB)] true) idA false
        (sampleRepo "/r".toList [("foo".toList, idA), ("foobar.txt".toList, idB)])
        (by decide) (by decide) (by decide)).1 r' hr'⟩,
   by decide⟩

/-! ## `WriteIndex`: what is written and what is read back -/

theorem GetPath_objPath (h : Hash) (root body : Str) :
    GetPath root (h.sum body) = some (objPath h root body) := by
  obtain ⟨p, hp⟩ := GetPath_isSome root (h.sum body) (by rw [h.len40]; decide)
  simp [objPath, hp]

theorem WriteTree_eq (h : Hash) (root : Str) (tree : Tree) (st : Store) :
    WriteTree h root tree st =
      some (h.sum (treeBody tree), CompressWrite (objPath h root (treeBody tree))
        (treeBody tree) st) := by
  simp only [WriteTree]
  rw [show (tree.map treeLine).flatten = treeBody tree from rfl, GetPath_objPath]

theorem GetTree_stored (h : Hash) (root : Str) (tree : Tree) (st : Store)
    (hg : ∀ item ∈ tree, GoodItem item)
    (hst : st (objPath h root (treeBody tree)) = some (treeBody tree)) :
    GetTree root st (h.sum (treeBody tree)) = some tree := by
  obtain ⟨ls, h1, h2, h3⟩ := tree_lines tree hg
  simp only [GetTree, GetPath_objPath, hst]
  rw [show treeBody tree = (ls.map (fun l => l ++ ['\n'])).flatten from h1,
    readLines_lines ls h2 _ (Nat.lt_succ_self _), h3]

theorem writeAll_append (h : Hash) (root : Str) (l1 l2 : List Str) (st : Store) :
    writeAll h root (l1 ++ l2) st = writeAll h root l2 (writeAll h root l1 st) := by
  simp [writeAll, List.foldl_append]

theorem buildTree_eq (h : Hash) (root : Str) (t : IndexTree) :
    ∀ st : Store, buildTree h root t st = some (treeOf h t, writeAll h root (bodiesOf h t) st) := by
  induction t with
  | nil => intro st; rfl
  | leaf k f b rest ih =>
    intro st
    simp only [buildTree, ih st, treeOf, bodiesOf]
  | dir k f b t rest iht ihr =>
    intro st
    simp only [buildTree, iht st, WriteTree_eq, ihr, treeOf, bodiesOf, writeAll_append]
    rfl

theorem writeIndexTree_eq (h : Hash) (root : Str) (t : IndexTree) (st : Store) :
    writeIndexTree h root t st =
      some (h.sum (treeBody (treeOf h t)), writeAll h root (allBodies h t) st) := by
  simp only [writeIndexTree, buildTree_eq, WriteTree_eq, allBodies, writeAll_append]
  rfl

theorem writeAll_keeps (h : Hash) (root : Str) (l : List Str) (b : Str) :
    ∀ st : Store, (∀ b' ∈ l, objPath h root b' = objPath h root b → b' = b) →
      st (objPath h root b) = some b → writeAll h root l st (objPath h root b) = some b := by
  induction l with
  | nil => intro st _ hst; exact hst
  | cons c l ih =>
    intro st hc hst
    simp only [writeAll, List.foldl_cons]
    apply ih
    · intro b' hb' hp
      exact hc b' (List.mem_cons_of_mem _ hb') hp
    · simp only [CompressWrite]
      by_cases hp : objPath h root b = objPath h root c
      · rw [if_pos hp, hc c (List.mem_cons_self _ _) hp.symm]
      · rw [if_neg hp]; exact hst

theorem writeAll_reads (h : Hash) (root : Str) (l : List Str) (hn : noCollision h root l) :
    ∀ st : Store, ∀ b ∈ l, writeAll h root l st (objPath h root b) = some b := by
  induction l with
  | nil => intro st b hb; simp at hb
  | cons c l ih =>
    intro st b hb
    have hn' : noCollision h root l := by
      intro b1 h1 b2 h2 hp
      exact hn b1 (List.mem_cons_of_mem _ h1) b2 (List.mem_cons_of_mem _ h2) hp
    rcases List.mem_cons.mp hb with rfl | hb'
    · simp only [writeAll, List.foldl_cons]
      apply writeAll_keeps
      · intro b' hb' hp
        exact hn b' (List.mem_cons_of_mem _ hb') b (List.mem_cons_self _ _) hp
      · simp [CompressWrite]
    · simp only [writeAll, List.foldl_cons]
      exact ih hn' _ b hb'

theorem goodForest_items (h : Hash) (t : IndexTree) (hg : goodForest t) :
    ∀ item ∈ treeOf h t, GoodItem item := by
  induction t with
  | nil => intro item hi; simp [treeOf] at hi
  | leaf k f b rest ih =>
    intro item hi
    obtain ⟨g1, g2, g3, g4⟩ := hg
    rcases List.mem_cons.mp hi with rfl | hi
    · exact ⟨by show (0o100644 : Nat) < 8 ^ 6; decide, g2, g3, g1⟩
    · exact ih g4 item hi
  | dir k f b t rest _ ihr =>
    intro item hi
    obtain ⟨g1, _, g3⟩ := hg
    rcases List.mem_cons.mp hi with rfl | hi
    · exact ⟨by show (0o40000 : Nat) < 8 ^ 6; decide, h.len40 _, h.oneLine _, g1⟩
    · exact ihr g3 item hi

/-- The step of `walkTree` on one entry. -/
theorem walk_level (h : Hash) (root : Str) (st : Store) (t : IndexTree) (hg : goodForest t)
    (hst : ∀ b ∈ bodiesOf h t, st (objPath h root b) = some b) :
    ∀ (fuel : Nat) (pre : Str), depthOf t ≤ fuel →
      bindAll (fun item =>
        if item.type = ObjectType.TREE then
          (walkTree root st fuel (pre ++ item.filename ++ ['/']) item.id).map
            (fun l => (pre ++ item.filename, item) :: l)
        else some [(pre ++ item.filename, item)]) (treeOf h t) = some (walkOf h t pre) := by
  induction t with
  | nil => intro fuel pre _; rfl
  | leaf k f b rest ih =>
    intro fuel pre hf
    obtain ⟨_, _, _, g4⟩ := hg
    simp only [treeOf, bindAll, walkOf]
    rw [ih g4 hst fuel pre hf]
    simp
  | dir k f b t rest iht ihr =>
    intro fuel pre hf
    obtain ⟨_, g2, g3⟩ := hg
    simp only [depthOf] at hf
    have hst_t : ∀ b ∈ bodiesOf h t, st (objPath h root b) = some b := by
      intro b' hb'
      exact hst b' (by simp [bodiesOf, hb'])
    have hst_r : ∀ b ∈ bodiesOf h rest, st (objPath h root b) = some b := by
      intro b' hb'
      exact hst b' (by simp [bodiesOf, hb'])
    have hst_self : st (objPath h root (treeBody (treeOf h t))) = some (treeBody (treeOf h t)) :=
      hst _ (by simp [bodiesOf])
    cases fuel with
    | zero => omega
    | succ fuel' =>
      have hread := GetTree_stored h root (treeOf h t) st (goodForest_items h t g2) hst_self
      have hsub := iht g2 hst_t fuel' (pre ++ f ++ ['/']) (by omega)
      simp only [treeOf, bindAll, walkOf]
      rw [ihr g3 hst_r (fuel' + 1) pre (by omega)]
      simp only [if_true, walkTree, hread, hsub, Option.map_some']
      simp

theorem walkTree_forest (h : Hash) (root : Str) (st : Store) (t : IndexTree) (hg : goodForest t)
    (hst : ∀ b ∈ allBodies h t, st (objPath h root b) = some b) (fuel : Nat) (pre : Str)
    (hf : depthOf t < fuel) :
    walkTree root st fuel pre (h.sum (treeBody (treeOf h t))) = some (walkOf h t pre) := by
  cases fuel with
  | zero => omega
  | succ fuel' =>
    have hread := GetTree_stored h root (treeOf h t) st (goodForest_items h t hg)
      (hst _ (by simp [allBodies]))
    simp only [walkTree, hread]
    exact walk_level h root st t hg (fun b hb => hst b (by simp [allBodies, hb])) fuel' pre
      (by omega)

/-! ## `makeIndexTree`: the forest holds the files of the index -/

theorem filesOf_ne_nil (t : IndexTree) : ∀ e ∈ filesOf t, e.1 ≠ [] := by
  induction t with
  | nil => intro e he; simp [filesOf] at he
  | leaf k f b rest ih =>
    intro e he
    rcases List.mem_cons.mp he with rfl | he
    · simp
    · exact ih e he
  | dir k f b t rest _ ihr =>
    intro e he
    rcases List.mem_append.mp he with he | he
    · obtain ⟨e', _, rfl⟩ := List.mem_map.mp he
      simp
    · exact ihr e he

theorem find_none_of_files (f : Str) (t : IndexTree) (ht : tidyForest t)
    (h : ∀ e ∈ filesOf t, e.1.head? ≠ some f) : IndexTree.find f t = none := by
  induction t with
  | nil => rfl
  | leaf k f' b rest ih =>
    obtain ⟨hk, ht'⟩ := ht
    subst hk
    have hne : f ≠ k := by
      rintro rfl
      exact h ([f], b) (List.mem_cons_self _ _) rfl
    simp only [IndexTree.find, keyEquiv_eq_decide strLt_strictTotal, hne, decide_False,
      Bool.false_eq_true, if_false]
    exact ih ht' (fun e he => h e (List.mem_cons_of_mem _ he))
  | dir k f' b t rest _ ihr =>
    obtain ⟨hk, hne', _, ht'⟩ := ht
    subst hk
    have hne : f ≠ k := by
      rintro rfl
      cases hft : filesOf t with
      | nil => exact hne' hft
      | cons e es =>
        exact h (f :: e.1, e.2) (by simp [filesOf, hft]) rfl
    simp only [IndexTree.find, keyEquiv_eq_decide strLt_strictTotal, hne, decide_False,
      Bool.false_eq_true, if_false]
    exact ihr ht' (fun e he => h e (by simp only [filesOf]; exact List.mem_append_right _ he))

theorem insert_files (entry : IndexTree → IndexTree) (E : List (List Str × Str))
    (hE : ∀ x, filesOf (entry x) = E ++ filesOf x) (k : Str) (t : IndexTree)
    (hf : IndexTree.find k t = none) :
    (filesOf (IndexTree.insert entry k t)).Perm (E ++ filesOf t) := by
  induction t with
  | nil => simp [IndexTree.insert, hE]
  | leaf k' f b rest ih =>
    simp only [IndexTree.find, keyEquiv_eq_decide strLt_strictTotal] at hf
    have hne : k ≠ k' := by
      intro hk; simp [hk] at hf
    simp only [hne, decide_False, Bool.false_eq_true, if_false] at hf
    simp only [IndexTree.insert]
    by_cases h1 : strLt k k' = true
    · simp [h1, hE]
    · have h1' : strLt k k' = false := by simpa using h1
      have h2 : strLt k' k = true := by
        cases hh : strLt k' k
        · exact absurd (strLt_strictTotal.total _ _ h1' hh) hne
        · rfl
      simp only [h1', h2, Bool.false_eq_true, if_false, if_true, filesOf]
      exact ((ih hf).cons _).trans List.perm_middle.symm
  | dir k' f b t rest _ ihr =>
    simp only [IndexTree.find, keyEquiv_eq_decide strLt_strictTotal] at hf
    have hne : k ≠ k' := by
      intro hk; simp [hk] at hf
    simp only [hne, decide_False, Bool.false_eq_true, if_false] at hf
    simp only [IndexTree.insert]
    by_cases h1 : strLt k k' = true
    · simp [h1, hE]
    · have h1' : strLt k k' = false := by simpa using h1
      have h2 : strLt k' k = true := by
        cases hh : strLt k' k
        · exact absurd (strLt_strictTotal.total _ _ h1' hh) hne
        · rfl
      simp only [h1', h2, Bool.false_eq_true, if_false, if_true, filesOf]
      have := (ihr hf).append_left ((filesOf t).map (fun e => (f :: e.1, e.2)))
      refine this.trans ?_
      rw [← List.append_assoc, ← List.append_assoc]
      exact List.Perm.append_right _ List.perm_append_comm

theorem insert_keeps (P : IndexTree → Prop) (entry : IndexTree → IndexTree)
    (hE : ∀ x, P x → P (entry x))
    (hl : ∀ k f b rest, P (.leaf k f b rest) → P rest)
    (hl' : ∀ k f b rest rest', P (.leaf k f b rest) → P rest' → P (.leaf k f b rest'))
    (hd : ∀ k f b t rest, P (.dir k f b t rest) → P rest)
    (hd' : ∀ k f b t rest rest', P (.dir k f b t rest) → P rest' → P (.dir k f b t rest'))
    (k : Str) (t : IndexTree) (ht : P t) : P (IndexTree.insert entry k t) := by
  induction t with
  | nil => exact hE _ ht
  | leaf k' f b rest ih =>
    simp only [IndexTree.insert]
    split
    · exact hE _ ht
    · split
      · exact hl' _ _ _ _ _ ht (ih (hl _ _ _ _ ht))
      · exact ht
  | dir k' f b t rest _ ihr =>
    simp only [IndexTree.insert]
    split
    · exact hE _ ht
    · split
      · exact hd' _ _ _ _ _ _ ht (ihr (hd _ _ _ _ _ ht))
      · exact ht

theorem insert_tidy (entry : IndexTree → IndexTree)
    (hE : ∀ x, tidyForest x → tidyForest (entry x)) (k : Str) (t : IndexTree)
    (ht : tidyForest t) : tidyForest (IndexTree.insert entry k t) :=
  insert_keeps tidyForest entry hE
    (fun _ _ _ _ h => h.2) (fun _ _ _ _ _ h h' => ⟨h.1, h'⟩)
    (fun _ _ _ _ _ h => h.2.2.2) (fun _ _ _ _ _ _ h h' => ⟨h.1, h.2.1, h.2.2.1, h'⟩) k t ht

theorem insert_good (entry : IndexTree → IndexTree)
    (hE : ∀ x, goodForest x → goodForest (entry x)) (k : Str) (t : IndexTree)
    (ht : goodForest t) : goodForest (IndexTree.insert entry k t) :=
  insert_keeps goodForest entry hE
    (fun _ _ _ _ h => h.2.2.2) (fun _ _ _ _ _ h h' => ⟨h.1, h.2.1, h.2.2.1, h'⟩)
    (fun _ _ _ _ _ h => h.2.2) (fun _ _ _ _ _ _ h h' => ⟨h.1, h.2.1, h'⟩) k t ht

theorem find_leaf_file (d : Str) (t : IndexTree) (ht : tidyForest t)
    (h : IndexTree.find d t = some none) : ∃ b, ([d], b) ∈ filesOf t := by
  induction t with
  | nil => simp [IndexTree.find] at h
  | leaf k f b rest ih =>
    obtain ⟨hk, ht'⟩ := ht
    subst hk
    simp only [IndexTree.find, keyEquiv_eq_decide strLt_strictTotal] at h
    by_cases hd : d = k
    · exact ⟨b, by simp [filesOf, hd]⟩
    · simp only [hd, decide_False, Bool.false_eq_true, if_false] at h
      obtain ⟨b', hb'⟩ := ih ht' h
      exact ⟨b', List.mem_cons_of_mem _ hb'⟩
  | dir k f b t rest _ ihr =>
    obtain ⟨hk, _, _, ht'⟩ := ht
    simp only [IndexTree.find, keyEquiv_eq_decide strLt_strictTotal] at h
    by_cases hd : d = k
    · simp [hd] at h
    · simp only [hd, decide_False, Bool.false_eq_true, if_false] at h
      obtain ⟨b', hb'⟩ := ihr ht' h
      exact ⟨b', by simp only [filesOf]; exact List.mem_append_right _ hb'⟩

theorem find_dir_spec (d : Str) (sub : IndexTree) (t : IndexTree) (ht : tidyForest t)
    (hg : goodForest t) (h : IndexTree.find d t = some (some sub)) :
    tidyForest sub ∧ goodForest sub ∧ '\n' ∉ d ∧
    (∀ e ∈ filesOf sub, (d :: e.1, e.2) ∈ filesOf t) ∧
    ∀ (sub' : IndexTree) (p : List Str) (b : Str), tidyForest sub' → goodForest sub' →
      (filesOf sub').Perm ((p, b) :: filesOf sub) →
      tidyForest (IndexTree.setTree d sub' t) ∧ goodForest (IndexTree.setTree d sub' t) ∧
      (filesOf (IndexTree.setTree d sub' t)).Perm ((d :: p, b) :: filesOf t) := by
  induction t with
  | nil => simp [IndexTree.find] at h
  | leaf k f b rest ih =>
    obtain ⟨hk, ht'⟩ := ht
    obtain ⟨g1, g2, g3, g4⟩ := hg
    simp only [IndexTree.find, keyEquiv_eq_decide strLt_strictTotal] at h
    by_cases hd : d = k
    · simp [hd] at h
    · simp only [hd, decide_False, Bool.false_eq_true, if_false] at h
      obtain ⟨i1, i2, i3, i4, i5⟩ := ih ht' g4 h
      refine ⟨i1, i2, i3, fun e he => List.mem_cons_of_mem _ (i4 e he), ?_⟩
      intro sub' p b' hs1 hs2 hp
      obtain ⟨j1, j2, j3⟩ := i5 sub' p b' hs1 hs2 hp
      simp only [IndexTree.setTree, keyEquiv_eq_decide strLt_strictTotal, hd, decide_False,
        Bool.false_eq_true, if_false]
      exact ⟨⟨hk, j1⟩, ⟨g1, g2, g3, j2⟩, (j3.cons _).trans (List.Perm.swap _ _ _)⟩
  | dir k f b t0 rest _ ihr =>
    obtain ⟨hk, hne, ht0, ht'⟩ := ht
    obtain ⟨g1, g2, g3⟩ := hg
    simp only [IndexTree.find, keyEquiv_eq_decide strLt_strictTotal] at h
    by_cases hd : d = k
    · simp only [hd, decide_True, if_true, Option.some.injEq] at h
      subst h
      subst hd
      subst hk
      refine ⟨ht0, g2, g1, ?_, ?_⟩
      · intro e he
        simp only [filesOf]
        exact List.mem_append_left _ (List.mem_map.mpr ⟨e, he, rfl⟩)
      · intro sub' p b' hs1 hs2 hp
        simp only [IndexTree.setTree, keyEquiv_eq_decide strLt_strictTotal, decide_True, if_true]
        refine ⟨⟨rfl, ?_, hs1, ht'⟩, ⟨g1, hs2, g3⟩, ?_⟩
        · intro hnil
          rw [hnil] at hp
          exact absurd hp.symm (by simp)
        · simp only [filesOf]
          have := (hp.map (fun e : List Str × Str => (d :: e.1, e.2))).append_right (filesOf rest)
          simpa using this
    · simp only [hd, decide_False, Bool.false_eq_true, if_false] at h
      obtain ⟨i1, i2, i3, i4, i5⟩ := ihr ht' g3 h
      refine ⟨i1, i2, i3, fun e he => ?_, ?_⟩
      · simp only [filesOf]
        exact List.mem_append_right _ (i4 e he)
      · intro sub' p b' hs1 hs2 hp
        obtain ⟨j1, j2, j3⟩ := i5 sub' p b' hs1 hs2 hp
        simp only [IndexTree.setTree, keyEquiv_eq_decide strLt_strictTotal, hd, decide_False,
          Bool.false_eq_true, if_false, filesOf]
        refine ⟨⟨hk, hne, ht0, j1⟩, ⟨g1, g2, j2⟩, ?_⟩
        exact (j3.append_left _).trans List.perm_middle

theorem descend_spec (ds : List Str) (f b : Str) (hf : '\n' ∉ f) (hb : b.length = 40)
    (hbn : '\n' ∉ b) :
    ∀ t : IndexTree, tidyForest t → goodForest t → (∀ n ∈ ds, '\n' ∉ n) →
      (∀ e ∈ filesOf t, ¬ e.1 <+: (ds ++ [f]) ∧ ¬ (ds ++ [f]) <+: e.1) →
      ∃ t', descend ds f b t = some t' ∧ tidyForest t' ∧ goodForest t' ∧
        (filesOf t').Perm ((ds ++ [f], b) :: filesOf t) := by
  induction ds with
  | nil =>
    intro t ht hg _ hc
    have hfind : IndexTree.find f t = none := by
      apply find_none_of_files f t ht
      intro e he hh
      have hne := filesOf_ne_nil t e he
      cases hq : e.1 with
      | nil => exact hne hq
      | cons x xs =>
        rw [hq] at hh
        simp only [List.head?_cons, Option.some.injEq] at hh
        subst hh
        exact (hc e he).2 (by rw [hq]; exact ⟨xs, rfl⟩)
    refine ⟨IndexTree.insert (IndexTree.leaf f f b) f t, rfl, ?_, ?_, ?_⟩
    · exact insert_tidy (IndexTree.leaf f f b) (fun x hx => ⟨rfl, hx⟩) f t ht
    · exact insert_good (IndexTree.leaf f f b) (fun x hx => ⟨hf, hb, hbn, hx⟩) f t hg
    · exact insert_files (IndexTree.leaf f f b) [([f], b)] (fun x => rfl) f t hfind
  | cons d ds ih =>
    intro t ht hg hn hc
    have hd : '\n' ∉ d := hn d (List.mem_cons_self _ _)
    have hn' : ∀ n ∈ ds, '\n' ∉ n := fun n hm => hn n (List.mem_cons_of_mem _ hm)
    cases hfind : IndexTree.find d t with
    | none =>
      obtain ⟨t', h1, h2, h3, h4⟩ := ih .nil trivial trivial hn' (by simp [filesOf])
      simp only [filesOf] at h4
      refine ⟨IndexTree.insert (IndexTree.dir d d [] t') d t, ?_, ?_, ?_, ?_⟩
      · simp only [descend, hfind, h1, Option.map_some']
      · have hne : filesOf t' ≠ [] := by
          intro hnil
          rw [hnil] at h4
          exact absurd h4.symm (by simp)
        exact insert_tidy (IndexTree.dir d d [] t') (fun x hx => ⟨rfl, hne, h2, hx⟩) d t ht
      · exact insert_good (IndexTree.dir d d [] t') (fun x hx => ⟨hd, h3, hx⟩) d t hg
      · have := insert_files (IndexTree.dir d d [] t')
          ((filesOf t').map (fun e : List Str × Str => (d :: e.1, e.2))) (fun x => rfl) d t hfind
        refine this.trans ?_
        have hm := h4.map (fun e : List Str × Str => (d :: e.1, e.2))
        simpa using hm.append_right (filesOf t)
    | some o =>
      cases o with
      | none =>
        obtain ⟨b', hb'⟩ := find_leaf_file d t ht hfind
        exact absurd (⟨ds ++ [f], rfl⟩ : [d] <+: d :: ds ++ [f]) (hc _ hb').1
      | some sub =>
        obtain ⟨i1, i2, _, i4, i5⟩ := find_dir_spec d sub t ht hg hfind
        obtain ⟨sub', h1, h2, h3, h4⟩ := ih sub i1 i2 hn' (by
          intro e he
          have := hc _ (i4 e he)
          simp only [List.cons_append, List.cons_prefix_cons, true_and] at this
          exact this)
        obtain ⟨j1, j2, j3⟩ := i5 sub' (ds ++ [f]) b h2 h3 h4
        exact ⟨IndexTree.setTree d sub' t, by simp only [descend, hfind, h1, Option.map_some'],
          j1, j2, j3⟩

theorem splitOn_last_empty (c : Char) (p : Str) (h : (splitOn c p).getLast? = some []) :
    p = [] ∨ p.getLast? = some c := by
  induction p with
  | nil => exact Or.inl rfl
  | cons x xs ih =>
    right
    simp only [splitOn] at h
    by_cases hx : x = c
    · simp only [hx, if_true] at h
      cases hs : splitOn c xs with
      | nil => exact absurd hs (splitOn_ne_nil _ _)
      | cons t ts =>
        rw [hs, List.getLast?_cons_cons] at h
        rw [← hs] at h
        rcases ih h with rfl | hl
        · simp [hx]
        · cases xs with
          | nil => simp at hl
          | cons y ys => rw [List.getLast?_cons_cons]; exact hl
    · simp only [hx, if_false] at h
      cases hs : splitOn c xs with
      | nil => exact absurd hs (splitOn_ne_nil _ _)
      | cons t ts =>
        rw [hs] at h
        simp only at h
        cases ts with
        | nil => simp at h
        | cons u us =>
          rw [List.getLast?_cons_cons] at h
          have h' : (splitOn c xs).getLast? = some [] := by
            rw [hs, List.getLast?_cons_cons]; exact h
          rcases ih h' with rfl | hl
          · simp [splitOn] at hs
          · cases xs with
            | nil => simp at hl
            | cons y ys => rw [List.getLast?_cons_cons]; exact hl

theorem dirs_filename (p : Str) (h : p.getLast? ≠ some '/') :
    (splitOn '/' p).dropLast ++ [pathFilename p] = splitOn '/' p := by
  have hne := splitOn_ne_nil '/' p
  have hl : (splitOn '/' p).getLast? = some ((splitOn '/' p).getLast hne) :=
    List.getLast?_eq_getLast _ hne
  have hf : pathFilename p = (splitOn '/' p).getLast hne := by
    simp only [pathFilename, pathElems, hl, Option.getD_some]
    by_cases he : (splitOn '/' p).getLast hne = []
    · rw [he] at hl
      rcases splitOn_last_empty '/' p hl with rfl | hp
      · simp [he]
      · exact absurd hp h
    · simp [he]
  rw [hf]
  exact List.dropLast_append_getLast hne

theorem mem_of_mem_splitOn (c x : Char) (p n : Str) (hn : n ∈ splitOn c p) (hx : x ∈ n) :
    x ∈ p := by
  induction p generalizing n with
  | nil => simp [splitOn] at hn; subst hn; simp at hx
  | cons y ys ih =>
    simp only [splitOn] at hn
    by_cases hy : y = c
    · simp only [hy, if_true, List.mem_cons] at hn
      rcases hn with rfl | hn
      · simp at hx
      · exact List.mem_cons_of_mem _ (ih n hn hx)
    · simp only [hy, if_false] at hn
      cases hs : splitOn c ys with
      | nil => exact absurd hs (splitOn_ne_nil _ _)
      | cons t ts =>
        rw [hs] at hn ih
        simp only [List.mem_cons] at hn
        rcases hn with rfl | hn
        · rcases List.mem_cons.mp hx with rfl | hx
          · exact List.mem_cons_self _ _
          · exact List.mem_cons_of_mem _ (ih t (List.mem_cons_self _ _) hx)
        · exact List.mem_cons_of_mem _ (ih n (List.mem_cons_of_mem _ hn) hx)

theorem joinSep_append (c : Char) (l1 l2 : List Str) (h1 : l1 ≠ []) (h2 : l2 ≠ []) :
    joinSep c (l1 ++ l2) = joinSep c l1 ++ c :: joinSep c l2 := by
  induction l1 with
  | nil => exact absurd rfl h1
  | cons s l1 ih =>
    cases l1 with
    | nil =>
      cases l2 with
      | nil => exact absurd rfl h2
      | cons t l2 => simp [joinSep]
    | cons u l1 =>
      have := ih (by simp)
      simp only [List.cons_append] at this ⊢
      simp [joinSep, this]

theorem startsWith_append (a r : Str) : startsWith (a ++ r) a = true := by
  induction a with
  | nil => simp [startsWith, List.isPrefixOf]
  | cons x xs ih => simp [startsWith, List.isPrefixOf] at ih ⊢

theorem splitOn_related (c : Char) (a b : Str) (h : splitOn c a <+: splitOn c b) :
    a = b ∨ startsWith b (a ++ [c]) = true := by
  obtain ⟨r, hr⟩ := h
  cases r with
  | nil =>
    left
    rw [List.append_nil] at hr
    have := congrArg (joinSep c) hr
    rwa [joinSep_splitOn, joinSep_splitOn] at this
  | cons x xs =>
    right
    have := congrArg (joinSep c) hr
    rw [joinSep_splitOn, joinSep_append c _ _ (splitOn_ne_nil _ _) (by simp),
      joinSep_splitOn] at this
    rw [← this]
    have := startsWith_append (a ++ [c]) (joinSep c (x :: xs))
    simpa using this

theorem makeIndexTree_fold (l : Index) (hg : ∀ e ∈ l, goodEntry e)
    (hpw : l.Pairwise (fun a b => ¬ splitOn '/' a.1 <+: splitOn '/' b.1 ∧
      ¬ splitOn '/' b.1 <+: splitOn '/' a.1)) :
    ∀ t0 : IndexTree, tidyForest t0 → goodForest t0 →
      (∀ e ∈ l, ∀ q ∈ filesOf t0, ¬ q.1 <+: splitOn '/' e.1 ∧ ¬ splitOn '/' e.1 <+: q.1) →
      ∃ t, foldOpt (fun tree (i : Str × Str) =>
          descend (splitOn '/' i.1).dropLast (pathFilename i.1) i.2 tree) t0 l = some t ∧
        tidyForest t ∧ goodForest t ∧
        (filesOf t).Perm (l.map (fun e => (splitOn '/' e.1, e.2)) ++ filesOf t0) := by
  induction l with
  | nil => intro t0 h1 h2 _; exact ⟨t0, rfl, h1, h2, by simp⟩
  | cons e l ih =>
    intro t0 h1 h2 hc
    obtain ⟨g1, g2, g3, g4⟩ := hg e (List.mem_cons_self _ _)
    obtain ⟨p1, p2⟩ := List.pairwise_cons.mp hpw
    have hcomps := dirs_filename e.1 g4
    have hnames : ∀ n ∈ splitOn '/' e.1, '\n' ∉ n :=
      fun n hn hx => g3 (mem_of_mem_splitOn _ _ _ _ hn hx)
    have hfn : '\n' ∉ pathFilename e.1 := by
      apply hnames
      rw [← hcomps]
      simp
    have hdn : ∀ n ∈ (splitOn '/' e.1).dropLast, '\n' ∉ n := by
      intro n hn
      apply hnames
      rw [← hcomps]
      exact List.mem_append_left _ hn
    obtain ⟨t1, s1, s2, s3, s4⟩ := descend_spec (splitOn '/' e.1).dropLast (pathFilename e.1) e.2
      hfn g1 g2 t0 h1 h2 hdn (by
        rw [hcomps]
        exact fun q hq => hc e (List.mem_cons_self _ _) q hq)
    rw [hcomps] at s4
    obtain ⟨t, r1, r2, r3, r4⟩ := ih (fun e' he' => hg e' (List.mem_cons_of_mem _ he')) p2 t1 s2 s3
      (by
        intro e' he' q hq
        rcases List.mem_cons.mp (s4.subset hq) with rfl | hq'
        · exact ⟨(p1 e' he').1, (p1 e' he').2⟩
        · exact hc e' (List.mem_cons_of_mem _ he') q hq')
    refine ⟨t, by simp only [foldOpt, s1, r1], r2, r3, ?_⟩
    refine r4.trans ?_
    refine (s4.append_left _).trans ?_
    simp only [List.map_cons, List.cons_append]
    exact List.perm_middle

theorem makeIndexTree_spec (idx : Index) (hs : omSorted pathLt idx) (hpf : prefixFree idx)
    (hg : ∀ e ∈ idx, goodEntry e) :
    ∃ t, makeIndexTree idx = some t ∧ tidyForest t ∧ goodForest t ∧
      (filesOf t).Perm (idx.map (fun e => (splitOn '/' e.1, e.2))) := by
  have hpw : idx.Pairwise (fun a b => ¬ splitOn '/' a.1 <+: splitOn '/' b.1 ∧
      ¬ splitOn '/' b.1 <+: splitOn '/' a.1) := by
    refine List.Pairwise.imp_of_mem ?_ hs
    intro a b ha hb hlt
    have hne : a.1 ≠ b.1 := lt_ne' pathLt_strictTotal _ _ hlt
    refine ⟨fun h => ?_, fun h => ?_⟩
    · rcases splitOn_related _ _ _ h with he | hsw
      · exact hne he
      · rw [hpf a ha b hb] at hsw
        exact absurd hsw (by simp)
    · rcases splitOn_related _ _ _ h with he | hsw
      · exact hne he.symm
      · rw [hpf b hb a ha] at hsw
        exact absurd hsw (by simp)
  obtain ⟨t, h1, h2, h3, h4⟩ := makeIndexTree_fold idx hg hpw .nil trivial trivial
    (by simp [filesOf])
  exact ⟨t, h1, h2, h3, by simpa [filesOf] using h4⟩

theorem blobsOf_append (l1 l2 : List (Str × TreeItem)) :
    blobsOf (l1 ++ l2) = blobsOf l1 ++ blobsOf l2 := by
  simp [blobsOf]

theorem blobsOf_walkOf (h : Hash) (t : IndexTree) :
    ∀ pre : Str, blobsOf (walkOf h t pre) =
      (filesOf t).map (fun e => (pre ++ joinSep '/' e.1, e.2)) := by
  induction t with
  | nil => intro pre; rfl
  | leaf k f b rest ih =>
    intro pre
    have := ih pre
    simp only [blobsOf] at this
    simp [walkOf, filesOf, blobsOf, joinSep, this]
  | dir k f b t rest iht ihr =>
    intro pre
    have hcons : ∀ (x : Str × TreeItem) (l : List (Str × TreeItem)),
        x.2.type = ObjectType.TREE → blobsOf (x :: l) = blobsOf l := by
      intro x l hx
      simp [blobsOf, hx]
    simp only [walkOf, filesOf]
    rw [hcons _ _ rfl, blobsOf_append, iht, ihr, List.map_append, List.map_map]
    congr 1
    apply List.map_congr_left
    intro e he
    have hne := filesOf_ne_nil t e he
    cases hq : e.1 with
    | nil => exact absurd hq hne
    | cons x xs => simp [joinSep, hq]

theorem walkOf_modes (h : Hash) (t : IndexTree) :
    ∀ pre : Str, ∀ e ∈ walkOf h t pre,
      (e.2.type = ObjectType.TREE ∧ e.2.mode = 0o40000) ∨
      (e.2.type = ObjectType.BLOB ∧ e.2.mode = 0o100644) := by
  induction t with
  | nil => intro pre e he; simp [walkOf] at he
  | leaf k f b rest ih =>
    intro pre e he
    rcases List.mem_cons.mp he with rfl | he
    · exact Or.inr ⟨rfl, rfl⟩
    · exact ih pre e he
  | dir k f b t rest iht ihr =>
    intro pre e he
    rcases List.mem_cons.mp he with rfl | he
    · exact Or.inl ⟨rfl, rfl⟩
    · rcases List.mem_append.mp he with he | he
      · exact iht _ e he
      · exact ihr pre e he

theorem walkTree_unreadable (root : Str) (st : Store) (id : Str)
    (h : GetTree root st id = none) (fuel : Nat) (pre : Str) :
    walkTree root st fuel pre id = none := by
  cases fuel with
  | zero => rfl
  | succ n => simp only [walkTree, h]

theorem WriteIndex_single (h : Hash) (root p b : Str) (st : Store)
    (hm : makeIndexTree [(p, b)] = some (IndexTree.leaf p p b .nil)) :
    WriteIndex h root [(p, b)] st =
      some (h.sum (treeBody (treeOf h (IndexTree.leaf p p b .nil))),
        writeAll h root (allBodies h (IndexTree.leaf p p b .nil)) st) := by
  rw [WriteIndex, hm]
  exact writeIndexTree_eq _ _ _ _

/-- C6 as stated fails on a prefix-free index with a blob id that is not 40 characters
long (`Add` stages the empty id of a file it could not store, `Core.cc:118`): the line
of the entry is too short for `GetTree`, which throws, so the tree graph cannot be
walked, whatever the depth allowed. As well with a newline in a path; and a path that
ends with a separator comes back with the file name `.`. -/
theorem C6_counterexample :
    prefixFree [("a".toList, [])] ∧
    (∀ fuel : Nat, (WriteIndex toyHash "/r".toList [("a".toList, [])] (fun _ => none)).bind
      (fun r => walkTree "/r".toList r.2 fuel [] r.1) = none) ∧
    (∀ fuel : Nat, (WriteIndex toyHash "/r".toList [("a\nb".toList, idA)] (fun _ => none)).bind
      (fun r => walkTree "/r".toList r.2 fuel [] r.1) = none) ∧
    ((WriteIndex toyHash "/r".toList [("a/".toList, idA)] (fun _ => none)).bind
      (fun r => walkTree "/r".toList r.2 3 [] r.1)).map blobsOf = some [("a/.".toList, idA)] := by
  refine ⟨by decide, ?_, ?_, by decide⟩
  · intro fuel
    rw [WriteIndex_single toyHash _ _ _ _ (by decide)]
    exact walkTree_unreadable _ _ _ (by decide) fuel []
  · intro fuel
    rw [WriteIndex_single toyHash _ _ _ _ (by decide)]
    exact walkTree_unreadable _ _ _ (by decide) fuel []

/-- C6 (amended): for every index (an ordered map) in which no staged path is a
directory prefix of another, whose blob ids are 40 characters without newline, whose
paths are clean (no root, no empty name between separators) and hold no newline, and
on whose tree objects the hash does not collide: `WriteIndex` returns a root id;
walking the tree graph from that id, with the entry names joined by `/`, succeeds at
every depth bound from some bound on; its blob entries are exactly the entries of the
index (the same path and blob-id pairs); and every entry met has kind tree and mode
040000 or kind blob and mode 0100644. -/
theorem C6_WriteIndex_faithful (h : Hash) (root : Str) (idx : Index) (st : Store)
    (hs : omSorted pathLt idx) (hpf : prefixFree idx) (hc : ∀ e ∈ idx, cleanEntry e)
    (hcol : noCollision h root (indexBodies h idx)) :
    ∃ (id : Str) (st' : Store) (l : List (Str × TreeItem)) (n : Nat),
      WriteIndex h root idx st = some (id, st') ∧
      (∀ fuel, n ≤ fuel → walkTree root st' fuel [] id = some l) ∧
      (blobsOf l).Perm idx ∧
      ∀ e ∈ l, (e.2.type = ObjectType.TREE ∧ e.2.mode = 0o40000) ∨
        (e.2.type = ObjectType.BLOB ∧ e.2.mode = 0o100644) := by
  have hg : ∀ e ∈ idx, goodEntry e :=
    fun e he => ⟨(hc e he).1, (hc e he).2.1, (hc e he).2.2.1,
      cleanPath_getLast _ (hc e he).2.2.2⟩
  obtain ⟨t, h1, _, h3, h4⟩ := makeIndexTree_spec idx hs hpf hg
  have hcol' : noCollision h root (allBodies h t) := by
    simpa [indexBodies, h1] using hcol
  refine ⟨h.sum (treeBody (treeOf h t)), writeAll h root (allBodies h t) st, walkOf h t [],
    depthOf t + 1, ?_, ?_, ?_, walkOf_modes h t []⟩
  · simp only [WriteIndex, h1, writeIndexTree_eq]
  · intro fuel hf
    exact walkTree_forest h root _ t h3 (writeAll_reads h root _ hcol' st) fuel [] (by omega)
  · rw [blobsOf_walkOf]
    have := h4.map (fun e : List Str × Str => (([] : Str) ++ joinSep '/' e.1, e.2))
    refine this.trans ?_
    rw [List.map_map]
    have hid : idx.map ((fun e : List Str × Str => (([] : Str) ++ joinSep '/' e.1, e.2)) ∘
        (fun e : Str × Str => (splitOn '/' e.1, e.2))) = idx := by
      conv_rhs => rw [← List.map_id idx]
      apply List.map_congr_left
      intro e _
      simp [joinSep_splitOn]
    rw [hid]

/-- C6 witness, scenario C: staging `dir/a.txt` and `dir/b.txt` gives a root tree with
the single entry `dir` of kind tree, whose sub-tree has exactly the two blob entries
`a.txt` and `b.txt`. -/
theorem C6_WriteIndex_witness :
    (∃ (id : Str) (st' : Store) (l : List (Str × TreeItem)) (n : Nat),
      WriteIndex toyHash "/r".toList
        [("dir/a.txt".toList, idA), ("dir/b.txt".toList, idB)] (fun _ => none) = some (id, st') ∧
      (∀ fuel, n ≤ fuel → walkTree "/r".toList st' fuel [] id = some l) ∧
      (blobsOf l).Perm [("dir/a.txt".toList, idA), ("dir/b.txt".toList, idB)] ∧
      ∀ e ∈ l, (e.2.type = ObjectType.TREE ∧ e.2.mode = 0o40000) ∨
        (e.2.type = ObjectType.BLOB ∧ e.2.mode = 0o100644)) ∧
    (WriteIndex toyHash "/r".toList
        [("dir/a.txt".toList, idA), ("dir/b.txt".toList, idB)] (fun _ => none)).bind
      (fun r => (GetTree "/r".toList r.2 r.1).bind (fun top =>
        (top.head?.bind (fun d => GetTree "/r".toList r.2 d.id)).map (fun sub =>
          (top.map (fun i => (i.type, i.filename)),
           sub.map (fun i => (i.type, i.id, i.filename)))))) =
      some ([(ObjectType.TREE, "dir".toList)],
            [(ObjectType.BLOB, idA, "a.txt".toList), (ObjectType.BLOB, idB, "b.txt".toList)]) :=
  ⟨C6_WriteIndex_faithful toyHash "/r".toList
      [("dir/a.txt".toList, idA), ("dir/b.txt".toList, idB)] (fun _ => none)
      (by decide) (by decide) (by decide) (by decide),
   by decide⟩

/-! ## Core: the commit message -/

theorem commitMsgLoop_spec (ls : List Str) :
    ∀ empty : Bool, commitMsgLoop ls empty =
      ((if empty then
          ((ls.map trim).filter (fun l => decide (l.head? ≠ some '#'))).dropWhile
            (fun l => decide (l = []))
        else (ls.map trim).filter (fun l => decide (l.head? ≠ some '#'))).map
        (fun l => l ++ ['\n'])).flatten := by
  induction ls with
  | nil => intro empty; cases empty <;> rfl
  | cons line rest ih =>
    intro empty
    simp only [commitMsgLoop, List.map_cons]
    by_cases hl : trim line = []
    · simp only [hl, if_true]
      cases empty
      · simp [ih]
      · simp [ih]
    · by_cases hc : (trim line).head? = some '#'
      · simp only [hl, hc, if_false, ne_eq, not_true_eq_false]
        rw [ih]
        simp [hc]
      · simp only [hl, if_false, ne_eq, hc, not_false_eq_true, if_true]
        rw [ih]
        cases empty <;> simp [hc, hl, List.dropWhile_cons]

theorem readLines_no_newline : ∀ (fuel : Nat) (s : IStream), ∀ l ∈ readLines fuel s, '\n' ∉ l := by
  intro fuel
  induction fuel with
  | zero => intro s l hl; simp [readLines] at hl
  | succ n ih =>
    intro s l hl
    simp only [readLines] at hl
    split at hl
    · simp at hl
    · rcases List.mem_cons.mp hl with rfl | hl
      · simp only [getline]
        split
        · split
          · intro hm
            have := List.mem_takeWhile_imp hm
            simp at this
          · intro hm
            have := List.mem_takeWhile_imp hm
            simp at this
        · simp
      · exact ih _ l hl

theorem trim_subset (s : Str) : ∀ c ∈ trim s, c ∈ s := by
  intro c hc
  simp only [trim, List.mem_reverse] at hc
  have h1 := (List.dropWhile_sublist isSpace).subset hc
  rw [List.mem_reverse] at h1
  exact (List.dropWhile_sublist isSpace).subset h1

theorem trim_head (s : Str) : (trim s).dropWhile isSpace = trim s := by
  have hp : trim s <+: s.dropWhile isSpace := by
    simp only [trim]
    exact List.rdropWhile_prefix isSpace _
  cases hu : s.dropWhile isSpace with
  | nil =>
    have : trim s = [] := by simp [trim, hu]
    rw [this]; rfl
  | cons c cs =>
    have hc : isSpace c = false := by
      have := List.head_dropWhile_not isSpace s (by rw [hu]; simp)
      simpa [hu] using this
    rw [hu] at hp
    cases ht : trim s with
    | nil => rfl
    | cons d ds =>
      rw [ht] at hp
      obtain ⟨r, hr⟩ := hp
      have hd : d = c := by
        simp only [List.cons_append, List.cons.injEq] at hr
        exact hr.1
      rw [List.dropWhile_cons, hd, hc]
      simp

/-- C13 as stated fails: a blank line after the first message line is kept, so the
message of the buffer with the lines `a`, blank, `b` holds an empty line. -/
theorem C13_counterexample :
    getCommitMessage "a\n\nb\n".toList = "a\n\nb\n".toList ∧
    linesOf (getCommitMessage "a\n\nb\n".toList) = ["a".toList, [], "b".toList] := by
  decide

/-- C13 (amended): for every buffer text, the lines of the result of `getCommitMessage`
are the lines of the buffer, trimmed, in their original order, without the lines that
start with `#` and without the blank lines in front of the first message line (a blank
line after it is kept); each is written with a newline after it; the result does
not begin with an empty line, and in no line of it is the first non-blank character
a `#`. -/
theorem C13_getCommitMessage_lines (buf : Str) :
    linesOf (getCommitMessage buf) = messageLines buf ∧
    getCommitMessage buf = ((messageLines buf).map (fun l => l ++ ['\n'])).flatten ∧
    (linesOf (getCommitMessage buf)).head? ≠ some [] ∧
    ∀ l ∈ linesOf (getCommitMessage buf), (l.dropWhile isSpace).head? ≠ some '#' := by
  have hout : getCommitMessage buf =
      ((messageLines buf).map (fun l => l ++ ['\n'])).flatten := by
    simp only [getCommitMessage, commitMsgLoop_spec, if_true, messageLines, linesOf]
  have hmem : ∀ l ∈ messageLines buf, l.head? ≠ some '#' ∧ ∃ x ∈ linesOf buf, l = trim x := by
    intro l hl
    have h1 := (List.dropWhile_sublist _).subset hl
    rw [List.mem_filter] at h1
    obtain ⟨h2, h3⟩ := h1
    obtain ⟨x, hx, rfl⟩ := List.mem_map.mp h2
    exact ⟨by simpa using h3, x, hx, rfl⟩
  have hnl : ∀ l ∈ messageLines buf, '\n' ∉ l := by
    intro l hl hm
    obtain ⟨_, x, hx, rfl⟩ := hmem l hl
    exact readLines_no_newline _ _ x hx (trim_subset x _ hm)
  have hlines : linesOf (getCommitMessage buf) = messageLines buf := by
    rw [hout]
    exact readLines_lines (messageLines buf) hnl _ (Nat.lt_succ_self _)
  refine ⟨hlines, hout, ?_, ?_⟩
  · rw [hlines]
    intro hh
    have hne : messageLines buf ≠ [] := by
      intro h0; rw [h0] at hh; simp at hh
    have := List.head_dropWhile_not (fun l : Str => decide (l = []))
      (((linesOf buf).map trim).filter (fun l => decide (l.head? ≠ some '#'))) hne
    have h2 : (messageLines buf).head hne = [] := by
      have := List.head?_eq_head hne
      rw [hh] at this
      exact (Option.some.inj this).symm
    simp only [messageLines] at h2
    rw [h2] at this
    simp at this
  · intro l hl
    rw [hlines] at hl
    obtain ⟨h1, x, _, rfl⟩ := hmem l hl
    rw [trim_head]
    exact h1

/-! ## The commit graph: reading and writing records -/

theorem ReadCommit_selfID (id : Str) (cs : CommitStore) (c : CommitRec)
    (h : ReadCommit id cs = some c) : c.selfID = id := by
  have := List.find?_some h
  simpa using this

theorem ReadCommit_WriteCommit_self (c : CommitRec) (cs : CommitStore) :
    ReadCommit c.selfID (WriteCommit c cs) = some c := by
  simp [ReadCommit, WriteCommit]

theorem find_filter_of_imp {α : Type} (p q : α → Bool) (hpq : ∀ x, p x = true → q x = true) :
    ∀ l : List α, (l.filter q).find? p = l.find? p := by
  intro l
  induction l with
  | nil => rfl
  | cons d ds ih =>
    by_cases hq : q d = true
    · rw [List.filter_cons_of_pos hq, List.find?_cons, List.find?_cons, ih]
    · have hp : p d = false := by
        by_contra hp
        exact hq (hpq d (by simpa using hp))
      rw [List.filter_cons_of_neg hq, List.find?_cons, hp, ih]

theorem ReadCommit_WriteCommit_ne (id : Str) (c : CommitRec) (cs : CommitStore)
    (h : c.selfID ≠ id) : ReadCommit id (WriteCommit c cs) = ReadCommit id cs := by
  simp only [ReadCommit, WriteCommit, List.find?_cons, decide_eq_true_eq, h, decide_False]
  apply find_filter_of_imp
  intro x hx
  simp only [decide_eq_true_eq] at hx
  simp only [ne_eq, decide_not, Bool.not_eq_true', decide_eq_false_iff_not]
  rw [hx]
  exact fun e => h e.symm

/-- What a call of `Commit` that returns has done. -/
theorem Commit_some (env : Env) (cenv : CommitEnv) (h : Hash) (msg : Str) (isAmend : Bool)
    (s s' : Session) (hok : Commit env cenv h msg isAmend s = some s') :
    ∃ (buf : Str) (head : CommitRec) (tree : Str) (objects : Store),
      ¬ (s.repo.whichBranch = [] ∧ isAmend = false) ∧
      s.commitMsg = some buf ∧
      ReadCommit (env.RefsGet s.repo "HEAD".toList) s.commits = some head ∧
      (if msg = [] then getCommitMessage buf else msg) ≠ [] ∧
      cenv.ConfigGet "user.name".toList ≠ cenv.NOT_FOUND ∧
      cenv.ConfigGet "user.email".toList ≠ cenv.NOT_FOUND ∧
      WriteIndex h s.repo.root s.repo.index s.repo.objects = some (tree, objects) ∧
      s'.commits =
        WriteCommit
          { (if isAmend then CommitRec.blank else head) with
            succ := (if isAmend then CommitRec.blank else head).succ ++
              [if isAmend then head.selfID else cenv.NewCommitID s.commits] }
          (WriteCommit
            { (if isAmend then head
                else { CommitRec.blank with
                       selfID := cenv.NewCommitID s.commits, pred := [head.selfID] }) with
              message := if msg = [] then getCommitMessage buf else msg,
              author := cenv.AuthorString (cenv.ConfigGet "user.name".toList)
                (cenv.ConfigGet "user.email".toList) cenv.localTime,
              committer := cenv.AuthorString (cenv.ConfigGet "user.name".toList)
                (cenv.ConfigGet "user.email".toList) cenv.localTime,
              tree := tree } s.commits) ∧
      s'.repo.objects = objects ∧ s'.repo.index = s.repo.index ∧
      s'.repo.refs =
        (if isAmend then s.repo.refs
         else fun n => if n = s.repo.whichBranch then some (cenv.NewCommitID s.commits)
                       else s.repo.refs n) := by
  unfold Commit at hok
  by_cases hb : s.repo.whichBranch = [] ∧ isAmend = false
  · rw [if_pos hb] at hok
    exact absurd hok (by simp)
  rw [if_neg hb] at hok
  cases hm : s.commitMsg with
  | none => rw [hm] at hok; exact absurd hok (by simp)
  | some buf =>
    rw [hm] at hok
    cases hr : ReadCommit (env.RefsGet s.repo "HEAD".toList) s.commits with
    | none => rw [hr] at hok; exact absurd hok (by simp)
    | some head =>
      rw [hr] at hok
      simp only at hok
      by_cases h1 : (if msg = [] then getCommitMessage buf else msg) = []
      · rw [if_pos h1] at hok
        exact absurd hok (by simp)
      rw [if_neg h1] at hok
      by_cases h2 : cenv.ConfigGet "user.name".toList = cenv.NOT_FOUND
      · rw [if_pos h2] at hok
        exact absurd hok (by simp)
      rw [if_neg h2] at hok
      by_cases h3 : cenv.ConfigGet "user.email".toList = cenv.NOT_FOUND
      · rw [if_pos h3] at hok
        exact absurd hok (by simp)
      rw [if_neg h3] at hok
      cases hw : WriteIndex h s.repo.root s.repo.index s.repo.objects with
      | none => rw [hw] at hok; exact absurd hok (by simp)
      | some res =>
        obtain ⟨tree, objects⟩ := res
        rw [hw] at hok
        simp only [Option.some.injEq] at hok
        subst hok
        refine ⟨buf, head, tree, objects, hb, rfl, rfl, h1, h2, h3, rfl, ?_, ?_, ?_, ?_⟩
        · cases isAmend <;> rfl
        · cases isAmend <;> rfl
        · cases isAmend <;> rfl
        · cases isAmend <;> rfl

/-- `Commit` returns when no check of it throws and the forest of the index is built. -/
theorem Commit_returns (env : Env) (cenv : CommitEnv) (h : Hash) (msg : Str) (isAmend : Bool)
    (s : Session) (hb : ¬ (s.repo.whichBranch = [] ∧ isAmend = false))
    (hm : ∃ buf, s.commitMsg = some buf ∧ (if msg = [] then getCommitMessage buf else msg) ≠ [])
    (hr : (ReadCommit (env.RefsGet s.repo "HEAD".toList) s.commits).isSome = true)
    (h2 : cenv.ConfigGet "user.name".toList ≠ cenv.NOT_FOUND)
    (h3 : cenv.ConfigGet "user.email".toList ≠ cenv.NOT_FOUND)
    (ht : (makeIndexTree s.repo.index).isSome = true) :
    ∃ s', Commit env cenv h msg isAmend s = some s' := by
  obtain ⟨buf, hm1, hm2⟩ := hm
  obtain ⟨head, hhead⟩ := Option.isSome_iff_exists.mp hr
  obtain ⟨t, ht'⟩ := Option.isSome_iff_exists.mp ht
  have hw : WriteIndex h s.repo.root s.repo.index s.repo.objects =
      some (h.sum (treeBody (treeOf h t)), writeAll h s.repo.root (allBodies h t) s.repo.objects) := by
    simp only [WriteIndex, ht', writeIndexTree_eq]
  unfold Commit
  rw [if_neg hb, hm1, hhead]
  simp only
  rw [if_neg hm2, if_neg h2, if_neg h3, hw]
  exact ⟨_, rfl⟩

/-- C11: for every state in which `HEAD` resolves to the commit `P`, a non-amend
`Commit` that returns has written a new record `N` (no record was stored under its id
before) with `pred = [P.selfID]` and with the root id that `WriteIndex` returns for the
live index as `tree`; the record stored for `P` is `P` with the id of `N` appended to
`succ` and nothing else changed; a branch is active and its ref points to `N`. And
`Commit` does return when a branch is active, `.sit/COMMIT_MSG` is a file, the message
is not empty, `user.name` and `user.email` are configured and the forest of the index
is built. -/
theorem C11_Commit_links (env : Env) (cenv : CommitEnv) (h : Hash) (msg : Str) (s : Session)
    (P : CommitRec)
    (hP : ReadCommit (env.RefsGet s.repo "HEAD".toList) s.commits = some P) :
    (∀ s', Commit env cenv h msg false s = some s' →
      ∃ (N : CommitRec) (r : Str) (objects : Store),
        WriteIndex h s.repo.root s.repo.index s.repo.objects = some (r, objects) ∧
        ReadCommit N.selfID s.commits = none ∧
        ReadCommit N.selfID s'.commits = some N ∧
        N.pred = [P.selfID] ∧ N.tree = r ∧
        ReadCommit P.selfID s'.commits = some { P with succ := P.succ ++ [N.selfID] } ∧
        s.repo.whichBranch ≠ [] ∧
        s'.repo.refs s.repo.whichBranch = some N.selfID) ∧
    (s.repo.whichBranch ≠ [] →
      (∃ buf, s.commitMsg = some buf ∧
        (if msg = [] then getCommitMessage buf else msg) ≠ []) →
      cenv.ConfigGet "user.name".toList ≠ cenv.NOT_FOUND →
      cenv.ConfigGet "user.email".toList ≠ cenv.NOT_FOUND →
      (makeIndexTree s.repo.index).isSome = true →
      ∃ s', Commit env cenv h msg false s = some s') := by
  refine ⟨?_, ?_⟩
  · intro s' hok
    obtain ⟨buf, head, tree, objects, hb, _, hr, _, _, _, hw, hcs, _, _, hrefs⟩ :=
      Commit_some env cenv h msg false s s' hok
    rw [hP] at hr
    have hhead : head = P := (Option.some.inj hr).symm
    subst hhead
    simp only [Bool.false_eq_true, if_false] at hcs hrefs
    have hfresh := cenv.fresh s.commits
    have hne : cenv.NewCommitID s.commits ≠ head.selfID := by
      intro he
      rw [he, ReadCommit_selfID _ _ _ hP, hP] at hfresh
      exact absurd hfresh (by simp)
    refine ⟨{ selfID := cenv.NewCommitID s.commits, tree := tree,
              author := cenv.AuthorString (cenv.ConfigGet "user.name".toList)
                (cenv.ConfigGet "user.email".toList) cenv.localTime,
              committer := cenv.AuthorString (cenv.ConfigGet "user.name".toList)
                (cenv.ConfigGet "user.email".toList) cenv.localTime,
              message := if msg = [] then getCommitMessage buf else msg,
              pred := [head.selfID], succ := [] },
      tree, objects, hw, hfresh, ?_, rfl, rfl, ?_, ?_, ?_⟩
    · rw [hcs]
      exact (ReadCommit_WriteCommit_ne (cenv.NewCommitID s.commits)
        { head with succ := head.succ ++ [cenv.NewCommitID s.commits] } _
        (fun e => hne e.symm)).trans (ReadCommit_WriteCommit_self _ _)
    · rw [hcs]
      exact ReadCommit_WriteCommit_self
        { head with succ := head.succ ++ [cenv.NewCommitID s.commits] } _
    · intro hw0
      exact hb ⟨hw0, rfl⟩
    · rw [hrefs]
      simp
  · intro hb hm h2 h3 ht
    exact Commit_returns env cenv h msg false s (fun hh => hb hh.1) hm (by rw [hP]; rfl) h2 h3 ht

/-- C11 witness, scenario B: with `a.txt` staged in a session right after `Init`,
`Commit("msg")` returns; the new record has the record of `idZero` as its only
predecessor and the root tree of the index as tree, the record of `idZero` has the new
id as its only successor, and `master` points to the new commit. -/
theorem C11_Commit_links_witness :
    ∃ s', Commit sampleHeadEnv sampleCommitEnv toyHash "msg".toList false
        (sampleSession [("a.txt".toList, idA)]) = some s' ∧
      ∃ (N : CommitRec) (r : Str) (objects : Store),
        WriteIndex toyHash "/r".toList [("a.txt".toList, idA)] sampleObjects =
          some (r, objects) ∧
        ReadCommit N.selfID [sampleHead] = none ∧
        ReadCommit N.selfID s'.commits = some N ∧
        N.pred = [idZero] ∧ N.tree = r ∧
        ReadCommit idZero s'.commits = some { sampleHead with succ := [] ++ [N.selfID] } ∧
        "master".toList ≠ [] ∧
        s'.repo.refs "master".toList = some N.selfID :=
  match (C11_Commit_links sampleHeadEnv sampleCommitEnv toyHash "msg".toList
      (sampleSession [("a.txt".toList, idA)]) sampleHead (by decide)).2
      (by decide) ⟨[], rfl, by decide⟩ (by decide) (by decide) (by decide) with
  | ⟨s', hs'⟩ =>
    ⟨s', hs', (C11_Commit_links sampleHeadEnv sampleCommitEnv toyHash "msg".toList
      (sampleSession [("a.txt".toList, idA)]) sampleHead (by decide)).1 s' hs'⟩

/-- C12 fails on the code: an amending `Commit` that returns has also written the
default-constructed `parentCommit` with the amended commit as its successor, so a
record with the empty id is stored afterwards. The current commit keeps `selfID`,
`pred` and `succ` and gets the new tree, and no ref is moved. The call returns when
`.sit/COMMIT_MSG` is a file, the message is not empty, `user.name` and `user.email`
are configured and the forest of the index is built. -/
theorem C12_amend_writes_blank_record (env : Env) (cenv : CommitEnv) (h : Hash) (msg : Str)
    (s : Session) (C : CommitRec)
    (hC : ReadCommit (env.RefsGet s.repo "HEAD".toList) s.commits = some C) :
    (∀ s', Commit env cenv h msg true s = some s' →
      ReadCommit [] s'.commits = some { CommitRec.blank with succ := [C.selfID] } ∧
      ([] : Str) ∈ commitIDs s'.commits ∧
      s'.repo.refs = s.repo.refs ∧
      (C.selfID ≠ [] →
        ∃ (C' : CommitRec) (r : Str) (objects : Store),
          WriteIndex h s.repo.root s.repo.index s.repo.objects = some (r, objects) ∧
          ReadCommit C.selfID s'.commits = some C' ∧
          C'.selfID = C.selfID ∧ C'.pred = C.pred ∧ C'.succ = C.succ ∧ C'.tree = r)) ∧
    ((∃ buf, s.commitMsg = some buf ∧
        (if msg = [] then getCommitMessage buf else msg) ≠ []) →
      cenv.ConfigGet "user.name".toList ≠ cenv.NOT_FOUND →
      cenv.ConfigGet "user.email".toList ≠ cenv.NOT_FOUND →
      (makeIndexTree s.repo.index).isSome = true →
      ∃ s', Commit env cenv h msg true s = some s') := by
  refine ⟨?_, ?_⟩
  · intro s' hok
    obtain ⟨buf, head, tree, objects, _, _, hr, _, _, _, hw, hcs, _, _, hrefs⟩ :=
      Commit_some env cenv h msg true s s' hok
    rw [hC] at hr
    have hhead : head = C := (Option.some.inj hr).symm
    subst hhead
    simp only [if_true] at hcs hrefs
    have hblank : ReadCommit [] s'.commits =
        some { CommitRec.blank with succ := [head.selfID] } := by
      rw [hcs]
      exact ReadCommit_WriteCommit_self
        { CommitRec.blank with succ := CommitRec.blank.succ ++ [head.selfID] } _
    refine ⟨hblank, ?_, hrefs, ?_⟩
    · have := List.mem_of_find?_eq_some hblank
      exact List.mem_map.mpr ⟨_, this, rfl⟩
    · intro hne
      refine ⟨{ head with
                message := if msg = [] then getCommitMessage buf else msg,
                author := cenv.AuthorString (cenv.ConfigGet "user.name".toList)
                  (cenv.ConfigGet "user.email".toList) cenv.localTime,
                committer := cenv.AuthorString (cenv.ConfigGet "user.name".toList)
                  (cenv.ConfigGet "user.email".toList) cenv.localTime,
                tree := tree }, tree, objects, hw, ?_, rfl, rfl, rfl, rfl⟩
      rw [hcs]
      exact (ReadCommit_WriteCommit_ne head.selfID
        { CommitRec.blank with succ := CommitRec.blank.succ ++ [head.selfID] } _
        (fun e => hne e.symm)).trans (ReadCommit_WriteCommit_self
          { head with
            message := if msg = [] then getCommitMessage buf else msg,
            author := cenv.AuthorString (cenv.ConfigGet "user.name".toList)
              (cenv.ConfigGet "user.email".toList) cenv.localTime,
            committer := cenv.AuthorString (cenv.ConfigGet "user.name".toList)
              (cenv.ConfigGet "user.email".toList) cenv.localTime,
            tree := tree } _)
  · intro hm h2 h3 ht
    exact Commit_returns env cenv h msg true s (fun hh => by simp at hh) hm
      (by rw [hC]; rfl) h2 h3 ht

/-- C12 witness: in a session right after `Init` no record has the empty id; the
amending `Commit("msg")` returns, and afterwards the record with the empty id is stored,
with `idZero` as its successor. -/
theorem C12_amend_witness :
    ([] : Str) ∉ commitIDs (sampleSession [("a.txt".toList, idA)]).commits ∧
    ∃ s', Commit sampleHeadEnv sampleCommitEnv toyHash "msg".toList true
        (sampleSession [("a.txt".toList, idA)]) = some s' ∧
      ReadCommit [] s'.commits = some { CommitRec.blank with succ := [idZero] } ∧
      ([] : Str) ∈ commitIDs s'.commits :=
  ⟨by decide,
   match (C12_amend_writes_blank_record sampleHeadEnv sampleCommitEnv toyHash "msg".toList
      (sampleSession [("a.txt".toList, idA)]) sampleHead (by decide)).2
      ⟨[], rfl, by decide⟩ (by decide) (by decide) (by decide) with
   | ⟨s', hs'⟩ =>
     ⟨s', hs', ((C12_amend_writes_blank_record sampleHeadEnv sampleCommitEnv toyHash
        "msg".toList (sampleSession [("a.txt".toList, idA)]) sampleHead (by decide)).1
        s' hs').1,
      ((C12_amend_writes_blank_record sampleHeadEnv sampleCommitEnv toyHash
        "msg".toList (sampleSession [("a.txt".toList, idA)]) sampleHead (by decide)).1
        s' hs').2.1⟩⟩

/-! ## Core: `Add` -/

theorem addFile_index (fs : FsEnv) (h : Hash) (file : Str) (r : Repo) :
    (addFile fs h file r).2.index = r.index := by
  unfold addFile
  split
  · rfl
  · split
    · rfl
    · split
      · rfl
      · split
        · rfl
        · split
          · split
            · rename_i r1 hc
              simp only [FileSystem.CompressCopy] at hc
              split at hc
              · simp only [Option.some.injEq] at hc
                subst hc
                rfl
              · exact absurd hc (by simp)
            · rfl
          · rfl

theorem addFile_fails (fs : FsEnv) (h : Hash) (file : Str) (r : Repo)
    (hfail : fs.file_size file = none ∨
      ∃ n, fs.file_size file = some n ∧ 200 <<< 20 < n) :
    (addFile fs h file r).1 = [] := by
  unfold addFile
  split
  · rfl
  · rcases hfail with h0 | ⟨n, h1, h2⟩
    · rw [h0]
    · rw [h1]
      simp only [if_pos h2]

theorem addEntry_index (env : Env) (fs : FsEnv) (h : Hash) (r : Repo) (file : Str) :
    (addEntry env fs h r file).index =
      if fs.IsDirectory file = true then r.index
      else Insert (env.GetRelativePath file) (addFile fs h file r).1 r.index := by
  unfold addEntry
  split
  · rfl
  · simp only [addFile_index]

theorem addLoop_sorted (env : Env) (fs : FsEnv) (h : Hash) (l : List Str) :
    ∀ r : Repo, omSorted pathLt r.index →
      omSorted pathLt (l.foldl (addEntry env fs h) r).index := by
  induction l with
  | nil => intro r hr; exact hr
  | cons f l ih =>
    intro r hr
    rw [List.foldl_cons]
    apply ih
    rw [addEntry_index]
    split
    · exact hr
    · exact omSorted_Insert _ _ _ hr

theorem addLoop_find (env : Env) (fs : FsEnv) (h : Hash) (k : Str) (l : List Str) :
    ∀ r : Repo, omSorted pathLt r.index →
      (∀ f ∈ l, fs.IsDirectory f = false → env.GetRelativePath f ≠ k) →
      omFind pathLt k (l.foldl (addEntry env fs h) r).index = omFind pathLt k r.index := by
  induction l with
  | nil => intro r _ _; rfl
  | cons f l ih =>
    intro r hr hk
    rw [List.foldl_cons]
    have hs : omSorted pathLt (addEntry env fs h r f).index := by
      rw [addEntry_index]
      split
      · exact hr
      · exact omSorted_Insert _ _ _ hr
    rw [ih _ hs (fun g hg => hk g (List.mem_cons_of_mem _ hg)), addEntry_index]
    split
    · rfl
    · rename_i hd
      rw [omFind_Insert _ _ _ hr]
      have := hk f (List.mem_cons_self _ _) (by simpa using hd)
      rw [if_neg (fun e => this e.symm)]

theorem Add_existing (env : Env) (fs : FsEnv) (h : Hash) (path : Str) (r : Repo)
    (hex : fs.IsExist path = true) :
    ∃ r', Add env fs h path r = some r' ∧
      r'.index = ((fs.ListRecursive path).foldl (addEntry env fs h)
        { r with index := (Remove (env.GetRelativePath path) r.index).2 }).index ∧
      r'.indexFile = some (Save r'.index) := by
  unfold Add
  simp only [hex, Bool.true_eq_false, false_and, if_false]
  exact ⟨_, rfl, rfl, rfl⟩

/-- C14 fails on the code: for every `Add` over an existing path whose list holds a
file `f` (not a directory) for which `addFile` fails, because its size cannot be read
or is above 200 MiB, and no later file of the list has the same relative path, `Add`
returns and the index then holds an entry for `f` with the empty blob id. -/
theorem C14_Add_stages_failed_file (env : Env) (fs : FsEnv) (h : Hash) (path : Str) (r : Repo)
    (l1 l2 : List Str) (f : Str) (hs : omSorted pathLt r.index)
    (hex : fs.IsExist path = true) (hl : fs.ListRecursive path = l1 ++ f :: l2)
    (hnd : fs.IsDirectory f = false)
    (hfail : fs.file_size f = none ∨ ∃ n, fs.file_size f = some n ∧ 200 <<< 20 < n)
    (hlast : ∀ g ∈ l2, fs.IsDirectory g = false →
      env.GetRelativePath g ≠ env.GetRelativePath f) :
    ∃ r', Add env fs h path r = some r' ∧
      omFind pathLt (env.GetRelativePath f) r'.index = some [] := by
  obtain ⟨r', h1, h2, _⟩ := Add_existing env fs h path r hex
  refine ⟨r', h1, ?_⟩
  rw [h2, hl, List.foldl_append, List.foldl_cons]
  have hs1 : omSorted pathLt (l1.foldl (addEntry env fs h)
      { r with index := (Remove (env.GetRelativePath path) r.index).2 }).index :=
    addLoop_sorted env fs h l1 _ (omSorted_Remove _ _ hs)
  have hs2 : omSorted pathLt (addEntry env fs h (l1.foldl (addEntry env fs h)
      { r with index := (Remove (env.GetRelativePath path) r.index).2 }) f).index := by
    rw [addEntry_index]
    split
    · exact hs1
    · exact omSorted_Insert _ _ _ hs1
  rw [addLoop_find env fs h _ l2 _ hs2 hlast, addEntry_index, hnd]
  simp only [Bool.false_eq_true, if_false]
  rw [omFind_Insert _ _ _ hs1, if_pos rfl, addFile_fails fs h f _ hfail]

/-- C14 witness: `Add("d")` over the directory with `d/big.bin` (above 200 MiB),
`d/gone.txt` (size cannot be read) and `d/ok.txt` stages both failed files with the
empty id, next to `d/ok.txt` with the hash of its content. -/
theorem C14_Add_witness :
    (∃ r', Add (sampleEnv [] true) sampleFs toyHash "d".toList (sampleWork []) = some r' ∧
      omFind pathLt "d/big.bin".toList r'.index = some []) ∧
    (Add (sampleEnv [] true) sampleFs toyHash "d".toList (sampleWork [])).map
        (fun r => r.index) =
      some [("d/big.bin".toList, []), ("d/gone.txt".toList, []),
            ("d/ok.txt".toList, toyHash.sum "two".toList)] :=
  ⟨C14_Add_stages_failed_file (sampleEnv [] true) sampleFs toyHash "d".toList (sampleWork [])
     [] ["d/gone.txt".toList, "d/ok.txt".toList] "d/big.bin".toList
     (by decide) (by decide) (by decide) (by decide) (Or.inr ⟨200 <<< 20 + 1, by decide, by decide⟩)
     (by decide),
   by decide⟩

/-- C15 fails on the code: for a path that does not exist on disk, when `Remove` counts
at least one entry `Add` returns right after `Remove`, without `Save`: the live index
has lost the entries and the persisted index file is what it was. When `Remove` counts
none, `Add` throws, and `Remove` has left the index as it was. -/
theorem C15_Add_deletion_not_saved (env : Env) (fs : FsEnv) (h : Hash) (p : Str) (r : Repo)
    (hex : fs.IsExist p = false) :
    (0 < (Remove (env.GetRelativePath p) r.index).1 →
      ∃ r', Add env fs h p r = some r' ∧
        r'.index = (Remove (env.GetRelativePath p) r.index).2 ∧
        r'.indexFile = r.indexFile) ∧
    ((Remove (env.GetRelativePath p) r.index).1 = 0 → Add env fs h p r = none) ∧
    ((wouldRm (relative_path (env.GetRelativePath p)) r.index) = [] →
      (Remove (env.GetRelativePath p) r.index).2 = r.index) := by
  refine ⟨?_, ?_, ?_⟩
  · intro hrm
    unfold Add
    simp only [hex, hrm, and_self, if_true]
    exact ⟨_, rfl, rfl, rfl⟩
  · intro hrm
    unfold Add
    simp [hex, hrm]
  · intro hw
    simp only [Remove, hw, List.foldl_nil]

/-- C15 witness: `a.txt` is staged and persisted but not on disk; after `Add("a.txt")`
the live index is empty and loading the persisted index still gives `a.txt`, while
`Rm("a.txt")` persists the empty index. -/
theorem C15_Add_deletion_witness :
    (∃ r', Add (sampleEnv [] true) sampleFs toyHash "a.txt".toList
        { sampleRepo "/r".toList [("a.txt".toList, idA)] with
          indexFile := some (Save [("a.txt".toList, idA)]) } = some r' ∧
      r'.index = (Remove "a.txt".toList [("a.txt".toList, idA)]).2 ∧
      r'.indexFile = some (Save [("a.txt".toList, idA)])) ∧
    (Remove "a.txt".toList [("a.txt".toList, idA)]).2 = [] ∧
    Load (some (Save [("a.txt".toList, idA)])) = [("a.txt".toList, idA)] ∧
    Load (Rm (sampleEnv [] true) "a.txt".toList
      { sampleRepo "/r".toList [("a.txt".toList, idA)] with
        indexFile := some (Save [("a.txt".toList, idA)]) }).indexFile = [] :=
  ⟨(C15_Add_deletion_not_saved (sampleEnv [] true) sampleFs toyHash "a.txt".toList
      { sampleRepo "/r".toList [("a.txt".toList, idA)] with
        indexFile := some (Save [("a.txt".toList, idA)]) } (by decide)).1 (by decide),
   by decide, by decide, by decide⟩

/-- C19 as stated fails: with `foobar.txt` staged, `Add("foo")` over the existing
directory `foo` drops the entry `foobar.txt`, which is neither `foo` nor inside it; only
the file listed under `foo` is staged afterwards. -/
theorem C19_counterexample :
    sampleFs.IsExist "foo".toList = true ∧
    omFind pathLt "foobar.txt".toList (sampleWork [("foobar.txt".toList, idA)]).index =
      some idA ∧
    (Add (sampleEnv [] true) sampleFs toyHash "foo".toList
        (sampleWork [("foobar.txt".toList, idA)])).map
        (fun r => omFind pathLt "foobar.txt".toList r.index) = some none ∧
    (Add (sampleEnv [] true) sampleFs toyHash "foo".toList
        (sampleWork [("foobar.txt".toList, idA)])).map (fun r => r.index) =
      some [("foo/a.txt".toList, toyHash.sum "two".toList)] := by
  decide

/-- C19 (amended): for every index (an ordered map) and every path `p` that exists on
disk, `Add(p)` returns, and every index entry whose path string does not start with the
relative path of `p` and is not the path of a listed file is still present with the
same blob id. -/
theorem C19_Add_frame (env : Env) (fs : FsEnv) (h : Hash) (p : Str) (r : Repo)
    (k v : Str) (hs : omSorted pathLt r.index) (hex : fs.IsExist p = true)
    (hk : omFind pathLt k r.index = some v)
    (hnp : startsWith k (relative_path (env.GetRelativePath p)) = false)
    (hnf : ∀ f ∈ fs.ListRecursive p, fs.IsDirectory f = false → env.GetRelativePath f ≠ k) :
    ∃ r', Add env fs h p r = some r' ∧ omFind pathLt k r'.index = some v := by
  obtain ⟨r', h1, h2, _⟩ := Add_existing env fs h p r hex
  refine ⟨r', h1, ?_⟩
  rw [h2, addLoop_find env fs h k _ _ (omSorted_Remove _ _ hs) hnf]
  show omFind pathLt k (Remove (env.GetRelativePath p) r.index).2 = some v
  rw [omFind_Remove, hnp]
  simpa using hk

/-- C19 witness: with `foobar.txt` and `g.txt` staged, `Add("foo")` keeps `g.txt`. -/
theorem C19_Add_frame_witness :
    ∃ r', Add (sampleEnv [] true) sampleFs toyHash "foo".toList
        (sampleWork [("foobar.txt".toList, idA), ("g.txt".toList, idB)]) = some r' ∧
      omFind pathLt "g.txt".toList r'.index = some idB :=
  C19_Add_frame (sampleEnv [] true) sampleFs toyHash "foo".toList
    (sampleWork [("foobar.txt".toList, idA), ("g.txt".toList, idB)]) "g.txt".toList idB
    (by decide) (by decide) (by decide) (by decide) (by decide)

/-! ## Objects: the sentinel `EMPTY_OBJECT` -/

/-- C16 fails on the code: the constant `EMPTY_OBJECT` of `Objects.cc` is the all-zero
string of 38 characters, not 40, so its length is that of no object id (the ids the
hash gives have 40 characters). -/
theorem C16_EMPTY_OBJECT_has_38_zeros (h : Hash) (s : Str) :
    EMPTY_OBJECT = List.replicate 38 '0' ∧ EMPTY_OBJECT.length = 38 ∧
    EMPTY_OBJECT ≠ List.replicate 40 '0' ∧ EMPTY_OBJECT.length ≠ (h.sum s).length := by
  refine ⟨by decide, by decide, by decide, ?_⟩
  rw [h.len40]
  decide

/-! ## `makeIndexTree`: when the forest is built -/

theorem find_dir_tidy (d : Str) (sub : IndexTree) (t : IndexTree) (ht : tidyForest t)
    (h : IndexTree.find d t = some (some sub)) :
    tidyForest sub ∧
    (∀ e ∈ filesOf sub, (d :: e.1, e.2) ∈ filesOf t) ∧
    ∀ (sub' : IndexTree) (p : List Str) (b : Str), tidyForest sub' →
      (filesOf sub').Perm ((p, b) :: filesOf sub) →
      tidyForest (IndexTree.setTree d sub' t) ∧
      (filesOf (IndexTree.setTree d sub' t)).Perm ((d :: p, b) :: filesOf t) := by
  induction t with
  | nil => simp [IndexTree.find] at h
  | leaf k f b rest ih =>
    obtain ⟨hk, ht'⟩ := ht
    simp only [IndexTree.find, keyEquiv_eq_decide strLt_strictTotal] at h
    by_cases hd : d = k
    · simp [hd] at h
    · simp only [hd, decide_False, Bool.false_eq_true, if_false] at h
      obtain ⟨i1, i4, i5⟩ := ih ht' h
      refine ⟨i1, fun e he => List.mem_cons_of_mem _ (i4 e he), ?_⟩
      intro sub' p b' hs1 hp
      obtain ⟨j1, j3⟩ := i5 sub' p b' hs1 hp
      simp only [IndexTree.setTree, keyEquiv_eq_decide strLt_strictTotal, hd, decide_False,
        Bool.false_eq_true, if_false]
      exact ⟨⟨hk, j1⟩, (j3.cons _).trans (List.Perm.swap _ _ _)⟩
  | dir k f b t0 rest _ ihr =>
    obtain ⟨hk, hne, ht0, ht'⟩ := ht
    simp only [IndexTree.find, keyEquiv_eq_decide strLt_strictTotal] at h
    by_cases hd : d = k
    · simp only [hd, decide_True, if_true, Option.some.injEq] at h
      subst h
      subst hd
      subst hk
      refine ⟨ht0, ?_, ?_⟩
      · intro e he
        simp only [filesOf]
        exact List.mem_append_left _ (List.mem_map.mpr ⟨e, he, rfl⟩)
      · intro sub' p b' hs1 hp
        simp only [IndexTree.setTree, keyEquiv_eq_decide strLt_strictTotal, decide_True, if_true]
        refine ⟨⟨rfl, ?_, hs1, ht'⟩, ?_⟩
        · intro hnil
          rw [hnil] at hp
          exact absurd hp.symm (by simp)
        · simp only [filesOf]
          have := (hp.map (fun e : List Str × Str => (d :: e.1, e.2))).append_right (filesOf rest)
          simpa using this
    · simp only [hd, decide_False, Bool.false_eq_true, if_false] at h
      obtain ⟨i1, i4, i5⟩ := ihr ht' h
      refine ⟨i1, fun e he => ?_, ?_⟩
      · simp only [filesOf]
        exact List.mem_append_right _ (i4 e he)
      · intro sub' p b' hs1 hp
        obtain ⟨j1, j3⟩ := i5 sub' p b' hs1 hp
        simp only [IndexTree.setTree, keyEquiv_eq_decide strLt_strictTotal, hd, decide_False,
          Bool.false_eq_true, if_false, filesOf]
        exact ⟨⟨hk, hne, ht0, j1⟩, (j3.append_left _).trans List.perm_middle⟩

theorem descend_tidy (ds : List Str) (f b : Str) :
    ∀ t : IndexTree, tidyForest t →
      (∀ e ∈ filesOf t, ¬ e.1 <+: (ds ++ [f]) ∧ ¬ (ds ++ [f]) <+: e.1) →
      ∃ t', descend ds f b t = some t' ∧ tidyForest t' ∧
        (filesOf t').Perm ((ds ++ [f], b) :: filesOf t) := by
  induction ds with
  | nil =>
    intro t ht hc
    have hfind : IndexTree.find f t = none := by
      apply find_none_of_files f t ht
      intro e he hh
      have hne := filesOf_ne_nil t e he
      cases hq : e.1 with
      | nil => exact hne hq
      | cons x xs =>
        rw [hq] at hh
        simp only [List.head?_cons, Option.some.injEq] at hh
        subst hh
        exact (hc e he).2 (by rw [hq]; exact ⟨xs, rfl⟩)
    exact ⟨IndexTree.insert (IndexTree.leaf f f b) f t, rfl,
      insert_tidy (IndexTree.leaf f f b) (fun x hx => ⟨rfl, hx⟩) f t ht,
      insert_files (IndexTree.leaf f f b) [([f], b)] (fun x => rfl) f t hfind⟩
  | cons d ds ih =>
    intro t ht hc
    cases hfind : IndexTree.find d t with
    | none =>
      obtain ⟨t', h1, h2, h4⟩ := ih .nil trivial (by simp [filesOf])
      simp only [filesOf] at h4
      refine ⟨IndexTree.insert (IndexTree.dir d d [] t') d t, ?_, ?_, ?_⟩
      · simp only [descend, hfind, h1, Option.map_some']
      · have hne : filesOf t' ≠ [] := by
          intro hnil
          rw [hnil] at h4
          exact absurd h4.symm (by simp)
        exact insert_tidy (IndexTree.dir d d [] t') (fun x hx => ⟨rfl, hne, h2, hx⟩) d t ht
      · have := insert_files (IndexTree.dir d d [] t')
          ((filesOf t').map (fun e : List Str × Str => (d :: e.1, e.2))) (fun x => rfl) d t hfind
        refine this.trans ?_
        have hm := h4.map (fun e : List Str × Str => (d :: e.1, e.2))
        simpa using hm.append_right (filesOf t)
    | some o =>
      cases o with
      | none =>
        obtain ⟨b', hb'⟩ := find_leaf_file d t ht hfind
        exact absurd (⟨ds ++ [f], rfl⟩ : [d] <+: d :: ds ++ [f]) (hc _ hb').1
      | some sub =>
        obtain ⟨i1, i4, i5⟩ := find_dir_tidy d sub t ht hfind
        obtain ⟨sub', h1, h2, h4⟩ := ih sub i1 (by
          intro e he
          have := hc _ (i4 e he)
          simp only [List.cons_append, List.cons_prefix_cons, true_and] at this
          exact this)
        obtain ⟨j1, j3⟩ := i5 sub' (ds ++ [f]) b h2 h4
        exact ⟨IndexTree.setTree d sub' t, by simp only [descend, hfind, h1, Option.map_some'],
          j1, j3⟩

theorem makeIndexTree_fold_tidy (l : Index) (hnt : ∀ e ∈ l, e.1.getLast? ≠ some '/')
    (hpw : l.Pairwise (fun a b => ¬ splitOn '/' a.1 <+: splitOn '/' b.1 ∧
      ¬ splitOn '/' b.1 <+: splitOn '/' a.1)) :
    ∀ t0 : IndexTree, tidyForest t0 →
      (∀ e ∈ l, ∀ q ∈ filesOf t0, ¬ q.1 <+: splitOn '/' e.1 ∧ ¬ splitOn '/' e.1 <+: q.1) →
      ∃ t, foldOpt (fun tree (i : Str × Str) =>
          descend (splitOn '/' i.1).dropLast (pathFilename i.1) i.2 tree) t0 l = some t ∧
        tidyForest t ∧
        (filesOf t).Perm (l.map (fun e => (splitOn '/' e.1, e.2)) ++ filesOf t0) := by
  induction l with
  | nil => intro t0 h1 _; exact ⟨t0, rfl, h1, by simp⟩
  | cons e l ih =>
    intro t0 h1 hc
    obtain ⟨p1, p2⟩ := List.pairwise_cons.mp hpw
    have hcomps := dirs_filename e.1 (hnt e (List.mem_cons_self _ _))
    obtain ⟨t1, s1, s2, s4⟩ := descend_tidy (splitOn '/' e.1).dropLast (pathFilename e.1) e.2
      t0 h1 (by
        rw [hcomps]
        exact fun q hq => hc e (List.mem_cons_self _ _) q hq)
    rw [hcomps] at s4
    obtain ⟨t, r1, r2, r4⟩ := ih (fun e' he' => hnt e' (List.mem_cons_of_mem _ he')) p2 t1 s2
      (by
        intro e' he' q hq
        rcases List.mem_cons.mp (s4.subset hq) with rfl | hq'
        · exact ⟨(p1 e' he').1, (p1 e' he').2⟩
        · exact hc e' (List.mem_cons_of_mem _ he') q hq')
    refine ⟨t, by simp only [foldOpt, s1, r1], r2, ?_⟩
    refine r4.trans ?_
    refine (s4.append_left _).trans ?_
    simp only [List.map_cons, List.cons_append]
    exact List.perm_middle

/-- For an index (an ordered map) in which no staged path is a directory prefix of
another and no path ends with a separator, `makeIndexTree` follows no null pointer:
the forest is built, and its files are the entries of the index. -/
theorem makeIndexTree_builds (idx : Index) (hs : omSorted pathLt idx) (hpf : prefixFree idx)
    (hnt : ∀ e ∈ idx, e.1.getLast? ≠ some '/') :
    ∃ t, makeIndexTree idx = some t ∧ tidyForest t ∧
      (filesOf t).Perm (idx.map (fun e => (splitOn '/' e.1, e.2))) := by
  have hpw : idx.Pairwise (fun a b => ¬ splitOn '/' a.1 <+: splitOn '/' b.1 ∧
      ¬ splitOn '/' b.1 <+: splitOn '/' a.1) := by
    refine List.Pairwise.imp_of_mem ?_ hs
    intro a b ha hb hlt
    have hne : a.1 ≠ b.1 := lt_ne' pathLt_strictTotal _ _ hlt
    refine ⟨fun h => ?_, fun h => ?_⟩
    · rcases splitOn_related _ _ _ h with he | hsw
      · exact hne he
      · rw [hpf a ha b hb] at hsw
        exact absurd hsw (by simp)
    · rcases splitOn_related _ _ _ h with he | hsw
      · exact hne he.symm
      · rw [hpf b hb a ha] at hsw
        exact absurd hsw (by simp)
  obtain ⟨t, h1, h2, h4⟩ := makeIndexTree_fold_tidy idx hnt hpw .nil trivial
    (by simp [filesOf])
  exact ⟨t, h1, h2, by simpa [filesOf] using h4⟩

/-! ## `WriteIndex`: sub-trees are stored before their parent -/

theorem stored_CompressWrite (root : Str) (st : Store) (p b id : Str)
    (h : stored root st id = true) : stored root (CompressWrite p b st) id = true := by
  unfold stored at *
  cases hg : GetPath root id with
  | none => rw [hg] at h; exact absurd h (by simp)
  | some q =>
    rw [hg] at h
    simp only [CompressWrite] at *
    by_cases hq : q = p
    · simp [hq]
    · simpa [hq] using h

theorem stored_writeAll (h : Hash) (root : Str) (l : List Str) (id : Str) :
    ∀ st : Store, stored root st id = true → stored root (writeAll h root l st) id = true := by
  induction l with
  | nil => intro st hs; exact hs
  | cons c l ih =>
    intro st hs
    simp only [writeAll, List.foldl_cons]
    exact ih _ (stored_CompressWrite root st _ _ id hs)

theorem writeAll_stored (h : Hash) (root : Str) (l : List Str) (b : Str) (hb : b ∈ l) :
    ∀ st : Store, stored root (writeAll h root l st) (h.sum b) = true := by
  induction l with
  | nil => simp at hb
  | cons c l ih =>
    intro st
    simp only [writeAll, List.foldl_cons]
    rcases List.mem_cons.mp hb with rfl | hb'
    · apply stored_writeAll
      simp [stored, GetPath_objPath, CompressWrite]
    · exact ih hb' _

theorem bodiesOf_treesOf (h : Hash) (t : IndexTree) :
    bodiesOf h t = (treesOf h t).map treeBody := by
  induction t with
  | nil => rfl
  | leaf k f b rest ih => simpa [bodiesOf, treesOf] using ih
  | dir k f b t rest iht ihr => simp [bodiesOf, treesOf, iht, ihr]

theorem allBodies_allTrees (h : Hash) (t : IndexTree) :
    allBodies h t = (allTrees h t).map treeBody := by
  simp [allBodies, allTrees, bodiesOf_treesOf]

/-- Every tree entry of the entry list of a map names a tree object written for a map
nested in it. -/
theorem treeOf_children (h : Hash) (t : IndexTree) :
    ∀ item ∈ treeOf h t, item.type = ObjectType.TREE →
      ∃ sub ∈ treesOf h t, item.id = h.sum (treeBody sub) := by
  induction t with
  | nil => intro item hi; simp [treeOf] at hi
  | leaf k f b rest ih =>
    intro item hi ht
    rcases List.mem_cons.mp hi with rfl | hi
    · exact absurd ht (by simp)
    · exact ih item hi ht
  | dir k f b t rest _ ihr =>
    intro item hi ht
    rcases List.mem_cons.mp hi with rfl | hi
    · exact ⟨treeOf h t, by simp [treesOf], rfl⟩
    · obtain ⟨sub, hs, he⟩ := ihr item hi ht
      exact ⟨sub, by simp [treesOf, hs], he⟩

/-- Every tree entry of a nested entry list names a tree object written for a nested
map. -/
theorem treesOf_children (h : Hash) (t : IndexTree) :
    ∀ tree ∈ treesOf h t, ∀ item ∈ tree, item.type = ObjectType.TREE →
      ∃ sub ∈ treesOf h t, item.id = h.sum (treeBody sub) := by
  induction t with
  | nil => intro tree ht; simp [treesOf] at ht
  | leaf k f b rest ih => exact ih
  | dir k f b t rest iht ihr =>
    intro tree htree item hi hty
    simp only [treesOf, List.append_assoc, List.singleton_append, List.mem_append,
      List.mem_cons] at htree
    rcases htree with h1 | rfl | h3
    · obtain ⟨sub, hs, he⟩ := iht tree h1 item hi hty
      exact ⟨sub, by simp [treesOf, hs], he⟩
    · obtain ⟨sub, hs, he⟩ := treeOf_children h t item hi hty
      exact ⟨sub, by simp [treesOf, hs], he⟩
    · obtain ⟨sub, hs, he⟩ := ihr tree h3 item hi hty
      exact ⟨sub, by simp [treesOf, hs], he⟩

/-- C17: `writeIndexTree` works bottom-up at every level: for every map and every
store, when the loop over the map has built the entry list and `WriteTree` is about to
serialise it, the object of every tree entry of the list is already in the store. So
for every index whose forest is built, `WriteIndex` returns a root id, the store then
holds the object of the root id, the object of every tree it has written and the
object of every tree entry of each of them. The forest is built, and `WriteIndex`
returns, for every index (an ordered map) in which no staged path is a directory
prefix of another and no path ends with a separator. -/
theorem C17_WriteIndex_bottom_up (h : Hash) (root : Str) :
    (∀ (idt : IndexTree) (st : Store), ∃ (items : Tree) (st1 : Store),
      buildTree h root idt st = some (items, st1) ∧
      writeIndexTree h root idt st = WriteTree h root items st1 ∧
      ∀ item ∈ items, item.type = ObjectType.TREE → stored root st1 item.id = true) ∧
    (∀ (idx : Index) (st : Store) (t : IndexTree), makeIndexTree idx = some t →
      ∃ (r : Str) (st' : Store),
        WriteIndex h root idx st = some (r, st') ∧
        r = h.sum (treeBody (treeOf h t)) ∧
        st' = writeAll h root ((allTrees h t).map treeBody) st ∧
        stored root st' r = true ∧
        ∀ tree ∈ allTrees h t, stored root st' (h.sum (treeBody tree)) = true ∧
          ∀ item ∈ tree, item.type = ObjectType.TREE → stored root st' item.id = true) ∧
    (∀ (idx : Index) (st : Store), omSorted pathLt idx → prefixFree idx →
      (∀ e ∈ idx, e.1.getLast? ≠ some '/') →
      ∃ (r : Str) (st' : Store),
        WriteIndex h root idx st = some (r, st') ∧ stored root st' r = true) := by
  have hb : ∀ (idx : Index) (st : Store) (t : IndexTree), makeIndexTree idx = some t →
      ∃ (r : Str) (st' : Store),
        WriteIndex h root idx st = some (r, st') ∧
        r = h.sum (treeBody (treeOf h t)) ∧
        st' = writeAll h root ((allTrees h t).map treeBody) st ∧
        stored root st' r = true ∧
        ∀ tree ∈ allTrees h t, stored root st' (h.sum (treeBody tree)) = true ∧
          ∀ item ∈ tree, item.type = ObjectType.TREE → stored root st' item.id = true := by
    intro idx st t ht
    have hall : ∀ tree ∈ allTrees h t,
        stored root (writeAll h root ((allTrees h t).map treeBody) st)
          (h.sum (treeBody tree)) = true :=
      fun tree htree => writeAll_stored h root _ _ (List.mem_map_of_mem _ htree) st
    refine ⟨h.sum (treeBody (treeOf h t)), writeAll h root ((allTrees h t).map treeBody) st,
      ?_, rfl, rfl, hall _ (by simp [allTrees]), ?_⟩
    · simp only [WriteIndex, ht, writeIndexTree_eq, allBodies_allTrees]
    · intro tree htree
      refine ⟨hall tree htree, ?_⟩
      intro item hi hty
      have hsub : ∃ sub ∈ treesOf h t, item.id = h.sum (treeBody sub) := by
        simp only [allTrees, List.mem_append, List.mem_singleton] at htree
        rcases htree with h1 | rfl
        · exact treesOf_children h t tree h1 item hi hty
        · exact treeOf_children h t item hi hty
      obtain ⟨sub, hs, he⟩ := hsub
      rw [he]
      exact hall sub (by simp [allTrees, hs])
  refine ⟨?_, hb, ?_⟩
  · intro idt st
    refine ⟨treeOf h idt, writeAll h root (bodiesOf h idt) st, buildTree_eq h root idt st, ?_, ?_⟩
    · simp only [writeIndexTree, buildTree_eq]
    · intro item hi hty
      obtain ⟨sub, hs, he⟩ := treeOf_children h idt item hi hty
      rw [he]
      exact writeAll_stored h root _ _ (by rw [bodiesOf_treesOf]; exact List.mem_map_of_mem _ hs) st
  · intro idx st hs hpf hnt
    obtain ⟨t, ht, _, _⟩ := makeIndexTree_builds idx hs hpf hnt
    obtain ⟨r, st', h1, _, _, h4, _⟩ := hb idx st t ht
    exact ⟨r, st', h1, h4⟩

/-- C17 witness: for the index with `dir/a.txt` and `dir/b.txt` the forest is built;
the tree of `dir` is written first and the root tree, whose entry `dir` names it,
second; `WriteIndex` returns and the store holds both. -/
theorem C17_WriteIndex_witness :
    prefixFree [("dir/a.txt".toList, idA), ("dir/b.txt".toList, idB)] ∧
    makeIndexTree [("dir/a.txt".toList, idA), ("dir/b.txt".toList, idB)] = some sampleForest ∧
    allTrees toyHash sampleForest =
      [[{ mode := 0o100644, type := ObjectType.BLOB, id := idA, filename := "a.txt".toList },
        { mode := 0o100644, type := ObjectType.BLOB, id := idB, filename := "b.txt".toList }],
       [{ mode := 0o40000, type := ObjectType.TREE,
          id := toyHash.sum (treeBody (treeOf toyHash
            (.leaf "a.txt".toList "a.txt".toList idA
              (.leaf "b.txt".toList "b.txt".toList idB .nil)))),
          filename := "dir".toList }]] ∧
    ∃ (r : Str) (st' : Store),
      WriteIndex toyHash "/r".toList [("dir/a.txt".toList, idA), ("dir/b.txt".toList, idB)]
        (fun _ => none) = some (r, st') ∧
      r = toyHash.sum (treeBody (treeOf toyHash sampleForest)) ∧
      st' = writeAll toyHash "/r".toList ((allTrees toyHash sampleForest).map treeBody)
        (fun _ => none) ∧
      stored "/r".toList st' r = true ∧
      ∀ tree ∈ allTrees toyHash sampleForest,
        stored "/r".toList st' (toyHash.sum (treeBody tree)) = true ∧
        ∀ item ∈ tree, item.type = ObjectType.TREE → stored "/r".toList st' item.id = true :=
  ⟨by decide, by decide, by decide,
   (C17_WriteIndex_bottom_up toyHash "/r".toList).2.1
     [("dir/a.txt".toList, idA), ("dir/b.txt".toList, idB)] (fun _ => none) sampleForest
     (by decide)⟩

/-! ## `WriteIndex`: entries in key order, the same id for the same index -/

theorem keysOf_insert (entry : IndexTree → IndexTree) (k : Str)
    (hE : ∀ x, keysOf (entry x) = k :: keysOf x) (t : IndexTree) :
    ∀ x ∈ keysOf (IndexTree.insert entry k t), x = k ∨ x ∈ keysOf t := by
  induction t with
  | nil =>
    intro x hx
    simp only [IndexTree.insert, hE, keysOf, List.mem_cons] at hx
    exact hx
  | leaf k' f b rest ih =>
    intro x hx
    simp only [IndexTree.insert] at hx
    split at hx
    · rw [hE] at hx
      exact List.mem_cons.mp hx
    · split at hx
      · simp only [keysOf, List.mem_cons] at hx ⊢
        rcases hx with h1 | h2
        · exact Or.inr (Or.inl h1)
        · rcases ih x h2 with h3 | h4
          · exact Or.inl h3
          · exact Or.inr (Or.inr h4)
      · exact Or.inr hx
  | dir k' f b t rest _ ih =>
    intro x hx
    simp only [IndexTree.insert] at hx
    split at hx
    · rw [hE] at hx
      exact List.mem_cons.mp hx
    · split at hx
      · simp only [keysOf, List.mem_cons] at hx ⊢
        rcases hx with h1 | h2
        · exact Or.inr (Or.inl h1)
        · rcases ih x h2 with h3 | h4
          · exact Or.inl h3
          · exact Or.inr (Or.inr h4)
      · exact Or.inr hx

theorem insert_ordered (entry : IndexTree → IndexTree) (k : Str)
    (hE1 : ∀ x, keysOf (entry x) = k :: keysOf x)
    (hE2 : ∀ x, orderedForest x → (∀ k' ∈ keysOf x, strLt k k' = true) →
      orderedForest (entry x))
    (t : IndexTree) (ht : orderedForest t) : orderedForest (IndexTree.insert entry k t) := by
  induction t with
  | nil => exact hE2 .nil trivial (by simp [keysOf])
  | leaf k' f b rest ih =>
    obtain ⟨hk, hlt, hr⟩ := ht
    simp only [IndexTree.insert]
    split
    · rename_i h1
      apply hE2 _ (show orderedForest (.leaf k' f b rest) from ⟨hk, hlt, hr⟩)
      intro x hx
      rcases List.mem_cons.mp hx with rfl | hx
      · exact h1
      · exact strLt_strictTotal.trans _ _ _ h1 (hlt x hx)
    · split
      · rename_i h1 h2
        refine ⟨hk, ?_, ih hr⟩
        intro x hx
        rcases keysOf_insert entry k hE1 rest x hx with rfl | hx
        · exact h2
        · exact hlt x hx
      · exact ⟨hk, hlt, hr⟩
  | dir k' f b t rest _ ih =>
    obtain ⟨hk, hlt, hsub, hr⟩ := ht
    simp only [IndexTree.insert]
    split
    · rename_i h1
      apply hE2 _ (show orderedForest (.dir k' f b t rest) from ⟨hk, hlt, hsub, hr⟩)
      intro x hx
      rcases List.mem_cons.mp hx with rfl | hx
      · exact h1
      · exact strLt_strictTotal.trans _ _ _ h1 (hlt x hx)
    · split
      · rename_i h1 h2
        refine ⟨hk, ?_, hsub, ih hr⟩
        intro x hx
        rcases keysOf_insert entry k hE1 rest x hx with rfl | hx
        · exact h2
        · exact hlt x hx
      · exact ⟨hk, hlt, hsub, hr⟩

theorem keysOf_setTree (d : Str) (s : IndexTree) (t : IndexTree) :
    keysOf (IndexTree.setTree d s t) = keysOf t := by
  induction t with
  | nil => rfl
  | leaf k f b rest ih =>
    simp only [IndexTree.setTree]
    split
    · rfl
    · simp only [keysOf, ih]
  | dir k f b t rest _ ih =>
    simp only [IndexTree.setTree]
    split
    · rfl
    · simp only [keysOf, ih]

theorem setTree_ordered (d : Str) (s : IndexTree) (hs : orderedForest s) (t : IndexTree)
    (ht : orderedForest t) : orderedForest (IndexTree.setTree d s t) := by
  induction t with
  | nil => trivial
  | leaf k f b rest ih =>
    obtain ⟨hk, hlt, hr⟩ := ht
    simp only [IndexTree.setTree]
    split
    · exact ⟨hk, hlt, hr⟩
    · exact ⟨hk, by rw [keysOf_setTree]; exact hlt, ih hr⟩
  | dir k f b t rest _ ih =>
    obtain ⟨hk, hlt, hsub, hr⟩ := ht
    simp only [IndexTree.setTree]
    split
    · exact ⟨hk, hlt, hs, hr⟩
    · exact ⟨hk, by rw [keysOf_setTree]; exact hlt, hsub, ih hr⟩

theorem find_dir_ordered (d : Str) (sub : IndexTree) (t : IndexTree) (ht : orderedForest t)
    (h : IndexTree.find d t = some (some sub)) : orderedForest sub := by
  induction t with
  | nil => simp [IndexTree.find] at h
  | leaf k f b rest ih =>
    simp only [IndexTree.find] at h
    split at h
    · exact absurd h (by simp)
    · exact ih ht.2.2 h
  | dir k f b t rest _ ih =>
    simp only [IndexTree.find] at h
    split at h
    · simp only [Option.some.injEq] at h
      subst h
      exact ht.2.2.1
    · exact ih ht.2.2.2 h

theorem descend_ordered (ds : List Str) (f b : Str) :
    ∀ t t' : IndexTree, orderedForest t → descend ds f b t = some t' → orderedForest t' := by
  induction ds with
  | nil =>
    intro t t' ht hd
    simp only [descend, Option.some.injEq] at hd
    subst hd
    exact insert_ordered (IndexTree.leaf f f b) f (fun _ => rfl)
      (fun x hx hk => ⟨rfl, hk, hx⟩) t ht
  | cons d ds ih =>
    intro t t' ht hd
    simp only [descend] at hd
    cases hfind : IndexTree.find d t with
    | none =>
      rw [hfind] at hd
      simp only [Option.map_eq_some'] at hd
      obtain ⟨s, hs, rfl⟩ := hd
      have hso := ih .nil s trivial hs
      exact insert_ordered (IndexTree.dir d d [] s) d (fun _ => rfl)
        (fun x hx hk => ⟨rfl, hk, hso, hx⟩) t ht
    | some o =>
      rw [hfind] at hd
      cases o with
      | none => exact absurd hd (by simp)
      | some sub =>
        simp only [Option.map_eq_some'] at hd
        obtain ⟨s, hs, rfl⟩ := hd
        exact setTree_ordered d s (ih sub s (find_dir_ordered d sub t ht hfind) hs) t ht

theorem makeIndexTree_ordered (idx : Index) (t : IndexTree) (h : makeIndexTree idx = some t) :
    orderedForest t := by
  have key : ∀ (l : Index) (t0 t1 : IndexTree), orderedForest t0 →
      foldOpt (fun tree (i : Str × Str) =>
        descend (splitOn '/' i.1).dropLast (pathFilename i.1) i.2 tree) t0 l = some t1 →
      orderedForest t1 := by
    intro l
    induction l with
    | nil =>
      intro t0 t1 h0 hf
      simp only [foldOpt, Option.some.injEq] at hf
      subst hf
      exact h0
    | cons e l ih =>
      intro t0 t1 h0 hf
      simp only [foldOpt] at hf
      cases hd : descend (splitOn '/' e.1).dropLast (pathFilename e.1) e.2 t0 with
      | none => rw [hd] at hf; exact absurd hf (by simp)
      | some t2 =>
        rw [hd] at hf
        exact ih t2 t1 (descend_ordered _ _ _ t0 t2 h0 hd) hf
  exact key idx .nil t trivial h

theorem treeOf_names (h : Hash) (t : IndexTree) (ht : orderedForest t) :
    (treeOf h t).map (fun i => i.filename) = keysOf t := by
  induction t with
  | nil => rfl
  | leaf k f b rest ih =>
    obtain ⟨hk, _, hr⟩ := ht
    simp only [treeOf, List.map_cons, keysOf, ih hr, hk]
  | dir k f b t rest _ ih =>
    obtain ⟨hk, _, _, hr⟩ := ht
    simp only [treeOf, List.map_cons, keysOf, ih hr, hk]

theorem treeOf_ascending (h : Hash) (t : IndexTree) (ht : orderedForest t) :
    namesAscending (treeOf h t) := by
  induction t with
  | nil => exact List.Pairwise.nil
  | leaf k f b rest ih =>
    obtain ⟨hk, hlt, hr⟩ := ht
    refine List.Pairwise.cons ?_ (ih hr)
    intro item hi
    have : item.filename ∈ keysOf rest := by
      rw [← treeOf_names h rest hr]
      exact List.mem_map_of_mem _ hi
    rw [← hk]
    exact hlt _ this
  | dir k f b t rest _ ih =>
    obtain ⟨hk, hlt, _, hr⟩ := ht
    refine List.Pairwise.cons ?_ (ih hr)
    intro item hi
    have : item.filename ∈ keysOf rest := by
      rw [← treeOf_names h rest hr]
      exact List.mem_map_of_mem _ hi
    rw [← hk]
    exact hlt _ this

theorem treesOf_ascending (h : Hash) (t : IndexTree) (ht : orderedForest t) :
    ∀ tree ∈ treesOf h t, namesAscending tree := by
  induction t with
  | nil => intro tree hm; simp [treesOf] at hm
  | leaf k f b rest ih => exact ih ht.2.2
  | dir k f b t rest iht ihr =>
    obtain ⟨_, _, hsub, hr⟩ := ht
    intro tree hm
    simp only [treesOf, List.append_assoc, List.singleton_append, List.mem_append,
      List.mem_cons] at hm
    rcases hm with h1 | rfl | h3
    · exact iht hsub tree h1
    · exact treeOf_ascending h t hsub
    · exact ihr hr tree h3

theorem runOps_sorted (ops : List IndexOp) :
    ∀ idx : Index, omSorted pathLt idx → omSorted pathLt (runOps ops idx) := by
  induction ops with
  | nil => intro idx h; exact h
  | cons op ops ih =>
    intro idx h
    simp only [runOps, List.foldl_cons]
    apply ih
    cases op with
    | insert file content => exact omSorted_Insert _ _ _ h
    | remove path => exact omSorted_Remove _ _ h

theorem WriteIndex_id (h : Hash) (root : Str) (idx : Index) (st : Store) :
    (WriteIndex h root idx st).map Prod.fst =
      (makeIndexTree idx).map (fun t => h.sum (treeBody (treeOf h t))) := by
  simp only [WriteIndex]
  cases makeIndexTree idx with
  | none => rfl
  | some t => simp only [writeIndexTree_eq, Option.map_some']

/-- C18: for every index whose forest is built, `WriteIndex` returns, and every tree
object it writes lists its entries in strictly ascending order of entry name. And for
any two sequences of `Insert` and `Remove` operations, each run on an index (an
ordered map), that leave the same path to blob-id map, `WriteIndex` gives the same
root tree id, whatever the object stores hold. -/
theorem C18_WriteIndex_deterministic (h : Hash) (root : Str) :
    (∀ (idx : Index) (st : Store) (t : IndexTree), makeIndexTree idx = some t →
      WriteIndex h root idx st =
        some (h.sum (treeBody (treeOf h t)),
              writeAll h root ((allTrees h t).map treeBody) st) ∧
      ∀ tree ∈ allTrees h t, namesAscending tree) ∧
    (∀ (i1 i2 : Index) (ops1 ops2 : List IndexOp) (st1 st2 : Store),
      omSorted pathLt i1 → omSorted pathLt i2 →
      (∀ k, omFind pathLt k (runOps ops1 i1) = omFind pathLt k (runOps ops2 i2)) →
      (WriteIndex h root (runOps ops1 i1) st1).map Prod.fst =
        (WriteIndex h root (runOps ops2 i2) st2).map Prod.fst) := by
  refine ⟨?_, ?_⟩
  · intro idx st t ht
    have ho := makeIndexTree_ordered idx t ht
    refine ⟨by simp only [WriteIndex, ht, writeIndexTree_eq, allBodies_allTrees], ?_⟩
    intro tree hm
    simp only [allTrees, List.mem_append, List.mem_singleton] at hm
    rcases hm with h1 | rfl
    · exact treesOf_ascending h t ho tree h1
    · exact treeOf_ascending h t ho
  · intro i1 i2 ops1 ops2 st1 st2 h1 h2 hsame
    have heq : runOps ops1 i1 = runOps ops2 i2 :=
      omSorted_ext pathLt_strictTotal _ _ (runOps_sorted ops1 i1 h1) (runOps_sorted ops2 i2 h2)
        hsame
    rw [WriteIndex_id, WriteIndex_id, heq]

/-- C18 witness: staging `dir/b.txt` then `dir/a.txt`, and staging `dir/a.txt`, `x`,
`dir/b.txt` then removing `x`, leave the same index; `WriteIndex` gives the same root id
for both, and the two tree objects written list their entries in ascending order. -/
theorem C18_WriteIndex_witness :
    ((WriteIndex toyHash "/r".toList
        (runOps [.insert "dir/b.txt".toList idB, .insert "dir/a.txt".toList idA] []) (fun _ => none)).map
        Prod.fst =
      (WriteIndex toyHash "/r".toList
        (runOps [.insert "dir/a.txt".toList idA, .insert "x".toList idA,
                 .insert "dir/b.txt".toList idB, .remove "x".toList] []) sampleObjects).map
        Prod.fst) ∧
    (WriteIndex toyHash "/r".toList [("dir/a.txt".toList, idA), ("dir/b.txt".toList, idB)]
        (fun _ => none) =
      some (toyHash.sum (treeBody (treeOf toyHash sampleForest)),
            writeAll toyHash "/r".toList ((allTrees toyHash sampleForest).map treeBody)
              (fun _ => none)) ∧
      ∀ tree ∈ allTrees toyHash sampleForest, namesAscending tree) :=
  ⟨(C18_WriteIndex_deterministic toyHash "/r".toList).2 [] []
      [.insert "dir/b.txt".toList idB, .insert "dir/a.txt".toList idA]
      [.insert "dir/a.txt".toList idA, .insert "x".toList idA,
       .insert "dir/b.txt".toList idB, .remove "x".toList]
      (fun _ => none) sampleObjects (by decide) (by decide)
      (fun k => by
        rw [show runOps [.insert "dir/b.txt".toList idB, .insert "dir/a.txt".toList idA] [] =
          runOps [.insert "dir/a.txt".toList idA, .insert "x".toList idA,
                  .insert "dir/b.txt".toList idB, .remove "x".toList] [] from by decide]),
   (C18_WriteIndex_deterministic toyHash "/r".toList).1
      [("dir/a.txt".toList, idA), ("dir/b.txt".toList, idB)] (fun _ => none) sampleForest
      (by decide)⟩

/-! ## Core: single-path `Checkout` -/

/-- C20 fails on the code: for every snapshot and every relative file name, after the
check `InIndex(filename)` the lookup `idx.find(filename)` finds no entry, whatever the
check returned: the check has erased every entry whose path starts with the name, the
entry of the name itself among them. -/
theorem C20_lookup_after_InIndex_is_end (idx : Index) (filename : Str)
    (hrel : isRelative filename) :
    omFind pathLt filename (InIndex filename idx).2 = none := by
  rw [InIndex_eq]
  show omFind pathLt filename (Remove filename idx).2 = none
  rw [omFind_Remove, relative_path_of_isRelative filename hrel, startsWith_self]
  rfl

/-- C20 witness: on the snapshot that holds `a.txt`, `InIndex("a.txt")` returns true and
leaves the snapshot empty, the lookup of `a.txt` gives the end iterator, and
`Checkout` of the file `a.txt` from the index does not return. -/
theorem C20_lookup_witness :
    isRelative "a.txt".toList ∧
    InIndex "a.txt".toList [("a.txt".toList, idA)] = (true, []) ∧
    omFind pathLt "a.txt".toList (InIndex "a.txt".toList [("a.txt".toList, idA)]).2 = none ∧
    (Checkout (sampleEnv [] true) "index".toList "a.txt".toList []
      (sampleRepo "/r".toList [("a.txt".toList, idA)])).isSome = false :=
  ⟨by decide, by decide,
   C20_lookup_after_InIndex_is_end [("a.txt".toList, idA)] "a.txt".toList (by decide),
   by decide⟩

/-! ## `makeIndexTree`: when a null pointer is followed -/

theorem lexLt_prefix_false {α : Type} {lt : α → α → Bool} (st : StrictTotal lt) :
    ∀ l1 l2 : List α, l1 <+: l2 → lexLt lt l2 l1 = false := by
  intro l1
  induction l1 with
  | nil => intro l2 _; cases l2 <;> rfl
  | cons a as ih =>
    intro l2 hp
    cases l2 with
    | nil => exact absurd hp (by simp)
    | cons b bs =>
      obtain ⟨hab, hps⟩ := List.cons_prefix_cons.mp hp
      subst hab
      simp only [lexLt, st.irrefl, Bool.false_eq_true, if_false]
      exact ih bs hps

theorem not_prefix_of_pathLt (a b : Str) (h : pathLt a b = true) :
    ¬ splitOn '/' b <+: splitOn '/' a := by
  intro hp
  have := lexLt_prefix_false strLt_strictTotal _ _ hp
  simp only [pathLt, pathElems] at h
  rw [this] at h
  exact absurd h (by simp)

theorem splitOn_prefix_of_startsWith (c : Char) (a b : Str)
    (h : startsWith b (a ++ [c]) = true) : splitOn c a <+: splitOn c b := by
  obtain ⟨r, hr⟩ := List.isPrefixOf_iff_prefix.mp h
  rw [← hr, List.append_assoc, List.singleton_append, splitOn_append_sep]
  exact List.prefix_append _ _

theorem files_head_key (t : IndexTree) (ht : tidyForest t) :
    ∀ q ∈ filesOf t, ∀ d, q.1.head? = some d → d ∈ keysOf t := by
  induction t with
  | nil => intro q hq; simp [filesOf] at hq
  | leaf k f b rest ih =>
    obtain ⟨hk, ht'⟩ := ht
    intro q hq d hd
    rcases List.mem_cons.mp hq with rfl | hq
    · simp only [List.head?_cons, Option.some.injEq] at hd
      simp [keysOf, hk, hd]
    · exact List.mem_cons_of_mem _ (ih ht' q hq d hd)
  | dir k f b t rest _ ihr =>
    obtain ⟨hk, _, _, ht'⟩ := ht
    intro q hq d hd
    simp only [filesOf, List.mem_append, List.mem_map] at hq
    rcases hq with ⟨e, _, rfl⟩ | hq
    · simp only [List.head?_cons, Option.some.injEq] at hd
      simp [keysOf, hk, hd]
    · exact List.mem_cons_of_mem _ (ihr ht' q hq d hd)

/-- In an ordered forest a file is found from the top map down: its first name is the
key of a leaf, or of a nested map that holds the rest of its names. -/
theorem find_of_file (t : IndexTree) (ht : tidyForest t) (ho : orderedForest t) (d : Str)
    (xs : List Str) (b : Str) (hq : (d :: xs, b) ∈ filesOf t) :
    (xs = [] ∧ IndexTree.find d t = some none) ∨
    ∃ sub, IndexTree.find d t = some (some sub) ∧ (xs, b) ∈ filesOf sub := by
  induction t with
  | nil => simp [filesOf] at hq
  | leaf k f b0 rest ih =>
    obtain ⟨hk, ht'⟩ := ht
    obtain ⟨_, hlt, ho'⟩ := ho
    rcases List.mem_cons.mp hq with he | hq
    · simp only [Prod.mk.injEq, List.cons.injEq] at he
      obtain ⟨⟨hd, hx⟩, _⟩ := he
      left
      refine ⟨hx, ?_⟩
      simp [IndexTree.find, keyEquiv_eq_decide strLt_strictTotal, hd, hk]
    · have hkey := files_head_key rest ht' _ hq d rfl
      have hne : d ≠ k := fun e => by
        have := hlt d hkey
        rw [e, strLt_strictTotal.irrefl] at this
        exact absurd this (by simp)
      simp only [IndexTree.find, keyEquiv_eq_decide strLt_strictTotal, hne, decide_False,
        Bool.false_eq_true, if_false]
      exact ih ht' ho' hq
  | dir k f b0 t0 rest _ ihr =>
    obtain ⟨hk, _, _, ht'⟩ := ht
    obtain ⟨_, hlt, _, ho'⟩ := ho
    simp only [filesOf, List.mem_append, List.mem_map] at hq
    rcases hq with ⟨e, he, heq⟩ | hq
    · simp only [Prod.mk.injEq, List.cons.injEq] at heq
      obtain ⟨⟨hd, hx⟩, hb⟩ := heq
      right
      refine ⟨t0, ?_, ?_⟩
      · simp [IndexTree.find, keyEquiv_eq_decide strLt_strictTotal, ← hd, hk]
      · rw [← hx, ← hb]
        exact he
    · have hkey := files_head_key rest ht' _ hq d rfl
      have hne : d ≠ k := fun e => by
        have := hlt d hkey
        rw [e, strLt_strictTotal.irrefl] at this
        exact absurd this (by simp)
      simp only [IndexTree.find, keyEquiv_eq_decide strLt_strictTotal, hne, decide_False,
        Bool.false_eq_true, if_false]
      exact ihr ht' ho' hq

/-- The loop over `dirs` follows a null pointer when the names of a file of the forest
are the first of `dirs`. -/
theorem descend_blocked (ds : List Str) (f b : Str) :
    ∀ (t : IndexTree) (q : List Str × Str), tidyForest t → orderedForest t →
      q ∈ filesOf t → q.1 <+: ds → descend ds f b t = none := by
  induction ds with
  | nil =>
    intro t q _ _ hq hp
    exact absurd (List.prefix_nil.mp hp) (filesOf_ne_nil t q hq)
  | cons d ds ih =>
    intro t q ht ho hq hp
    obtain ⟨q1, q2⟩ := q
    cases q1 with
    | nil => exact absurd rfl (filesOf_ne_nil t _ hq)
    | cons x xs =>
      obtain ⟨hxd, hps⟩ := List.cons_prefix_cons.mp hp
      subst hxd
      rcases find_of_file t ht ho x xs q2 hq with ⟨_, hfind⟩ | ⟨sub, hfind, hsub⟩
      · simp only [descend, hfind]
      · have h1 := (find_dir_tidy x sub t ht hfind).1
        have h2 := find_dir_ordered x sub t ho hfind
        simp only [descend, hfind, ih sub (xs, q2) h1 h2 hsub hps, Option.map_none']

theorem makeIndexTree_fold_conv (l : Index) (hnt : ∀ e ∈ l, e.1.getLast? ≠ some '/')
    (hs : l.Pairwise (fun a b => pathLt a.1 b.1 = true)) :
    ∀ t0 t : IndexTree, tidyForest t0 → orderedForest t0 →
      (∀ e ∈ l, ∀ q ∈ filesOf t0, ¬ splitOn '/' e.1 <+: q.1) →
      foldOpt (fun tree (i : Str × Str) =>
          descend (splitOn '/' i.1).dropLast (pathFilename i.1) i.2 tree) t0 l = some t →
      (∀ e ∈ l, ∀ q ∈ filesOf t0, ¬ q.1 <+: splitOn '/' e.1) ∧
      l.Pairwise (fun a b => ¬ splitOn '/' a.1 <+: splitOn '/' b.1 ∧
        ¬ splitOn '/' b.1 <+: splitOn '/' a.1) := by
  induction l with
  | nil => intro t0 t _ _ _ _; exact ⟨by simp, List.Pairwise.nil⟩
  | cons e l ih =>
    intro t0 t ht0 ho0 hbefore hfold
    obtain ⟨p1, p2⟩ := List.pairwise_cons.mp hs
    have hcomps := dirs_filename e.1 (hnt e (List.mem_cons_self _ _))
    simp only [foldOpt] at hfold
    cases hd : descend (splitOn '/' e.1).dropLast (pathFilename e.1) e.2 t0 with
    | none => rw [hd] at hfold; exact absurd hfold (by simp)
    | some t1 =>
      rw [hd] at hfold
      simp only at hfold
      have hA : ∀ q ∈ filesOf t0, ¬ q.1 <+: splitOn '/' e.1 := by
        intro q hq hp
        rw [← hcomps] at hp
        rcases List.prefix_concat_iff.mp hp with heq | hpre
        · apply hbefore e (List.mem_cons_self _ _) q hq
          rw [heq, hcomps]
        · rw [descend_blocked _ _ _ t0 q ht0 ho0 hq hpre] at hd
          exact absurd hd (by simp)
      obtain ⟨t1', s1, s2, s4⟩ := descend_tidy (splitOn '/' e.1).dropLast (pathFilename e.1) e.2
        t0 ht0 (by
          rw [hcomps]
          exact fun q hq => ⟨hA q hq, hbefore e (List.mem_cons_self _ _) q hq⟩)
      rw [hd] at s1
      have ht1 : t1' = t1 := (Option.some.inj s1).symm
      subst ht1
      rw [hcomps] at s4
      have ho1 := descend_ordered _ _ _ t0 t1' ho0 hd
      have hbefore' : ∀ e' ∈ l, ∀ q ∈ filesOf t1', ¬ splitOn '/' e'.1 <+: q.1 := by
        intro e' he' q hq
        rcases List.mem_cons.mp (s4.subset hq) with rfl | hq'
        · exact not_prefix_of_pathLt _ _ (p1 e' he')
        · exact hbefore e' (List.mem_cons_of_mem _ he') q hq'
      obtain ⟨r1, r2⟩ := ih (fun e' he' => hnt e' (List.mem_cons_of_mem _ he')) p2 t1' t s2
        ho1 hbefore' hfold
      refine ⟨?_, List.pairwise_cons.mpr ⟨?_, r2⟩⟩
      · intro e'' he'' q hq
        rcases List.mem_cons.mp he'' with rfl | he'
        · exact hA q hq
        · exact r1 e'' he' q (s4.symm.subset (List.mem_cons_of_mem _ hq))
      · intro e' he'
        exact ⟨r1 e' he' (splitOn '/' e.1, e.2) (s4.symm.subset (List.mem_cons_self _ _)),
          not_prefix_of_pathLt _ _ (p1 e' he')⟩

/-- For an index (an ordered map) whose paths do not end with a separator: when
`makeIndexTree` builds the forest, no staged path is a directory prefix of another. -/
theorem makeIndexTree_built_prefixFree (idx : Index) (hs : omSorted pathLt idx)
    (hnt : ∀ e ∈ idx, e.1.getLast? ≠ some '/') (t : IndexTree)
    (h : makeIndexTree idx = some t) : prefixFree idx := by
  obtain ⟨_, hpw⟩ := makeIndexTree_fold_conv idx hnt hs .nil t trivial trivial
    (by simp [filesOf]) h
  intro e1 h1 e2 h2
  cases hsw : startsWith e2.1 (e1.1 ++ ['/']) with
  | false => rfl
  | true =>
    exfalso
    have hp := splitOn_prefix_of_startsWith '/' _ _ hsw
    have hne : e1 ≠ e2 := by
      rintro rfl
      have hlen := (List.isPrefixOf_iff_prefix.mp hsw).length_le
      simp at hlen
    have hsym : Symmetric (fun a b : Str × Str => ¬ splitOn '/' a.1 <+: splitOn '/' b.1 ∧
        ¬ splitOn '/' b.1 <+: splitOn '/' a.1) := fun a b hab => ⟨hab.2, hab.1⟩
    exact (hpw.forall hsym h1 h2 hne).1 hp

/-- C21 as stated fails in both directions. The path `x/` followed by a separator
starts `x//y`, yet the forest of the two is built: the leaf of `x/` has the key `.`,
which the names `x`, empty, `y` pass by (the same holds for `x/` with `x/y`, of which
`x/` is a leading part). And no path of `a/` and `a/./b` followed by a separator starts
the other, yet `a/./b` descends through the leaf `.` of `a/`, whose `tree` is null. -/
theorem C21_counterexample :
    (omSorted pathLt [("x/".toList, idA), ("x//y".toList, idB)] ∧
      ¬ prefixFree [("x/".toList, idA), ("x//y".toList, idB)] ∧
      (makeIndexTree [("x/".toList, idA), ("x//y".toList, idB)]).isSome = true) ∧
    (omSorted pathLt [("x/".toList, idA), ("x/y".toList, idB)] ∧
      startsWith "x/y".toList "x/".toList = true ∧
      (makeIndexTree [("x/".toList, idA), ("x/y".toList, idB)]).isSome = true) ∧
    (omSorted pathLt [("a/".toList, idA), ("a/./b".toList, idB)] ∧
      prefixFree [("a/".toList, idA), ("a/./b".toList, idB)] ∧
      makeIndexTree [("a/".toList, idA), ("a/./b".toList, idB)] = none) := by
  decide

/-- C21 (amended): for every index (an ordered map) whose paths are clean (no root, no
empty name between separators), `makeIndexTree` builds the forest without following
the null `tree` pointer of a leaf if and only if no staged path is a directory prefix
of another staged path. -/
theorem C21_null_pointer_iff_prefixFree (idx : Index) (hs : omSorted pathLt idx)
    (hc : ∀ e ∈ idx, cleanPath e.1) :
    (makeIndexTree idx).isSome = true ↔ prefixFree idx := by
  have hnt : ∀ e ∈ idx, e.1.getLast? ≠ some '/' :=
    fun e he => cleanPath_getLast _ (hc e he)
  constructor
  · intro h
    obtain ⟨t, ht⟩ := Option.isSome_iff_exists.mp h
    exact makeIndexTree_built_prefixFree idx hs hnt t ht
  · intro h
    obtain ⟨t, ht, _, _⟩ := makeIndexTree_builds idx hs h hnt
    rw [ht]
    rfl

/-- C21 witness: with `a` and `a/b` staged the index is not prefix-free and
`makeIndexTree` follows the null pointer of the leaf `a`; with `dir/a.txt` and
`dir/b.txt` staged the index is prefix-free and the forest is built. -/
theorem C21_null_pointer_witness :
    (((makeIndexTree [("a".toList, idA), ("a/b".toList, idB)]).isSome = true ↔
        prefixFree [("a".toList, idA), ("a/b".toList, idB)]) ∧
      makeIndexTree [("a".toList, idA), ("a/b".toList, idB)] = none ∧
      ¬ prefixFree [("a".toList, idA), ("a/b".toList, idB)]) ∧
    (((makeIndexTree [("dir/a.txt".toList, idA), ("dir/b.txt".toList, idB)]).isSome = true ↔
        prefixFree [("dir/a.txt".toList, idA), ("dir/b.txt".toList, idB)]) ∧
      makeIndexTree [("dir/a.txt".toList, idA), ("dir/b.txt".toList, idB)] =
        some sampleForest ∧
      prefixFree [("dir/a.txt".toList, idA), ("dir/b.txt".toList, idB)]) :=
  ⟨⟨C21_null_pointer_iff_prefixFree [("a".toList, idA), ("a/b".toList, idB)]
      (by decide) (by decide), by decide, by decide⟩,
   ⟨C21_null_pointer_iff_prefixFree [("dir/a.txt".toList, idA), ("dir/b.txt".toList, idB)]
      (by decide) (by decide), by decide, by decide⟩⟩

end Sit
